import Mathlib

/-!
# Verification of the `pheap` pairing-heap library

Shallow embedding of the `pheap` crate: the addressable min-pairing heap of
`src/ph.rs` and the graph algorithms of `src/graph.rs` (Dijkstra SSSP and
Prim MST), together with proofs and refutations of the specification claims.

## Modelling conventions

* The pointer structure `Inner<K, P>` of `src/ph.rs` has fields `parent`,
  `left` (first child) and `right` (next older sibling).  We model it as the
  left-child/right-sibling binary tree `PH K P`; a `null` pointer is `PH.nil`.
  The `parent` back-pointer is determined by the position of a node inside the
  tree and is therefore not stored; code that follows pointers is modelled by
  paths (lists of left/right steps) into the binary tree.
* Rust's `PartialOrd` priorities are instantiated with a `LinearOrder`, which
  is how every call site of the crate uses them (integers, `f64`).
* In-place mutation is modelled by state passing: an operation returns the new
  heap (and, for `delete_min`, the removed pair).
* `while` loops are modelled by fuel-indexed recursion; theorems about a loop
  take the hypothesis that the run drained its work queue, and concrete
  witnesses discharge that hypothesis by evaluation.
* The weight type `W` of `src/graph.rs` (bound `Bounded + Num + Zero +
  PartialOrd + Copy`) is instantiated with `WithTop Nat`: `zero` is `0`,
  `max_value` is `⊤`, addition and the order are those of `WithTop Nat`.
-/

namespace Pheap

/-- Left-child/right-sibling rendering of `Inner<K, P>` from `src/ph.rs`:
`left` models the `left` (first child) pointer and `right` the `right`
(next sibling) pointer; `nil` models a null `Option<NonNull<_>>`. -/
inductive PH (K P : Type) : Type where
  | nil : PH K P
  | node (key : K) (prio : P) (left : PH K P) (right : PH K P) : PH K P
deriving DecidableEq

namespace PH

variable {K P : Type}

/-- `PairingHeap::meld` (`src/ph.rs` lines 84-92): attach `node2` as the new
first child of `node1`.  The source sets `node2.parent := node1`,
`node2.right := node1.left`, `node1.left := node2`; `node2`'s previous sibling
pointer is overwritten (every call site passes a detached `node2`).  The
source takes non-null pointers, so the `nil` fallback is never reached. -/
def meld : PH K P → PH K P → PH K P
  | node k1 p1 l1 r1, node k2 p2 l2 _ => node k1 p1 (node k2 p2 l2 l1) r1
  | t, _ => t

/-- `PairingHeap::merge_nodes` (`src/ph.rs` lines 61-81): meld two optional
roots, the strictly smaller priority on top; when `node1.prio < node2.prio`
fails (in particular on ties) `node2` is melded over `node1`. -/
def merge_nodes [LinearOrder P] : PH K P → PH K P → PH K P
  | node k1 p1 l1 r1, node k2 p2 l2 r2 =>
    if p1 < p2 then meld (node k1 p1 l1 r1) (node k2 p2 l2 r2)
    else meld (node k2 p2 l2 r2) (node k1 p1 l1 r1)
  | node k1 p1 l1 r1, nil => node k1 p1 l1 r1
  | nil, t => t

/-- Number of nodes of the (binary) tree, i.e. of the melded forest. -/
def sizeT : PH K P → Nat
  | nil => 0
  | node _ _ l r => sizeT l + 1 + sizeT r

/-- Multiset of `(key, priority)` pairs stored in a tree. -/
def elems : PH K P → Multiset (K × P)
  | nil => 0
  | node k p l r => (k, p) ::ₘ (elems l + elems r)

/-- Multiset of priorities stored in a tree. -/
def prios (t : PH K P) : Multiset P := (elems t).map Prod.snd

/-- `allGE p t`: every priority in the binary subtree `t` is `≥ p`.  Under the
left-child/right-sibling encoding, `allGE p t` for `t` the `left` child of a
node with priority `p` says exactly that all descendants of that node respect
the heap order. -/
def allGE [LinearOrder P] (p : P) : PH K P → Bool
  | nil => true
  | node _ q l r => decide (p ≤ q) && allGE p l && allGE p r

/-- Heap-order well-formedness of a forest: every node's descendants have
priorities `≥` its own. -/
def nodeWF [LinearOrder P] : PH K P → Bool
  | nil => true
  | node _ p l r => allGE p l && nodeWF l && nodeWF r

/-- The root of a heap has no sibling (its `right` pointer is null). -/
def noSib : PH K P → Bool
  | nil => true
  | node _ _ _ nil => true
  | node _ _ _ (node _ _ _ _) => false

end PH

/-- `PairingHeap<K, P>` from `src/ph.rs` lines 4-8: an optional root pointer
and a length counter. -/
structure PairingHeap (K P : Type) : Type where
  root : PH K P
  len : Nat
deriving DecidableEq

namespace PairingHeap

variable {K P : Type}

/-- `PairingHeap::new` / `Default::default`: the empty heap. -/
def new : PairingHeap K P := ⟨.nil, 0⟩

/-- `PairingHeap::is_empty`: whether `len == 0`. -/
def is_empty (h : PairingHeap K P) : Bool := h.len == 0

/-- `PairingHeap::find_min` (`src/ph.rs` lines 31-39): key and priority of the
root, if any.  The source returns references; the model returns values. -/
def find_min : PairingHeap K P → Option (K × P)
  | ⟨.nil, _⟩ => none
  | ⟨.node k p _ _, _⟩ => some (k, p)

/-- `PairingHeap::merge` (`src/ph.rs` lines 47-58): lengths add, the roots are
melded by `merge_nodes`. -/
def merge [LinearOrder P] (self other : PairingHeap K P) : PairingHeap K P :=
  ⟨PH.merge_nodes self.root other.root, self.len + other.len⟩

/-- `PairingHeap::insert` / `insert2` (`src/ph.rs` lines 96-115): meld a fresh
single node onto the root and bump the length.  The returned `HeapElmt` handle
is a stable pointer to the fresh node; handles are modelled by the (unique at
every call site) key of the node they point to. -/
def insert [LinearOrder P] (h : PairingHeap K P) (key : K) (prio : P) :
    PairingHeap K P :=
  ⟨PH.merge_nodes h.root (.node key prio .nil .nil), h.len + 1⟩

end PairingHeap

namespace PH

variable {K P : Type}

/-- First pass of `PairingHeap::delete_min` (`src/ph.rs` lines 253-270): walk
the detached child list left to right, detach each adjacent pair from its
siblings (`take` of the `right` pointers) and meld it, collecting the results
in order; an unpaired final child is carried through by
`merge_nodes(node, None)`. -/
def first_pass [LinearOrder P] : PH K P → List (PH K P)
  | nil => []
  | node k p l nil => [node k p l nil]
  | node k p l (node k2 p2 l2 r2) =>
    merge_nodes (node k p l nil) (node k2 p2 l2 nil) :: first_pass r2

/-- Second pass of `PairingHeap::delete_min` (`src/ph.rs` lines 272-281): pop
the melded trees from the back, folding each earlier tree into the
accumulator with `merge_nodes`. -/
def second_pass [LinearOrder P] : List (PH K P) → PH K P
  | [] => nil
  | [t] => t
  | t :: ts => merge_nodes (second_pass ts) t

end PH

namespace PairingHeap

variable {K P : Type}

/-- `PairingHeap::delete_min` (`src/ph.rs` lines 240-286): remove the root,
run the two-pass pairing scheme on its child list, decrement the length.
Returns the removed `(key, prio)` and the new heap. -/
def delete_min [LinearOrder P] : PairingHeap K P → Option ((K × P) × PairingHeap K P)
  | ⟨.nil, _⟩ => none
  | ⟨.node k p l _, len⟩ =>
    let root : PH K P :=
      match l with
      | .nil => .nil
      | .node k2 p2 l2 r2 => PH.second_pass (PH.first_pass (.node k2 p2 l2 r2))
    some ((k, p), ⟨root, len - 1⟩)

end PairingHeap

namespace PH

/-- A step into the binary tree: `l` follows the `left` (first child) pointer,
`r` the `right` (sibling) pointer. -/
inductive Dir : Type where
  | l : Dir
  | r : Dir
deriving DecidableEq

/-- A position in the tree, as the list of pointer steps from the root.  A
`NonNull<Inner<K, P>>` node reference of the source is modelled by the path of
the node it points at. -/
abbrev Path := List Dir

variable {K P : Type}

/-- Follow a path of pointer steps; `none` models dereferencing a pointer
that the given tree does not contain. -/
def getAt : PH K P → Path → Option (PH K P)
  | t, [] => some t
  | nil, _ :: _ => none
  | node _ _ l _, Dir.l :: ds => getAt l ds
  | node _ _ _ r, Dir.r :: ds => getAt r ds

/-- Replace the subtree at a path (in-place pointer update in the source).
On an invalid path the tree is returned unchanged. -/
def setAt : PH K P → Path → PH K P → PH K P
  | _, [], s => s
  | nil, _ :: _, _ => nil
  | node k p l r, Dir.l :: ds, s => node k p (setAt l ds s) r
  | node k p l r, Dir.r :: ds, s => node k p l (setAt r ds s)

/-- The inner `while let Some(front) = tmp_nodes.pop_front()` loop of
`PairingHeap::decrease_prio` (`src/ph.rs` lines 147-152): pop queued node
references until one has a non-null `left` pointer, and descend into it. -/
def popFront (t : PH K P) : List Path → Option Path × List Path
  | [] => (none, [])
  | q :: qs =>
    match getAt t q with
    | some (node _ _ (node _ _ _ _) _) => (some (q ++ [Dir.l]), qs)
    | _ => popFront t qs

/-- The search loop of `PairingHeap::decrease_prio` (`src/ph.rs` lines
130-154): breadth-first traversal from `root.left` using a FIFO queue of
visited node references, returning the reference (path) of the first node
whose key equals `key`.  The source walks pointers of a finite tree and so
terminates; the model makes this explicit with a fuel argument (one unit per
visited node, `sizeT` at the call site). -/
def bfs_find [DecidableEq K] (t : PH K P) (key : K) :
    Nat → Option Path → List Path → Option Path
  | 0, _, _ => none
  | _ + 1, none, _ => none
  | fuel + 1, some pa, queue =>
    match getAt t pa with
    | some (node k _ _ r) =>
      if k = key then some pa
      else
        match r with
        | node _ _ _ _ => bfs_find t key fuel (some (pa ++ [Dir.r])) (queue ++ [pa])
        | nil =>
          let pr := popFront t (queue ++ [pa])
          bfs_find t key fuel pr.1 pr.2
    | _ => none

/-- Path to the `parent` of the node at the given path: drop the trailing
sibling (`right`) steps, then the final first-child (`left`) step.  This is
the node the source reaches through the `parent` back-pointer. -/
def parent_path (pa : Path) : Path :=
  ((pa.reverse.dropWhile fun d => decide (d = Dir.r)).drop 1).reverse

/-- Path of the first node carrying `key`, in depth-first order.  This models
dereferencing a `HeapElmt` handle: a handle is a stable pointer into the
heap, and at every call site of the crate keys are pairwise distinct, so the
(unique) node carrying the handle's key is the node the pointer designates. -/
def find_key [DecidableEq K] : PH K P → K → Option Path
  | nil, _ => none
  | node k _ l r, key =>
    if k = key then some []
    else
      match find_key l key with
      | some pa => some (Dir.l :: pa)
      | none =>
        match find_key r key with
        | some pa => some (Dir.r :: pa)
        | none => none

end PH

namespace PairingHeap

variable {K P : Type}

/-- `PairingHeap::decrease_prio` (`src/ph.rs` lines 118-182): subtract `delta`
from the priority of the first node (root first, then breadth-first order)
whose key equals `key`.  A root match only rewrites the priority; otherwise,
if the lowered priority still strictly exceeds the parent's the node is
rewritten in place, else it is cut out of its sibling chain (the parent's
`left` or the previous sibling's `right` pointer is redirected to
`node.right`, i.e. the subtree at the node's path is replaced by its `right`
subtree) and the detached node is melded with the root.  The two `h`
fallbacks correspond to pointer dereferences the source asserts cannot fail
(`parent.unwrap()`; the searched path always designates a node). -/
def decrease_prio [DecidableEq K] [LinearOrder P] [Sub P]
    (h : PairingHeap K P) (key : K) (delta : P) : PairingHeap K P :=
  match h.root with
  | .nil => h
  | .node k p l r =>
    if k = key then ⟨.node k (p - delta) l r, h.len⟩
    else
      match PH.bfs_find h.root key (PH.sizeT h.root) (some [PH.Dir.l]) [] with
      | none => h
      | some pa =>
        match PH.getAt h.root pa with
        | some (.node tk tp tl tr) =>
          let newp := tp - delta
          match PH.getAt h.root (PH.parent_path pa) with
          | some (.node _ pp _ _) =>
            if pp < newp then ⟨PH.setAt h.root pa (.node tk newp tl tr), h.len⟩
            else
              ⟨PH.merge_nodes (PH.setAt h.root pa tr) (.node tk newp tl .nil),
                h.len⟩
          | _ => h
        | _ => h

/-- `PairingHeap::update_prio` / `update` (`src/ph.rs` lines 185-237):
overwrite the priority of the node a `HeapElmt` handle points to; if the node
has a parent and the new priority does not strictly exceed the parent's, cut
the node out of its sibling chain and meld it with the root.  A handle is a
stable pointer; every call site of the crate (`mst_prim`, and the scenarios
here) uses pairwise-distinct keys, so the node a live handle points to is
located as the first depth-first occurrence of its key, and a dead handle
(`HeapElmt::is_none`, or a key no longer present) is a no-op, as in the
source's `if let Some(node) = targ`. -/
def update_prio [DecidableEq K] [LinearOrder P]
    (h : PairingHeap K P) (key : K) (new_prio : P) : PairingHeap K P :=
  match PH.find_key h.root key with
  | none => h
  | some [] =>
    match h.root with
    | .node k _ l r => ⟨.node k new_prio l r, h.len⟩
    | .nil => h
  | some pa =>
    match PH.getAt h.root pa with
    | some (.node tk _ tl tr) =>
      match PH.getAt h.root (PH.parent_path pa) with
      | some (.node _ pp _ _) =>
        if pp < new_prio then ⟨PH.setAt h.root pa (.node tk new_prio tl tr), h.len⟩
        else
          ⟨PH.merge_nodes (PH.setAt h.root pa tr) (.node tk new_prio tl .nil),
            h.len⟩
      | _ => h
    | _ => h

/-- Well-formedness of a heap value: the tree is heap-ordered, the root has no
sibling, and the length counter agrees with the number of nodes.  Every heap
reachable through the public API satisfies it. -/
def WF [LinearOrder P] (h : PairingHeap K P) : Prop :=
  PH.nodeWF h.root = true ∧ PH.noSib h.root = true ∧ h.len = PH.sizeT h.root

/-- Repeatedly call `delete_min` until it returns `None` (or the fuel, chosen
`≥ h.len` by callers, runs out), collecting the removed pairs in order. -/
def drain [LinearOrder P] : Nat → PairingHeap K P → List (K × P)
  | 0, _ => []
  | fuel + 1, h =>
    match h.delete_min with
    | none => []
    | some (kp, h2) => kp :: drain fuel h2

/-- Insert a list of `(key, prio)` pairs in order, starting from a given
heap. -/
def insert_list [LinearOrder P] (h : PairingHeap K P) :
    List (K × P) → PairingHeap K P
  | [] => h
  | (k, p) :: kps => insert_list (h.insert k p) kps

end PairingHeap

/-! ## Basic lemmas about the heap-order predicates -/

namespace PH

variable {K P : Type}

@[simp] theorem allGE_nil [LinearOrder P] {p : P} :
    allGE p (nil : PH K P) = true := rfl

theorem allGE_node [LinearOrder P] {p q : P} {k : K} {l r : PH K P} :
    allGE p (node k q l r) = (decide (p ≤ q) && allGE p l && allGE p r) := rfl

theorem allGE_node_iff [LinearOrder P] {p q : P} {k : K} {l r : PH K P} :
    allGE p (node k q l r) = true ↔
      p ≤ q ∧ allGE p l = true ∧ allGE p r = true := by
  simp [allGE_node, Bool.and_eq_true, and_assoc]

@[simp] theorem nodeWF_nil [LinearOrder P] : nodeWF (nil : PH K P) = true := rfl

theorem nodeWF_node_iff [LinearOrder P] {p : P} {k : K} {l r : PH K P} :
    nodeWF (node k p l r) = true ↔
      allGE p l = true ∧ nodeWF l = true ∧ nodeWF r = true := by
  simp [nodeWF, Bool.and_eq_true, and_assoc]

theorem allGE_mono [LinearOrder P] {p q : P} (hpq : p ≤ q) :
    ∀ {t : PH K P}, allGE q t = true → allGE p t = true
  | nil, _ => rfl
  | node _ s l r, h => by
    rw [allGE_node_iff] at h ⊢
    exact ⟨le_trans hpq h.1, allGE_mono hpq h.2.1, allGE_mono hpq h.2.2⟩

@[simp] theorem prios_nil : prios (nil : PH K P) = 0 := rfl

theorem prios_node {k : K} {p : P} {l r : PH K P} :
    prios (node k p l r) = p ::ₘ (prios l + prios r) := by
  simp [prios, elems]

theorem allGE_iff_prios [LinearOrder P] {p : P} :
    ∀ {t : PH K P}, allGE p t = true ↔ ∀ q ∈ prios t, p ≤ q
  | nil => by simp
  | node k s l r => by
    rw [allGE_node_iff, allGE_iff_prios, allGE_iff_prios, prios_node]
    constructor
    · rintro ⟨h1, h2, h3⟩ q hq
      rcases Multiset.mem_cons.1 hq with rfl | hq
      · exact h1
      · rcases Multiset.mem_add.1 hq with hq | hq
        · exact h2 q hq
        · exact h3 q hq
    · intro hall
      refine ⟨hall s (Multiset.mem_cons_self _ _), fun q hq => ?_, fun q hq => ?_⟩
      · exact hall q (Multiset.mem_cons_of_mem (Multiset.mem_add.2 (Or.inl hq)))
      · exact hall q (Multiset.mem_cons_of_mem (Multiset.mem_add.2 (Or.inr hq)))

theorem sizeT_eq_card_elems : ∀ t : PH K P, sizeT t = Multiset.card (elems t)
  | nil => rfl
  | node k p l r => by
    simp [sizeT, elems, sizeT_eq_card_elems l, sizeT_eq_card_elems r]
    omega

/-! ### `merge_nodes` preserves heap order, siblinglessness and contents -/

theorem nodeWF_merge_nodes [LinearOrder P] :
    ∀ {t1 t2 : PH K P}, nodeWF t1 = true → nodeWF t2 = true →
      nodeWF (merge_nodes t1 t2) = true
  | nil, t2, _, h2 => by simpa [merge_nodes] using h2
  | node k1 p1 l1 r1, nil, h1, _ => by simpa [merge_nodes] using h1
  | node k1 p1 l1 r1, node k2 p2 l2 r2, h1, h2 => by
    rw [nodeWF_node_iff] at h1 h2
    rw [merge_nodes]
    split
    · rename_i hlt
      rw [meld, nodeWF_node_iff, nodeWF_node_iff, allGE_node_iff]
      exact ⟨⟨le_of_lt hlt, allGE_mono (le_of_lt hlt) h2.1, h1.1⟩,
        ⟨h2.1, h2.2.1, h1.2.1⟩, h1.2.2⟩
    · rename_i hnlt
      have hle : p2 ≤ p1 := le_of_not_lt hnlt
      rw [meld, nodeWF_node_iff, nodeWF_node_iff, allGE_node_iff]
      exact ⟨⟨hle, allGE_mono hle h1.1, h2.1⟩, ⟨h1.1, h1.2.1, h2.2.1⟩, h2.2.2⟩

theorem noSib_merge_nodes [LinearOrder P] :
    ∀ {t1 t2 : PH K P}, noSib t1 = true → noSib t2 = true →
      noSib (merge_nodes t1 t2) = true
  | nil, t2, _, h2 => by simpa [merge_nodes] using h2
  | node k1 p1 l1 r1, nil, h1, _ => by simpa [merge_nodes] using h1
  | node k1 p1 l1 nil, node k2 p2 l2 nil, _, _ => by
    rw [merge_nodes]; split <;> rfl

theorem elems_merge_nodes [LinearOrder P] :
    ∀ {t1 t2 : PH K P}, noSib t1 = true → noSib t2 = true →
      elems (merge_nodes t1 t2) = elems t1 + elems t2
  | nil, t2, _, _ => by simp [merge_nodes, elems]
  | node k1 p1 l1 r1, nil, _, _ => by simp [merge_nodes, elems]
  | node k1 p1 l1 nil, node k2 p2 l2 nil, _, _ => by
    rw [merge_nodes]
    split <;>
      · rw [meld]
        simp only [elems, ← Multiset.singleton_add]
        abel

theorem allGE_merge_nodes [LinearOrder P] {p : P} :
    ∀ {t1 t2 : PH K P}, allGE p t1 = true → allGE p t2 = true →
      allGE p (merge_nodes t1 t2) = true
  | nil, t2, _, h2 => by simpa [merge_nodes] using h2
  | node k1 p1 l1 r1, nil, h1, _ => by simpa [merge_nodes] using h1
  | node k1 p1 l1 r1, node k2 p2 l2 r2, h1, h2 => by
    rw [allGE_node_iff] at h1 h2
    rw [merge_nodes]
    split <;>
      · rw [meld, allGE_node_iff, allGE_node_iff]
        exact ⟨by tauto, ⟨by tauto, by tauto, by tauto⟩, by tauto⟩

/-! ### The two passes of `delete_min` -/

theorem first_pass_forall [LinearOrder P] :
    ∀ l : PH K P, nodeWF l = true →
      ∀ t ∈ first_pass l, nodeWF t = true ∧ noSib t = true
  | nil, _, t, ht => by simp [first_pass] at ht
  | node k p l nil, hwf, t, ht => by
    rw [first_pass, List.mem_singleton] at ht
    subst ht
    rw [nodeWF_node_iff] at hwf ⊢
    exact ⟨⟨hwf.1, hwf.2.1, rfl⟩, rfl⟩
  | node k p l (node k2 p2 l2 r2), hwf, t, ht => by
    rw [nodeWF_node_iff] at hwf
    have hwf2 := hwf.2.2
    rw [nodeWF_node_iff] at hwf2
    rw [first_pass, List.mem_cons] at ht
    rcases ht with rfl | ht
    · constructor
      · exact nodeWF_merge_nodes (nodeWF_node_iff.2 ⟨hwf.1, hwf.2.1, rfl⟩)
          (nodeWF_node_iff.2 ⟨hwf2.1, hwf2.2.1, rfl⟩)
      · exact noSib_merge_nodes rfl rfl
    · exact first_pass_forall r2 hwf2.2.2 t ht

theorem elems_first_pass [LinearOrder P] :
    ∀ l : PH K P, ((first_pass l).map elems).sum = elems l
  | nil => by simp [first_pass, elems]
  | node k p l nil => by simp [first_pass, elems]
  | node k p l (node k2 p2 l2 r2) => by
    rw [first_pass, List.map_cons, List.sum_cons, elems_first_pass r2,
      elems_merge_nodes (by rfl) (by rfl)]
    simp only [elems, ← Multiset.singleton_add]
    abel

theorem second_pass_noSib [LinearOrder P] :
    ∀ ts : List (PH K P), (∀ t ∈ ts, noSib t = true) →
      noSib (second_pass ts) = true
  | [], _ => rfl
  | [t], h => h t (List.mem_singleton.2 rfl)
  | t :: t2 :: ts, h => by
    show noSib (merge_nodes (second_pass (t2 :: ts)) t) = true
    exact noSib_merge_nodes
      (second_pass_noSib (t2 :: ts) fun u hu => h u (List.mem_cons_of_mem _ hu))
      (h t (List.mem_cons_self _ _))

theorem second_pass_nodeWF [LinearOrder P] :
    ∀ ts : List (PH K P), (∀ t ∈ ts, nodeWF t = true) →
      nodeWF (second_pass ts) = true
  | [], _ => rfl
  | [t], h => h t (List.mem_singleton.2 rfl)
  | t :: t2 :: ts, h => by
    show nodeWF (merge_nodes (second_pass (t2 :: ts)) t) = true
    exact nodeWF_merge_nodes
      (second_pass_nodeWF (t2 :: ts) fun u hu => h u (List.mem_cons_of_mem _ hu))
      (h t (List.mem_cons_self _ _))

theorem elems_second_pass [LinearOrder P] :
    ∀ ts : List (PH K P), (∀ t ∈ ts, noSib t = true) →
      elems (second_pass ts) = (ts.map elems).sum
  | [], _ => rfl
  | [t], _ => by simp [second_pass]
  | t :: t2 :: ts, h => by
    show elems (merge_nodes (second_pass (t2 :: ts)) t) = ((t :: t2 :: ts).map elems).sum
    rw [List.map_cons, List.sum_cons,
      elems_merge_nodes
        (second_pass_noSib (t2 :: ts) fun u hu => h u (List.mem_cons_of_mem _ hu))
        (h t (List.mem_cons_self _ _)),
      elems_second_pass (t2 :: ts) fun u hu => h u (List.mem_cons_of_mem _ hu)]
    rw [add_comm]

end PH

namespace PairingHeap

variable {K P : Type}

/-! ### Operation-level well-formedness and content lemmas -/

theorem new_wf [LinearOrder P] : (new : PairingHeap K P).WF := ⟨rfl, rfl, rfl⟩

theorem singleton_nodeWF [LinearOrder P] {k : K} {p : P} :
    PH.nodeWF (PH.node k p .nil .nil) = true := rfl

theorem insert_wf [LinearOrder P] {h : PairingHeap K P} (hwf : h.WF)
    (k : K) (p : P) : (h.insert k p).WF := by
  obtain ⟨h1, h2, h3⟩ := hwf
  refine ⟨PH.nodeWF_merge_nodes h1 singleton_nodeWF,
    PH.noSib_merge_nodes h2 (by rfl), ?_⟩
  rw [insert, PH.sizeT_eq_card_elems, PH.elems_merge_nodes h2 (by rfl)]
  simp [PH.elems, ← PH.sizeT_eq_card_elems, h3]

theorem elems_insert [LinearOrder P] {h : PairingHeap K P} (hwf : h.WF)
    (k : K) (p : P) :
    PH.elems (h.insert k p).root = (k, p) ::ₘ PH.elems h.root := by
  rw [insert, PH.elems_merge_nodes hwf.2.1 (by rfl)]
  simp only [PH.elems, ← Multiset.singleton_add]
  abel

theorem merge_wf [LinearOrder P] {a b : PairingHeap K P}
    (ha : a.WF) (hb : b.WF) : (a.merge b).WF := by
  refine ⟨PH.nodeWF_merge_nodes ha.1 hb.1, PH.noSib_merge_nodes ha.2.1 hb.2.1, ?_⟩
  rw [merge, PH.sizeT_eq_card_elems, PH.elems_merge_nodes ha.2.1 hb.2.1]
  simp [← PH.sizeT_eq_card_elems, ha.2.2, hb.2.2]

theorem elems_merge [LinearOrder P] {a b : PairingHeap K P}
    (ha : a.WF) (hb : b.WF) :
    PH.elems (a.merge b).root = PH.elems a.root + PH.elems b.root :=
  PH.elems_merge_nodes ha.2.1 hb.2.1

theorem delete_min_none_iff [LinearOrder P] {h : PairingHeap K P} :
    h.delete_min = none ↔ h.root = PH.nil := by
  obtain ⟨root, len⟩ := h
  cases root <;> simp [delete_min]

/-- Full specification of a successful `delete_min` on a well-formed heap:
the result is well formed, the removed pair was the root pair, the removed
priority is a lower bound for everything left, and the length drops by one. -/
theorem delete_min_spec [LinearOrder P] {h : PairingHeap K P} {k : K} {p : P}
    {h2 : PairingHeap K P} (hwf : h.WF)
    (hdm : h.delete_min = some ((k, p), h2)) :
    h2.WF ∧ PH.elems h.root = (k, p) ::ₘ PH.elems h2.root ∧
      (∀ q ∈ PH.prios h2.root, p ≤ q) ∧ h.len = h2.len + 1 := by
  obtain ⟨root, len⟩ := h
  obtain ⟨hnw, hns, hlen⟩ := hwf
  cases root with
  | nil => exact absurd hdm (by simp [delete_min])
  | node k0 p0 l r =>
    cases r with
    | node _ _ _ _ => exact absurd hns (by simp [PH.noSib])
    | nil =>
      rw [PH.nodeWF_node_iff] at hnw
      simp only [PH.sizeT] at hlen
      cases l with
      | nil =>
        simp only [PH.sizeT] at hlen
        rw [delete_min] at hdm
        obtain ⟨⟨rfl, rfl⟩, rfl⟩ : (k0 = k ∧ p0 = p) ∧ (⟨.nil, len - 1⟩ :
            PairingHeap K P) = h2 := by
          simpa using hdm
        refine ⟨⟨rfl, rfl, ?_⟩, by simp [PH.elems], ?_, ?_⟩
        · show len - 1 = 0
          omega
        · intro q hq
          simp [PH.prios, PH.elems] at hq
        · show len = (len - 1) + 1
          omega
      | node k2 p2 l2 r2 =>
        rw [delete_min] at hdm
        obtain ⟨⟨rfl, rfl⟩, rfl⟩ : (k0 = k ∧ p0 = p) ∧
            (⟨PH.second_pass (PH.first_pass (.node k2 p2 l2 r2)), len - 1⟩ :
              PairingHeap K P) = h2 := by
          simpa using hdm
        set l : PH K P := PH.node k2 p2 l2 r2 with hl
        have hall := PH.first_pass_forall l hnw.2.1
        have hwf2 : PH.nodeWF (PH.second_pass (PH.first_pass l)) = true :=
          PH.second_pass_nodeWF _ fun t ht => (hall t ht).1
        have hns2 : PH.noSib (PH.second_pass (PH.first_pass l)) = true :=
          PH.second_pass_noSib _ fun t ht => (hall t ht).2
        have helems : PH.elems (PH.second_pass (PH.first_pass l)) = PH.elems l := by
          rw [PH.elems_second_pass _ fun t ht => (hall t ht).2, PH.elems_first_pass]
        have hsize : PH.sizeT (PH.second_pass (PH.first_pass l)) = PH.sizeT l := by
          rw [PH.sizeT_eq_card_elems, helems, ← PH.sizeT_eq_card_elems]
        refine ⟨⟨hwf2, hns2, ?_⟩, ?_, ?_, ?_⟩
        · show len - 1 = PH.sizeT (PH.second_pass (PH.first_pass l))
          rw [hsize]
          omega
        · simp [PH.elems, helems]
        · intro q hq
          have : q ∈ PH.prios l := by
            rw [PH.prios, helems] at hq
            exact hq
          exact (PH.allGE_iff_prios.1 hnw.1) q this
        · show len = (len - 1) + 1
          omega

end PairingHeap

/-! ## Lemmas about paths, `getAt`, `setAt` and the cut of `decrease_prio` -/

namespace PH

variable {K P : Type}

@[simp] theorem getAt_nil_path (t : PH K P) : getAt t [] = some t := by
  cases t <;> rfl

@[simp] theorem setAt_nil_path (t s : PH K P) : setAt t [] s = s := by
  cases t <;> rfl

theorem getAt_append : ∀ (t : PH K P) (ds es : Path),
    getAt t (ds ++ es) = (getAt t ds).bind fun u => getAt u es
  | _, [], _ => by simp
  | nil, _ :: _, _ => rfl
  | node _ _ l _, Dir.l :: ds, es => getAt_append l ds es
  | node _ _ _ r, Dir.r :: ds, es => getAt_append r ds es

theorem allGE_getAt [LinearOrder P] {p : P} :
    ∀ (t : PH K P) (ds : Path) (u : PH K P),
      allGE p t = true → getAt t ds = some u → allGE p u = true
  | t, [], u, h, hg => by
    rw [getAt_nil_path] at hg
    exact (Option.some.inj hg) ▸ h
  | nil, _ :: _, u, _, hg => by simp [getAt] at hg
  | node k q l r, Dir.l :: ds, u, h, hg =>
    allGE_getAt l ds u (allGE_node_iff.1 h).2.1 hg
  | node k q l r, Dir.r :: ds, u, h, hg =>
    allGE_getAt r ds u (allGE_node_iff.1 h).2.2 hg

theorem nodeWF_getAt [LinearOrder P] :
    ∀ (t : PH K P) (ds : Path) (u : PH K P),
      nodeWF t = true → getAt t ds = some u → nodeWF u = true
  | t, [], u, h, hg => by
    rw [getAt_nil_path] at hg
    exact (Option.some.inj hg) ▸ h
  | nil, _ :: _, u, _, hg => by simp [getAt] at hg
  | node k q l r, Dir.l :: ds, u, h, hg =>
    nodeWF_getAt l ds u (nodeWF_node_iff.1 h).2.1 hg
  | node k q l r, Dir.r :: ds, u, h, hg =>
    nodeWF_getAt r ds u (nodeWF_node_iff.1 h).2.2 hg

theorem allGE_setAt [LinearOrder P] {p : P} :
    ∀ (t : PH K P) (ds : Path) (s : PH K P),
      allGE p t = true → allGE p s = true → allGE p (setAt t ds s) = true
  | _, [], _, _, hs => by rw [setAt_nil_path]; exact hs
  | nil, d :: _, _, h, _ => by cases d <;> exact h
  | node k q l r, Dir.l :: ds, s, h, hs => by
    rw [allGE_node_iff] at h
    exact allGE_node_iff.2 ⟨h.1, allGE_setAt l ds s h.2.1 hs, h.2.2⟩
  | node k q l r, Dir.r :: ds, s, h, hs => by
    rw [allGE_node_iff] at h
    exact allGE_node_iff.2 ⟨h.1, h.2.1, allGE_setAt r ds s h.2.2 hs⟩

/-- The heap-order constraints that apply at a position: the priorities of all
nodes whose `left` (descendants) subtree the path enters, i.e. of all
ancestors of the position in the multiway tree. -/
def bounds : PH K P → Path → List P
  | _, [] => []
  | nil, _ :: _ => []
  | node _ p l _, Dir.l :: ds => p :: bounds l ds
  | node _ _ _ r, Dir.r :: ds => bounds r ds

@[simp] theorem bounds_nil_path (t : PH K P) : bounds t [] = [] := by
  cases t <;> rfl

theorem nodeWF_setAt [LinearOrder P] :
    ∀ (t : PH K P) (ds : Path) (s : PH K P), nodeWF t = true → nodeWF s = true →
      (∀ q ∈ bounds t ds, allGE q s = true) → nodeWF (setAt t ds s) = true
  | _, [], _, _, hs, _ => by rw [setAt_nil_path]; exact hs
  | nil, d :: _, _, h, _, _ => by cases d <;> exact h
  | node k p l r, Dir.l :: ds, s, h, hs, hb => by
    rw [nodeWF_node_iff] at h
    refine nodeWF_node_iff.2 ⟨?_, ?_, h.2.2⟩
    · exact allGE_setAt l ds s h.1 (hb p (by simp [bounds]))
    · exact nodeWF_setAt l ds s h.2.1 hs fun q hq => hb q (by simp [bounds, hq])
  | node k p l r, Dir.r :: ds, s, h, hs, hb => by
    rw [nodeWF_node_iff] at h
    exact nodeWF_node_iff.2
      ⟨h.1, h.2.1, nodeWF_setAt r ds s h.2.2 hs fun q hq => hb q (by simpa [bounds] using hq)⟩

theorem bounds_getAt [LinearOrder P] :
    ∀ (t : PH K P) (ds : Path) (u : PH K P), nodeWF t = true →
      getAt t ds = some u → ∀ q ∈ bounds t ds, allGE q u = true
  | t, [], _, _, _, q, hq => by rw [bounds_nil_path] at hq; simp at hq
  | nil, _ :: _, _, _, hg, _, _ => by simp [getAt] at hg
  | node k p l r, Dir.l :: ds, u, h, hg, q, hq => by
    rw [nodeWF_node_iff] at h
    rw [bounds, List.mem_cons] at hq
    rcases hq with rfl | hq
    · exact allGE_getAt l ds u h.1 hg
    · exact bounds_getAt l ds u h.2.1 hg q hq
  | node k p l r, Dir.r :: ds, u, h, hg, q, hq => by
    rw [nodeWF_node_iff] at h
    rw [bounds] at hq
    exact bounds_getAt r ds u h.2.2 hg q hq

theorem bounds_append :
    ∀ (t : PH K P) (ds es : Path) (u : PH K P), getAt t ds = some u →
      bounds t (ds ++ es) = bounds t ds ++ bounds u es
  | t, [], es, u, h => by
    rw [getAt_nil_path] at h
    rw [← Option.some.inj h]
    simp
  | nil, _ :: _, _, _, h => by simp [getAt] at h
  | node k p l r, Dir.l :: ds, es, u, h => by
    show p :: bounds l (ds ++ es) = p :: bounds l ds ++ bounds u es
    rw [bounds_append l ds es u h]
    rfl
  | node k p l r, Dir.r :: ds, es, u, h => by
    show bounds r (ds ++ es) = bounds r ds ++ bounds u es
    exact bounds_append r ds es u h

theorem bounds_all_r :
    ∀ (t : PH K P) (rs : Path), (∀ d ∈ rs, d = Dir.r) → bounds t rs = []
  | t, [], _ => bounds_nil_path t
  | nil, _ :: _, _ => rfl
  | node k p l r, d :: rs, h => by
    have hd : d = Dir.r := h d (List.mem_cons_self _ _)
    subst hd
    show bounds r rs = []
    exact bounds_all_r r rs fun d hd => h d (List.mem_cons_of_mem _ hd)

theorem sizeT_setAt :
    ∀ (t : PH K P) (ds : Path) (s u : PH K P), getAt t ds = some u →
      sizeT (setAt t ds s) + sizeT u = sizeT t + sizeT s
  | t, [], s, u, h => by
    rw [getAt_nil_path] at h
    rw [← Option.some.inj h, setAt_nil_path]
    omega
  | nil, _ :: _, _, _, h => by simp [getAt] at h
  | node k p l r, Dir.l :: ds, s, u, h => by
    have ih := sizeT_setAt l ds s u h
    show sizeT (setAt l ds s) + 1 + sizeT r + sizeT u =
      sizeT l + 1 + sizeT r + sizeT s
    omega
  | node k p l r, Dir.r :: ds, s, u, h => by
    have ih := sizeT_setAt r ds s u h
    show sizeT l + 1 + sizeT (setAt r ds s) + sizeT u =
      sizeT l + 1 + sizeT r + sizeT s
    omega

theorem sizeT_merge_nodes [LinearOrder P] {t1 t2 : PH K P}
    (h1 : noSib t1 = true) (h2 : noSib t2 = true) :
    sizeT (merge_nodes t1 t2) = sizeT t1 + sizeT t2 := by
  rw [sizeT_eq_card_elems, elems_merge_nodes h1 h2, Multiset.card_add,
    ← sizeT_eq_card_elems, ← sizeT_eq_card_elems]

theorem dropWhile_first {α : Type} (p : α → Bool) :
    ∀ (l : List α) (x : α) (xs : List α), l.dropWhile p = x :: xs → p x = false
  | [], x, xs, h => by simp [List.dropWhile] at h
  | a :: l, x, xs, h => by
    rw [List.dropWhile_cons] at h
    split at h
    · exact dropWhile_first p l x xs h
    · cases h
      rename_i hpa
      simpa using hpa

/-- A path containing a `left` step splits as `parent_path ++ [l] ++ rs`
with `rs` trailing sibling steps: the node at `parent_path` is the multiway
parent the source reaches via the `parent` pointer. -/
theorem parent_split (pa : Path) (hl : Dir.l ∈ pa) :
    ∃ rs : Path, (∀ d ∈ rs, d = Dir.r) ∧ pa = parent_path pa ++ Dir.l :: rs := by
  set isR : Dir → Bool := fun d => decide (d = Dir.r) with hisR
  cases hdw : pa.reverse.dropWhile isR with
  | nil =>
    exfalso
    have hall := List.dropWhile_eq_nil_iff.1 hdw
    have := hall Dir.l (List.mem_reverse.2 hl)
    simp [hisR] at this
  | cons d rest =>
    have hd : d = Dir.l := by
      have := dropWhile_first isR pa.reverse d rest hdw
      cases d
      · rfl
      · simp [hisR] at this
    subst hd
    refine ⟨(pa.reverse.takeWhile isR).reverse, ?_, ?_⟩
    · intro d hd2
      have hmem := List.mem_reverse.1 hd2
      have := List.mem_takeWhile_imp hmem
      simpa [hisR] using this
    · have hpp : parent_path pa = rest.reverse := by
        unfold parent_path
        rw [← hisR, hdw]
        rfl
      have h1 : pa.reverse = pa.reverse.takeWhile isR ++ (Dir.l :: rest) := by
        rw [← hdw, List.takeWhile_append_dropWhile]
      have h2 := congrArg List.reverse h1
      rw [List.reverse_reverse, List.reverse_append, List.reverse_cons,
        List.append_assoc, List.singleton_append] at h2
      rw [hpp]
      exact h2

/-! ### Soundness of the breadth-first search of `decrease_prio` -/

theorem popFront_spec (t : PH K P) :
    ∀ (queue : List Path) (pc : Path) (rest : List Path),
      popFront t queue = (some pc, rest) →
      (∃ q ∈ queue, pc = q ++ [Dir.l]) ∧ ∀ x ∈ rest, x ∈ queue
  | [], pc, rest, h => by simp [popFront] at h
  | q :: qs, pc, rest, h => by
    rw [popFront] at h
    split at h
    · injection h with h1 h2
      injection h1 with h1
      subst h1 h2
      exact ⟨⟨q, List.mem_cons_self _ _, rfl⟩,
        fun x hx => List.mem_cons_of_mem _ hx⟩
    · obtain ⟨⟨q2, hq2, rfl⟩, hrest⟩ := popFront_spec t qs pc rest h
      exact ⟨⟨q2, List.mem_cons_of_mem _ hq2, rfl⟩,
        fun x hx => List.mem_cons_of_mem _ (hrest x hx)⟩

theorem popFront_none (t : PH K P) :
    ∀ (queue : List Path) (rest : List Path),
      popFront t queue = (none, rest) → rest = []
  | [], rest, h => by
    injection h with h1 h2
    exact h2.symm
  | q :: qs, rest, h => by
    rw [popFront] at h
    split at h
    · exact absurd h (by simp)
    · exact popFront_none t qs rest h

theorem bfs_find_sound [DecidableEq K] (t : PH K P) (key : K) :
    ∀ (fuel : Nat) (trv : Option Path) (queue : List Path) (pa : Path),
      bfs_find t key fuel trv queue = some pa →
      ∃ p l r, getAt t pa = some (node key p l r)
  | 0, _, _, pa, h => by simp [bfs_find] at h
  | _ + 1, none, _, pa, h => by simp [bfs_find] at h
  | fuel + 1, some pb, queue, pa, h => by
    rw [bfs_find] at h
    split at h
    · rename_i k r hg
      split at h
      · rename_i hk
        subst hk
        exact ⟨_, _, _, (Option.some.inj h) ▸ hg⟩
      · split at h
        · exact bfs_find_sound t key fuel _ _ pa h
        · exact bfs_find_sound t key fuel _ _ pa h
    · exact absurd h (by simp)

theorem bfs_find_headl [DecidableEq K] (t : PH K P) (key : K) :
    ∀ (fuel : Nat) (trv : Option Path) (queue : List Path) (pa : Path),
      (∀ q ∈ queue, ∃ q2, q = Dir.l :: q2) →
      (∀ pb, trv = some pb → ∃ pb2, pb = Dir.l :: pb2) →
      bfs_find t key fuel trv queue = some pa → ∃ pa2, pa = Dir.l :: pa2
  | 0, _, _, pa, _, _, h => by simp [bfs_find] at h
  | _ + 1, none, _, pa, _, _, h => by simp [bfs_find] at h
  | fuel + 1, some pb, queue, pa, hq, htr, h => by
    obtain ⟨pb2, rfl⟩ := htr pb rfl
    rw [bfs_find] at h
    split at h
    · rename_i k r hg
      split at h
      · exact ⟨pb2, Option.some.inj h ▸ rfl⟩
      · have hq2 : ∀ q ∈ queue ++ [Dir.l :: pb2], ∃ q2, q = Dir.l :: q2 := by
          intro q hmem
          rcases List.mem_append.1 hmem with hmem | hmem
          · exact hq q hmem
          · exact ⟨pb2, List.mem_singleton.1 hmem⟩
        split at h
        · exact bfs_find_headl t key fuel _ _ pa hq2
            (fun pc hpc => ⟨pb2 ++ [Dir.r], by simpa using Option.some.inj hpc |>.symm⟩) h
        · refine bfs_find_headl t key fuel _ _ pa ?_ ?_ h
          · intro q hmem
            cases hpf : popFront t (queue ++ [Dir.l :: pb2]) with
            | mk o rest =>
              rw [hpf] at hmem
              cases o with
              | none =>
                have hre : rest = [] := popFront_none t _ rest hpf
                subst hre
                simp at hmem
              | some pc => exact hq2 q (popFront_spec t _ pc rest hpf |>.2 q hmem)
          · intro pc hpc
            cases hpf : popFront t (queue ++ [Dir.l :: pb2]) with
            | mk o rest =>
              rw [hpf] at hpc
              cases o with
              | none => simp at hpc
              | some pc2 =>
                have heq : pc2 = pc := by simpa using hpc
                obtain ⟨⟨q2, hq3, hq4⟩, _⟩ := popFront_spec t _ pc2 rest hpf
                obtain ⟨q3, rfl⟩ := hq2 q2 hq3
                refine ⟨q3 ++ [Dir.l], ?_⟩
                rw [← heq, hq4]
                rfl
    · exact absurd h (by simp)

end PH

namespace PairingHeap

/-- `decrease_prio` (with the truncated subtraction of `Nat`, every `delta`
genuinely lowers the priority) preserves well-formedness: the cut node's
children still dominate its lowered priority, the splice leaves every
remaining node under the same ancestors, and the meld restores the root. -/
theorem decrease_prio_wf {K : Type} [DecidableEq K] {h : PairingHeap K Nat}
    (hwf : h.WF) (key : K) (delta : Nat) : (h.decrease_prio key delta).WF := by
  obtain ⟨root, len⟩ := h
  obtain ⟨hnw, hns, hlen⟩ := hwf
  dsimp only at hnw hns hlen
  cases root with
  | nil => exact ⟨hnw, hns, hlen⟩
  | node k0 p0 l r =>
    cases r with
    | node _ _ _ _ => exact absurd hns (by simp [PH.noSib])
    | nil =>
      simp only [decrease_prio]
      by_cases hk : k0 = key
      · rw [if_pos hk]
        rw [PH.nodeWF_node_iff] at hnw
        refine ⟨PH.nodeWF_node_iff.2
          ⟨PH.allGE_mono (Nat.sub_le p0 delta) hnw.1, hnw.2.1, rfl⟩, rfl, ?_⟩
        simpa [PH.sizeT] using hlen
      · rw [if_neg hk]
        cases hfind : PH.bfs_find (PH.node k0 p0 l PH.nil) key
            (PH.sizeT (PH.node k0 p0 l PH.nil)) (some [PH.Dir.l]) [] with
        | none => exact ⟨hnw, hns, hlen⟩
        | some pa =>
          obtain ⟨tp, tl, tr, hget⟩ :=
            PH.bfs_find_sound _ key _ _ _ pa hfind
          obtain ⟨pa2, hpa2⟩ := PH.bfs_find_headl _ key _ _ _ pa (by simp)
            (fun pb hpb => ⟨[], by injection hpb with hpb; exact hpb.symm⟩) hfind
          subst hpa2
          dsimp only
          rw [hget]
          dsimp only
          have hmem : PH.Dir.l ∈ PH.Dir.l :: pa2 := List.mem_cons_self _ _
          obtain ⟨rs, hrs, hsplit⟩ := PH.parent_split _ hmem
          have hga := PH.getAt_append (PH.node k0 p0 l PH.nil)
            (PH.parent_path (PH.Dir.l :: pa2)) (PH.Dir.l :: rs)
          rw [← hsplit, hget] at hga
          cases hpar : PH.getAt (PH.node k0 p0 l PH.nil)
              (PH.parent_path (PH.Dir.l :: pa2)) with
          | none => rw [hpar] at hga; exact absurd hga (by simp)
          | some par =>
            rw [hpar] at hga
            cases par with
            | nil => rw [Option.some_bind] at hga; exact absurd hga (by simp [PH.getAt])
            | node kp pp2 pl pr =>
              dsimp only
              have hb : PH.bounds (PH.node k0 p0 l PH.nil) (PH.Dir.l :: pa2) =
                  PH.bounds (PH.node k0 p0 l PH.nil)
                    (PH.parent_path (PH.Dir.l :: pa2)) ++ [pp2] := by
                conv_lhs => rw [hsplit]
                rw [PH.bounds_append _ _ _ _ hpar]
                show _ ++ pp2 :: PH.bounds pl rs = _
                rw [PH.bounds_all_r pl rs hrs]
              have hbound_le : ∀ q ∈ PH.bounds (PH.node k0 p0 l PH.nil)
                  (PH.Dir.l :: pa2), q ≤ pp2 := by
                intro q hq
                rw [hb, List.mem_append] at hq
                rcases hq with hq | hq
                · have := PH.bounds_getAt _ _ _ hnw hpar q hq
                  exact (PH.allGE_node_iff.1 this).1
                · rw [List.mem_singleton] at hq
                  exact hq.le
              have htarg := PH.bounds_getAt _ _ _ hnw hget
              have hnwt := PH.nodeWF_getAt _ _ _ hnw hget
              rw [PH.nodeWF_node_iff] at hnwt
              have hsz := PH.sizeT_setAt (PH.node k0 p0 l PH.nil) (PH.Dir.l :: pa2)
              by_cases hlt : pp2 < tp - delta
              · rw [if_pos hlt]
                have hnws : PH.nodeWF (PH.node key (tp - delta) tl tr) = true :=
                  PH.nodeWF_node_iff.2
                    ⟨PH.allGE_mono (Nat.sub_le tp delta) hnwt.1, hnwt.2.1, hnwt.2.2⟩
                refine ⟨PH.nodeWF_setAt _ _ _ hnw hnws ?_, ?_, ?_⟩
                · intro q hq
                  have h1 := htarg q hq
                  rw [PH.allGE_node_iff] at h1 ⊢
                  exact ⟨le_of_lt (lt_of_le_of_lt (hbound_le q hq) hlt),
                    h1.2.1, h1.2.2⟩
                · rfl
                · have := hsz (PH.node key (tp - delta) tl tr) _ hget
                  have hszt : PH.sizeT (PH.node key (tp - delta) tl tr) =
                      PH.sizeT (PH.node key tp tl tr) := rfl
                  show len = PH.sizeT (PH.setAt (PH.node k0 p0 l PH.nil)
                    (PH.Dir.l :: pa2) (PH.node key (tp - delta) tl tr))
                  omega
              · rw [if_neg hlt]
                have hnst : PH.noSib (PH.setAt (PH.node k0 p0 l PH.nil)
                    (PH.Dir.l :: pa2) tr) = true := rfl
                have hnwsp : PH.nodeWF (PH.setAt (PH.node k0 p0 l PH.nil)
                    (PH.Dir.l :: pa2) tr) = true := by
                  refine PH.nodeWF_setAt _ _ _ hnw hnwt.2.2 ?_
                  intro q hq
                  exact (PH.allGE_node_iff.1 (htarg q hq)).2.2
                have hnwd : PH.nodeWF (PH.node key (tp - delta) tl PH.nil) = true :=
                  PH.nodeWF_node_iff.2
                    ⟨PH.allGE_mono (Nat.sub_le tp delta) hnwt.1, hnwt.2.1, rfl⟩
                have hnsd : PH.noSib (PH.node key (tp - delta) tl PH.nil) = true := rfl
                refine ⟨PH.nodeWF_merge_nodes hnwsp hnwd,
                  PH.noSib_merge_nodes hnst hnsd, ?_⟩
                have h1 := hsz tr _ hget
                have h2 := @PH.sizeT_merge_nodes K Nat _
                  (PH.setAt (PH.node k0 p0 l PH.nil) (PH.Dir.l :: pa2) tr)
                  (PH.node key (tp - delta) tl PH.nil) hnst hnsd
                have h3 : PH.sizeT (PH.node key tp tl tr) =
                    PH.sizeT tl + 1 + PH.sizeT tr := rfl
                have h4 : PH.sizeT (PH.node key (tp - delta) tl PH.nil) =
                    PH.sizeT tl + 1 + 0 := rfl
                show len = PH.sizeT (PH.merge_nodes
                  (PH.setAt (PH.node k0 p0 l PH.nil) (PH.Dir.l :: pa2) tr)
                  (PH.node key (tp - delta) tl PH.nil))
                omega

end PairingHeap

/-! ### Soundness and completeness of the depth-first handle search -/

namespace PH

variable {K P : Type}

theorem elems_getAt_le :
    ∀ (t : PH K P) (ds : Path) (u : PH K P),
      getAt t ds = some u → elems u ≤ elems t
  | t, [], u, h => by
    rw [getAt_nil_path] at h
    rw [← Option.some.inj h]
  | nil, _ :: _, _, h => by simp [getAt] at h
  | node k p l r, Dir.l :: ds, u, h =>
    le_trans (elems_getAt_le l ds u h)
      (le_trans (Multiset.le_add_right _ _) (Multiset.le_cons_self _ _))
  | node k p l r, Dir.r :: ds, u, h =>
    le_trans (elems_getAt_le r ds u h)
      (le_trans (Multiset.le_add_left _ _) (Multiset.le_cons_self _ _))

/-- The pair carried by the node a valid path designates is stored in the
tree. -/
theorem mem_elems_getAt {t : PH K P} {ds : Path} {k : K} {p : P}
    {l r : PH K P} (h : getAt t ds = some (node k p l r)) :
    (k, p) ∈ elems t :=
  Multiset.mem_of_le (elems_getAt_le t ds _ h) (Multiset.mem_cons_self _ _)

theorem elems_setAt :
    ∀ (t : PH K P) (ds : Path) (s u : PH K P), getAt t ds = some u →
      elems (setAt t ds s) + elems u = elems t + elems s
  | t, [], s, u, h => by
    rw [getAt_nil_path] at h
    rw [← Option.some.inj h, setAt_nil_path, add_comm]
  | nil, _ :: _, _, _, h => by simp [getAt] at h
  | node k p l r, Dir.l :: ds, s, u, h => by
    have ih := elems_setAt l ds s u h
    show (k, p) ::ₘ (elems (setAt l ds s) + elems r) + elems u =
      (k, p) ::ₘ (elems l + elems r) + elems s
    simp only [← Multiset.singleton_add, add_assoc]
    rw [add_comm (elems r) (elems u), ← add_assoc (elems (setAt l ds s)), ih]
    simp only [add_assoc]
    rw [add_comm (elems s) (elems r)]
  | node k p l r, Dir.r :: ds, s, u, h => by
    have ih := elems_setAt r ds s u h
    show (k, p) ::ₘ (elems l + elems (setAt r ds s)) + elems u =
      (k, p) ::ₘ (elems l + elems r) + elems s
    simp only [← Multiset.singleton_add, add_assoc]
    rw [ih]

theorem find_key_sound [DecidableEq K] :
    ∀ (t : PH K P) (key : K) (pa : Path), find_key t key = some pa →
      ∃ p l r, getAt t pa = some (node key p l r)
  | nil, key, pa, h => by simp [find_key] at h
  | node k p l r, key, pa, h => by
    rw [find_key] at h
    by_cases hk : k = key
    · rw [if_pos hk] at h
      subst hk
      rw [← Option.some.inj h]
      exact ⟨p, l, r, rfl⟩
    · rw [if_neg hk] at h
      cases hfl : find_key l key with
      | some pb =>
        rw [hfl] at h
        rw [← Option.some.inj h]
        exact find_key_sound l key pb hfl
      | none =>
        rw [hfl] at h
        cases hfr : find_key r key with
        | some pb =>
          rw [hfr] at h
          rw [← Option.some.inj h]
          exact find_key_sound r key pb hfr
        | none => rw [hfr] at h; exact absurd h (by simp)

theorem find_key_none [DecidableEq K] :
    ∀ (t : PH K P) (key : K), find_key t key = none →
      ∀ p : P, (key, p) ∉ elems t
  | nil, key, _, p, hmem => by simp [elems] at hmem
  | node k q l r, key, h, p, hmem => by
    rw [find_key] at h
    by_cases hk : k = key
    · rw [if_pos hk] at h
      exact absurd h (by simp)
    · rw [if_neg hk] at h
      cases hfl : find_key l key with
      | some pb => rw [hfl] at h; exact absurd h (by simp)
      | none =>
        rw [hfl] at h
        cases hfr : find_key r key with
        | some pb => rw [hfr] at h; exact absurd h (by simp)
        | none =>
          rw [elems, Multiset.mem_cons] at hmem
          rcases hmem with heq | hmem
          · exact hk (congrArg Prod.fst heq).symm
          · rcases Multiset.mem_add.1 hmem with hmem | hmem
            · exact find_key_none l key hfl p hmem
            · exact find_key_none r key hfr p hmem

end PH

/-! ### `update_prio` on a decreasing update: well-formedness and content -/

namespace PairingHeap

variable {K P : Type}

/-- `update_prio` preserves well-formedness whenever the new priority does
not exceed the stored priority of any node carrying the key (in particular
for the strictly decreasing updates `mst_prim` performs).  The in-place
branch is guarded by `parent.prio < new_prio`, so the overwritten node still
dominates its parent; in the cut branch the detached node is re-melded at
the root. -/
theorem update_prio_wf [DecidableEq K] [LinearOrder P] {h : PairingHeap K P}
    (hwf : h.WF) (key : K) (new_prio : P)
    (hge : ∀ kp ∈ PH.elems h.root, kp.1 = key → new_prio ≤ kp.2) :
    (h.update_prio key new_prio).WF := by
  obtain ⟨root, len⟩ := h
  obtain ⟨hnw, hns, hlen⟩ := hwf
  dsimp only at hnw hns hlen
  dsimp only [PH.elems] at hge
  cases root with
  | nil => exact ⟨hnw, hns, hlen⟩
  | node k0 p0 l r =>
    cases r with
    | node _ _ _ _ => exact absurd hns (by simp [PH.noSib])
    | nil =>
      simp only [update_prio]
      cases hfk : PH.find_key (PH.node k0 p0 l PH.nil) key with
      | none => exact ⟨hnw, hns, hlen⟩
      | some pa =>
        cases pa with
        | nil =>
          obtain ⟨tp, tl, tr, hget⟩ := PH.find_key_sound _ key _ hfk
          rw [PH.getAt_nil_path] at hget
          have hne := Option.some.inj hget
          injection hne with e1 e2 e3 e4
          dsimp only
          rw [PH.nodeWF_node_iff] at hnw
          have hle : new_prio ≤ p0 :=
            hge (k0, p0) (Multiset.mem_cons_self _ _) e1
          refine ⟨PH.nodeWF_node_iff.2
            ⟨PH.allGE_mono hle hnw.1, hnw.2.1, rfl⟩, rfl, ?_⟩
          simpa [PH.sizeT] using hlen
        | cons d pa2 =>
          have hk0 : ¬k0 = key := by
            intro hk
            rw [PH.find_key, if_pos hk] at hfk
            exact absurd (Option.some.inj hfk) (by simp)
          have hpa : d = PH.Dir.l ∧ PH.find_key l key = some pa2 := by
            rw [PH.find_key, if_neg hk0] at hfk
            cases hfl : PH.find_key l key with
            | some pc =>
              rw [hfl] at hfk
              injection Option.some.inj hfk with h1 h2
              exact ⟨h1.symm, congrArg some h2⟩
            | none =>
              rw [hfl] at hfk
              have hnil : PH.find_key (PH.nil : PH K P) key = none := rfl
              rw [hnil] at hfk
              exact absurd hfk (by simp)
          obtain ⟨rfl, hfl⟩ := hpa
          obtain ⟨tp, tl, tr, hget⟩ :=
            PH.find_key_sound (PH.node k0 p0 l PH.nil) key _ hfk
          dsimp only
          rw [hget]
          dsimp only
          have hle : new_prio ≤ tp :=
            hge (key, tp) (PH.mem_elems_getAt hget) rfl
          have hmem : PH.Dir.l ∈ PH.Dir.l :: pa2 := List.mem_cons_self _ _
          obtain ⟨rs, hrs, hsplit⟩ := PH.parent_split _ hmem
          have hga := PH.getAt_append (PH.node k0 p0 l PH.nil)
            (PH.parent_path (PH.Dir.l :: pa2)) (PH.Dir.l :: rs)
          rw [← hsplit, hget] at hga
          cases hpar : PH.getAt (PH.node k0 p0 l PH.nil)
              (PH.parent_path (PH.Dir.l :: pa2)) with
          | none => rw [hpar] at hga; exact absurd hga (by simp)
          | some par =>
            rw [hpar] at hga
            cases par with
            | nil =>
              rw [Option.some_bind] at hga
              exact absurd hga (by simp [PH.getAt])
            | node kp pp2 pl pr =>
              dsimp only
              have hb : PH.bounds (PH.node k0 p0 l PH.nil) (PH.Dir.l :: pa2) =
                  PH.bounds (PH.node k0 p0 l PH.nil)
                    (PH.parent_path (PH.Dir.l :: pa2)) ++ [pp2] := by
                conv_lhs => rw [hsplit]
                rw [PH.bounds_append _ _ _ _ hpar]
                show _ ++ pp2 :: PH.bounds pl rs = _
                rw [PH.bounds_all_r pl rs hrs]
              have hbound_le : ∀ q ∈ PH.bounds (PH.node k0 p0 l PH.nil)
                  (PH.Dir.l :: pa2), q ≤ pp2 := by
                intro q hq
                rw [hb, List.mem_append] at hq
                rcases hq with hq | hq
                · have := PH.bounds_getAt _ _ _ hnw hpar q hq
                  exact (PH.allGE_node_iff.1 this).1
                · rw [List.mem_singleton] at hq
                  exact hq.le
              have htarg := PH.bounds_getAt _ _ _ hnw hget
              have hnwt := PH.nodeWF_getAt _ _ _ hnw hget
              rw [PH.nodeWF_node_iff] at hnwt
              have hsz := PH.sizeT_setAt (PH.node k0 p0 l PH.nil) (PH.Dir.l :: pa2)
              by_cases hlt : pp2 < new_prio
              · rw [if_pos hlt]
                have hnws : PH.nodeWF (PH.node key new_prio tl tr) = true :=
                  PH.nodeWF_node_iff.2
                    ⟨PH.allGE_mono hle hnwt.1, hnwt.2.1, hnwt.2.2⟩
                refine ⟨PH.nodeWF_setAt _ _ _ hnw hnws ?_, ?_, ?_⟩
                · intro q hq
                  have h1 := htarg q hq
                  rw [PH.allGE_node_iff] at h1 ⊢
                  exact ⟨le_of_lt (lt_of_le_of_lt (hbound_le q hq) hlt),
                    h1.2.1, h1.2.2⟩
                · rfl
                · have := hsz (PH.node key new_prio tl tr) _ hget
                  have hszt : PH.sizeT (PH.node key new_prio tl tr) =
                      PH.sizeT (PH.node key tp tl tr) := rfl
                  show len = PH.sizeT (PH.setAt (PH.node k0 p0 l PH.nil)
                    (PH.Dir.l :: pa2) (PH.node key new_prio tl tr))
                  omega
              · rw [if_neg hlt]
                have hnst : PH.noSib (PH.setAt (PH.node k0 p0 l PH.nil)
                    (PH.Dir.l :: pa2) tr) = true := rfl
                have hnwsp : PH.nodeWF (PH.setAt (PH.node k0 p0 l PH.nil)
                    (PH.Dir.l :: pa2) tr) = true := by
                  refine PH.nodeWF_setAt _ _ _ hnw hnwt.2.2 ?_
                  intro q hq
                  exact (PH.allGE_node_iff.1 (htarg q hq)).2.2
                have hnwd : PH.nodeWF (PH.node key new_prio tl PH.nil) = true :=
                  PH.nodeWF_node_iff.2
                    ⟨PH.allGE_mono hle hnwt.1, hnwt.2.1, rfl⟩
                have hnsd : PH.noSib (PH.node key new_prio tl PH.nil) = true := rfl
                refine ⟨PH.nodeWF_merge_nodes hnwsp hnwd,
                  PH.noSib_merge_nodes hnst hnsd, ?_⟩
                have h1 := hsz tr _ hget
                have h2 := @PH.sizeT_merge_nodes K P _
                  (PH.setAt (PH.node k0 p0 l PH.nil) (PH.Dir.l :: pa2) tr)
                  (PH.node key new_prio tl PH.nil) hnst hnsd
                have h3 : PH.sizeT (PH.node key tp tl tr) =
                    PH.sizeT tl + 1 + PH.sizeT tr := rfl
                have h4 : PH.sizeT (PH.node key new_prio tl PH.nil) =
                    PH.sizeT tl + 1 + 0 := rfl
                show len = PH.sizeT (PH.merge_nodes
                  (PH.setAt (PH.node k0 p0 l PH.nil) (PH.Dir.l :: pa2) tr)
                  (PH.node key new_prio tl PH.nil))
                omega

/-- Content of `update_prio` when the key is present: the stored pair for
the key is replaced by `(key, new_prio)` and nothing else changes. -/
theorem update_prio_elems [DecidableEq K] [LinearOrder P] {h : PairingHeap K P}
    (hwf : h.WF) (key : K) (new_prio : P)
    (hpresent : ∃ p : P, (key, p) ∈ PH.elems h.root) :
    ∃ old : P, (key, old) ∈ PH.elems h.root ∧
      PH.elems (h.update_prio key new_prio).root =
        (key, new_prio) ::ₘ (PH.elems h.root).erase (key, old) := by
  obtain ⟨root, len⟩ := h
  obtain ⟨hnw, hns, hlen⟩ := hwf
  dsimp only at hnw hns hlen hpresent ⊢
  cases root with
  | nil =>
    obtain ⟨p, hp⟩ := hpresent
    simp [PH.elems] at hp
  | node k0 p0 l r =>
    cases r with
    | node _ _ _ _ => exact absurd hns (by simp [PH.noSib])
    | nil =>
      simp only [update_prio]
      cases hfk : PH.find_key (PH.node k0 p0 l PH.nil) key with
      | none =>
        exfalso
        obtain ⟨p, hp⟩ := hpresent
        exact PH.find_key_none _ key hfk p hp
      | some pa =>
        cases pa with
        | nil =>
          obtain ⟨tp, tl, tr, hget⟩ := PH.find_key_sound _ key _ hfk
          rw [PH.getAt_nil_path] at hget
          have hne := Option.some.inj hget
          injection hne with e1 e2 e3 e4
          subst e1
          dsimp only
          refine ⟨p0, Multiset.mem_cons_self _ _, ?_⟩
          show (k0, new_prio) ::ₘ (PH.elems l + PH.elems (PH.nil : PH K P)) =
            (k0, new_prio) ::ₘ
              ((k0, p0) ::ₘ (PH.elems l + PH.elems (PH.nil : PH K P))).erase
                (k0, p0)
          rw [Multiset.erase_cons_head]
        | cons d pa2 =>
          have hk0 : ¬k0 = key := by
            intro hk
            rw [PH.find_key, if_pos hk] at hfk
            exact absurd (Option.some.inj hfk) (by simp)
          have hpa : d = PH.Dir.l ∧ PH.find_key l key = some pa2 := by
            rw [PH.find_key, if_neg hk0] at hfk
            cases hfl : PH.find_key l key with
            | some pc =>
              rw [hfl] at hfk
              injection Option.some.inj hfk with h1 h2
              exact ⟨h1.symm, congrArg some h2⟩
            | none =>
              rw [hfl] at hfk
              have hnil : PH.find_key (PH.nil : PH K P) key = none := rfl
              rw [hnil] at hfk
              exact absurd hfk (by simp)
          obtain ⟨rfl, hfl⟩ := hpa
          obtain ⟨tp, tl, tr, hget⟩ :=
            PH.find_key_sound (PH.node k0 p0 l PH.nil) key _ hfk
          dsimp only
          rw [hget]
          dsimp only
          have hmemt : (key, tp) ∈ PH.elems (PH.node k0 p0 l PH.nil) :=
            PH.mem_elems_getAt hget
          have h2 : PH.elems (PH.node k0 p0 l PH.nil) = {(key, tp)} +
              (PH.elems (PH.node k0 p0 l PH.nil)).erase (key, tp) := by
            rw [Multiset.singleton_add, Multiset.cons_erase hmemt]
          have hmem2 : PH.Dir.l ∈ PH.Dir.l :: pa2 := List.mem_cons_self _ _
          obtain ⟨rs, hrs, hsplit⟩ := PH.parent_split _ hmem2
          have hga := PH.getAt_append (PH.node k0 p0 l PH.nil)
            (PH.parent_path (PH.Dir.l :: pa2)) (PH.Dir.l :: rs)
          rw [← hsplit, hget] at hga
          cases hpar : PH.getAt (PH.node k0 p0 l PH.nil)
              (PH.parent_path (PH.Dir.l :: pa2)) with
          | none => rw [hpar] at hga; exact absurd hga (by simp)
          | some par =>
            rw [hpar] at hga
            cases par with
            | nil =>
              rw [Option.some_bind] at hga
              exact absurd hga (by simp [PH.getAt])
            | node kp pp2 pl pr =>
              dsimp only
              refine ⟨tp, hmemt, ?_⟩
              by_cases hlt : pp2 < new_prio
              · rw [if_pos hlt]
                dsimp only
                have h1 := PH.elems_setAt (PH.node k0 p0 l PH.nil)
                  (PH.Dir.l :: pa2) (PH.node key new_prio tl tr) _ hget
                have h3 : PH.elems (PH.node key tp tl tr) = {(key, tp)} +
                    (PH.elems tl + PH.elems tr) := by
                  rw [PH.elems, Multiset.singleton_add]
                have h4 : PH.elems (PH.node key new_prio tl tr) =
                    {(key, new_prio)} + (PH.elems tl + PH.elems tr) := by
                  rw [PH.elems, Multiset.singleton_add]
                rw [h3, h4, h2] at h1
                have h6 : PH.elems (PH.setAt (PH.node k0 p0 l PH.nil)
                      (PH.Dir.l :: pa2) (PH.node key new_prio tl tr)) +
                      ({(key, tp)} + (PH.elems tl + PH.elems tr)) =
                    ({(key, new_prio)} +
                      (PH.elems (PH.node k0 p0 l PH.nil)).erase (key, tp)) +
                      ({(key, tp)} + (PH.elems tl + PH.elems tr)) := by
                  rw [h1]
                  abel
                have h7 := add_right_cancel h6
                rw [← Multiset.singleton_add]
                exact h7
              · rw [if_neg hlt]
                dsimp only
                have hnst : PH.noSib (PH.setAt (PH.node k0 p0 l PH.nil)
                    (PH.Dir.l :: pa2) tr) = true := rfl
                have hnsd : PH.noSib (PH.node key new_prio tl PH.nil) = true := rfl
                rw [PH.elems_merge_nodes hnst hnsd]
                have h1 := PH.elems_setAt (PH.node k0 p0 l PH.nil)
                  (PH.Dir.l :: pa2) tr _ hget
                have h3 : PH.elems (PH.node key tp tl tr) = {(key, tp)} +
                    (PH.elems tl + PH.elems tr) := by
                  rw [PH.elems, Multiset.singleton_add]
                rw [h3, h2] at h1
                have h6 : (PH.elems (PH.setAt (PH.node k0 p0 l PH.nil)
                      (PH.Dir.l :: pa2) tr) + PH.elems tl) +
                      ({(key, tp)} + PH.elems tr) =
                    (PH.elems (PH.node k0 p0 l PH.nil)).erase (key, tp) +
                      ({(key, tp)} + PH.elems tr) := by
                  have h5 : (PH.elems (PH.setAt (PH.node k0 p0 l PH.nil)
                        (PH.Dir.l :: pa2) tr) + PH.elems tl) +
                        ({(key, tp)} + PH.elems tr) =
                      PH.elems (PH.setAt (PH.node k0 p0 l PH.nil)
                        (PH.Dir.l :: pa2) tr) +
                        ({(key, tp)} + (PH.elems tl + PH.elems tr)) := by
                    abel
                  rw [h5, h1]
                  abel
                have h7 := add_right_cancel h6
                show PH.elems (PH.setAt (PH.node k0 p0 l PH.nil)
                    (PH.Dir.l :: pa2) tr) +
                    ((key, new_prio) ::ₘ (PH.elems tl + PH.elems PH.nil)) = _
                have h8 : PH.elems (PH.nil : PH K P) = 0 := rfl
                rw [h8, add_zero, ← Multiset.singleton_add, ← h7,
                  ← Multiset.singleton_add]
                abel

end PairingHeap

/-! ## Heaps reachable through the public API -/

namespace PH

variable {K P : Type}

/-- All node subtrees of a tree (each multiway node occurs once, as the
binary subtree rooted at it). -/
def nodesOf : PH K P → List (PH K P)
  | nil => []
  | node k p l r => node k p l r :: (nodesOf l ++ nodesOf r)

/-- The sibling chain starting at a node: the node, then its `right` sibling,
and so on.  `chainOf l` for `l` a node's `left` pointer lists the node's
children in the multiway tree. -/
def chainOf : PH K P → List (PH K P)
  | nil => []
  | node k p l r => node k p l r :: chainOf r

theorem nodeWF_mem_nodesOf [LinearOrder P] :
    ∀ {t s : PH K P}, nodeWF t = true → s ∈ nodesOf t → nodeWF s = true
  | nil, s, _, hs => by simp [nodesOf] at hs
  | node k p l r, s, ht, hs => by
    rw [nodeWF_node_iff] at ht
    rw [nodesOf, List.mem_cons, List.mem_append] at hs
    rcases hs with rfl | hs | hs
    · exact nodeWF_node_iff.2 ht
    · exact nodeWF_mem_nodesOf ht.2.1 hs
    · exact nodeWF_mem_nodesOf ht.2.2 hs

theorem allGE_chainOf [LinearOrder P] {p : P} :
    ∀ {t : PH K P} {k2 : K} {p2 : P} {l2 r2 : PH K P}, allGE p t = true →
      node k2 p2 l2 r2 ∈ chainOf t → p ≤ p2
  | nil, _, _, _, _, _, hs => by simp [chainOf] at hs
  | node k q l r, k2, p2, l2, r2, ht, hs => by
    rw [allGE_node_iff] at ht
    rw [chainOf, List.mem_cons] at hs
    rcases hs with he | hs
    · injection he with h1 h2 h3 h4
      exact h2 ▸ ht.1
    · exact allGE_chainOf ht.2.2 hs

/-- Multiset of keys stored in a tree. -/
def keysOf (t : PH K P) : Multiset K := (elems t).map Prod.fst

theorem keysOf_node {k : K} {p : P} {l r : PH K P} :
    keysOf (node k p l r) = k ::ₘ (keysOf l + keysOf r) := by
  simp [keysOf, elems]

theorem getAt_key_mem :
    ∀ (t : PH K P) (ds : Path) (k : K) (p : P) (l r : PH K P),
      getAt t ds = some (node k p l r) → k ∈ keysOf t
  | t, [], k, p, l, r, hg => by
    rw [getAt_nil_path] at hg
    rw [Option.some.inj hg, keysOf_node]
    exact Multiset.mem_cons_self _ _
  | nil, _ :: _, _, _, _, _, hg => by simp [getAt] at hg
  | node k0 p0 l0 r0, Dir.l :: ds, k, p, l, r, hg => by
    rw [keysOf_node]
    exact Multiset.mem_cons_of_mem (Multiset.mem_add.2
      (Or.inl (getAt_key_mem l0 ds k p l r hg)))
  | node k0 p0 l0 r0, Dir.r :: ds, k, p, l, r, hg => by
    rw [keysOf_node]
    exact Multiset.mem_cons_of_mem (Multiset.mem_add.2
      (Or.inr (getAt_key_mem r0 ds k p l r hg)))

end PH

/-- Heap values reachable by the public mutating API of `src/ph.rs` starting
from the empty heap: `new`, `insert`, `merge`, `delete_min` and
`decrease_prio` (priorities instantiated at `Nat`, where the `SubAssign` of
`decrease_prio` is truncated subtraction, so every call is a genuine
decrease).  `find_min` and `len` do not mutate the heap and need no case. -/
inductive Built {K : Type} [DecidableEq K] : PairingHeap K Nat → Prop where
  | new : Built PairingHeap.new
  | insert {h : PairingHeap K Nat} (k : K) (p : Nat) :
      Built h → Built (h.insert k p)
  | merge {h1 h2 : PairingHeap K Nat} :
      Built h1 → Built h2 → Built (h1.merge h2)
  | delete_min {h : PairingHeap K Nat} {kp : K × Nat} {h2 : PairingHeap K Nat} :
      Built h → h.delete_min = some (kp, h2) → Built h2
  | decrease_prio {h : PairingHeap K Nat} (k : K) (d : Nat) :
      Built h → Built (h.decrease_prio k d)

/-- Every heap reachable through the public API is well formed. -/
theorem Built.wf {K : Type} [DecidableEq K] {h : PairingHeap K Nat}
    (hb : Built h) : h.WF := by
  induction hb with
  | new => exact PairingHeap.new_wf
  | insert k p _ ih => exact PairingHeap.insert_wf ih k p
  | merge _ _ ih1 ih2 => exact PairingHeap.merge_wf ih1 ih2
  | delete_min _ hdm ih => exact (PairingHeap.delete_min_spec ih hdm).1
  | decrease_prio k d _ ih => exact PairingHeap.decrease_prio_wf ih k d

/-- C1.  Heap order is preserved by every sequence of public heap operations
(`insert`, `merge`, `delete_min`, `decrease_prio` — with `Nat` priorities and
truncated subtraction every `decrease_prio` argument is a valid decrease —
and the non-mutating `find_min`): in any heap `h` reachable by such a
sequence (`Built h`), every node of the tree and every child on that node's
child chain satisfy `parent.priority ≤ child.priority` under the configured
strict-less order. -/
theorem claim_C1_heap_order {K : Type} [DecidableEq K] (h : PairingHeap K Nat)
    (hb : Built h) (k : K) (p : Nat) (l r : PH K Nat)
    (hmem : PH.node k p l r ∈ PH.nodesOf h.root)
    (k2 : K) (p2 : Nat) (l2 r2 : PH K Nat)
    (hchild : PH.node k2 p2 l2 r2 ∈ PH.chainOf l) : p ≤ p2 := by
  have hwf := hb.wf
  have hnw := PH.nodeWF_mem_nodesOf hwf.1 hmem
  rw [PH.nodeWF_node_iff] at hnw
  exact PH.allGE_chainOf hnw.1 hchild

/-- Witness for C1: in the heap built by `insert 1 5; insert 2 6` the root
`(1, 5)` has the child `(2, 6)` on its chain, and the theorem yields
`5 ≤ 6`. -/
theorem claim_C1_heap_order_witness :
    PH.node 2 6 PH.nil PH.nil ∈
      PH.chainOf (K := Nat) (P := Nat) (PH.node 2 6 PH.nil PH.nil) ∧ (5 : Nat) ≤ 6 :=
  ⟨by decide,
    claim_C1_heap_order ((PairingHeap.new.insert 1 5).insert 2 6)
      (Built.insert 2 6 (Built.insert 1 5 Built.new)) 1 5
      (PH.node 2 6 PH.nil PH.nil) PH.nil (by decide) 2 6 PH.nil PH.nil (by decide)⟩

/-- C10.  `decrease_prio` with a key that is not present in the heap
(including on an empty heap) is a no-op: the resulting heap is equal to the
original, so its length, root and every node's key, priority and links are
unchanged. -/
theorem claim_C10_decrease_prio_absent {K : Type} [DecidableEq K]
    (h : PairingHeap K Nat) (key : K) (delta : Nat)
    (habs : key ∉ PH.keysOf h.root) : h.decrease_prio key delta = h := by
  obtain ⟨root, len⟩ := h
  cases root with
  | nil => rfl
  | node k0 p0 l r =>
    have hk : ¬k0 = key := by
      intro he
      subst he
      refine habs ?_
      dsimp only
      rw [PH.keysOf_node]
      exact Multiset.mem_cons_self _ _
    simp only [PairingHeap.decrease_prio]
    rw [if_neg hk]
    cases hfind : PH.bfs_find (PH.node k0 p0 l r) key
        (PH.sizeT (PH.node k0 p0 l r)) (some [PH.Dir.l]) [] with
    | none => rfl
    | some pa =>
      exfalso
      obtain ⟨tp, tl, tr, hget⟩ := PH.bfs_find_sound _ key _ _ _ pa hfind
      exact habs (PH.getAt_key_mem _ pa key tp tl tr hget)

/-- Witness for C10: key `7` is absent from the heap built by
`insert 1 5; insert 2 6`, and `decrease_prio 7 3` returns it unchanged. -/
theorem claim_C10_witness :
    (7 : Nat) ∉ PH.keysOf (((PairingHeap.new.insert 1 5).insert 2 6) :
      PairingHeap Nat Nat).root ∧
    ((PairingHeap.new.insert 1 5).insert 2 6).decrease_prio 7 3 =
      (PairingHeap.new.insert 1 5).insert 2 6 :=
  ⟨by decide, claim_C10_decrease_prio_absent _ 7 3 (by decide)⟩

/-- Counterexample to C3 as stated.  The claim says that when two roots have
equal priorities the receiver (`self`) wins, so merging the singleton heaps
`{(0, 5)}` (self) and `{(1, 5)}` (other) would have to leave key `0` at the
root; the code melds `other` over `self` (the `meld(root2, root1)` branch of
`merge_nodes` is taken whenever `root1.prio < root2.prio` fails, in
particular on ties) and `find_min` returns key `1`. -/
theorem claim_C3_counterexample :
    ((PairingHeap.new.insert 0 5).merge (PairingHeap.new.insert 1 5) :
      PairingHeap Nat Nat).find_min = some (1, 5) ∧
      ((1, 5) : Nat × Nat) ≠ (0, 5) := by decide

/-- C3 as amended.  When the two melded roots carry equal priorities, the
second operand (`other` in `merge(self, other)`) wins: `merge_nodes` takes
the `meld(root2, root1)` branch, making `node1` the new first child of
`node2` and keeping `node2`'s key and priority at the root.  The rule is
applied uniformly: `merge`, `insert`, the two passes of `delete_min` and the
re-meld of `decrease_prio`/`update_prio` all meld exclusively through
`merge_nodes`. -/
theorem claim_C3_amended {K P : Type} [LinearOrder P] (k1 k2 : K) (p : P)
    (l1 r1 l2 r2 : PH K P) :
    PH.merge_nodes (PH.node k1 p l1 r1) (PH.node k2 p l2 r2) =
      PH.node k2 p (PH.node k1 p l1 l2) r2 := by
  rw [PH.merge_nodes, if_neg (lt_irrefl p), PH.meld]

/-- C5 is a code bug (`// TODO: currently only works when new_prio < prio.`,
`src/ph.rs` line 184).  In the heap built by `insert 1 5; insert 2 6;
insert 3 0` (root `(3, 0)`, child `(1, 5)`, grandchild `(2, 6)`), raising the
priority of the handle of key `1` to `10` takes the early-return branch of
`update` (`parent.prio < node.prio`), which only overwrites the priority:
the node `(1, 10)` keeps its child `(2, 6)` with `6 < 10`, so heap order is
corrupted (`nodeWF` is `false`) and a subsequent drain returns priorities
`[0, 10, 6]`, out of order. -/
theorem claim_C5_code_bug :
    (((((PairingHeap.new.insert 1 5).insert 2 6).insert 3 0).update_prio 1 10 :
        PairingHeap Nat Nat).root =
      PH.node 3 0 (PH.node 1 10 (PH.node 2 6 PH.nil PH.nil) PH.nil) PH.nil) ∧
    PH.nodeWF ((((PairingHeap.new.insert 1 5).insert 2 6).insert 3 0).update_prio
      1 10 : PairingHeap Nat Nat).root = false ∧
    (PairingHeap.drain 3
        ((((PairingHeap.new.insert 1 5).insert 2 6).insert 3 0).update_prio 1 10 :
          PairingHeap Nat Nat)).map Prod.snd = [0, 10, 6] := by decide

/-! ## Sorted drains (C2, C4) -/

namespace PairingHeap

variable {K P : Type}

theorem sizeT_eq_zero {t : PH K P} (h : PH.sizeT t = 0) : t = PH.nil := by
  cases t with
  | nil => rfl
  | node k p l r => simp only [PH.sizeT] at h; omega

/-- Draining a well-formed heap with enough fuel returns its contents (as a
multiset) with the priorities in non-decreasing order. -/
theorem drain_sorted_perm [LinearOrder P] :
    ∀ (n : Nat) (h : PairingHeap K P), h.WF → PH.sizeT h.root ≤ n →
      ((drain n h).map Prod.snd).Sorted (· ≤ ·) ∧
        ((drain n h : List (K × P)) : Multiset (K × P)) = PH.elems h.root
  | 0, h, hwf, hn => by
    have hnil : h.root = PH.nil := sizeT_eq_zero (Nat.le_zero.1 hn)
    rw [drain, hnil]
    exact ⟨List.sorted_nil, by simp [PH.elems]⟩
  | n + 1, h, hwf, hn => by
    cases hdm : h.delete_min with
    | none =>
      have hnil : h.root = PH.nil := delete_min_none_iff.1 hdm
      rw [drain, hdm, hnil]
      exact ⟨List.sorted_nil, by simp [PH.elems]⟩
    | some kph =>
      obtain ⟨⟨k, p⟩, h2⟩ := kph
      obtain ⟨hwf2, helems, hmin, hlen⟩ := delete_min_spec hwf hdm
      have hsize : PH.sizeT h2.root ≤ n := by
        have h1 : Multiset.card (PH.elems h.root) =
            Multiset.card (PH.elems h2.root) + 1 := by
          rw [helems]; simp
        rw [PH.sizeT_eq_card_elems] at hn ⊢
        omega
      obtain ⟨ih1, ih2⟩ := drain_sorted_perm n h2 hwf2 hsize
      rw [drain, hdm]
      constructor
      · rw [List.map_cons, List.sorted_cons]
        refine ⟨fun q hq => ?_, ih1⟩
        rw [List.mem_map] at hq
        obtain ⟨⟨k2, p2⟩, hq2, rfl⟩ := hq
        refine hmin _ ?_
        rw [PH.prios, ← ih2]
        exact Multiset.mem_map_of_mem _ (by exact_mod_cast hq2)
      · rw [helems, ← ih2]
        rfl

/-- Sort-merge (the spec's words for C4): merge two priority lists, assumed
sorted, into their sorted multiset union. -/
def sortMerge [LinearOrder P] : List P → List P → List P
  | [], ys => ys
  | x :: xs, [] => x :: xs
  | x :: xs, y :: ys =>
    if x ≤ y then x :: sortMerge xs (y :: ys) else y :: sortMerge (x :: xs) ys
termination_by xs ys => xs.length + ys.length

theorem sortMerge_perm [LinearOrder P] :
    ∀ xs ys : List P, ((sortMerge xs ys : List P) : Multiset P) = ↑xs + ↑ys
  | [], ys => by rw [sortMerge]; simp
  | x :: xs, [] => by rw [sortMerge]; simp
  | x :: xs, y :: ys => by
    rw [sortMerge]
    split
    · show ((x :: sortMerge xs (y :: ys) : List P) : Multiset P) = _
      rw [← Multiset.cons_coe, sortMerge_perm xs (y :: ys)]
      simp only [← Multiset.singleton_add, ← Multiset.cons_coe]
      abel
    · show ((y :: sortMerge (x :: xs) ys : List P) : Multiset P) = _
      rw [← Multiset.cons_coe, sortMerge_perm (x :: xs) ys]
      simp only [← Multiset.singleton_add, ← Multiset.cons_coe]
      abel
termination_by xs ys => xs.length + ys.length

theorem sortMerge_mem [LinearOrder P] {z : P} {xs ys : List P}
    (hz : z ∈ sortMerge xs ys) : z ∈ xs ∨ z ∈ ys := by
  have h1 : z ∈ ((sortMerge xs ys : List P) : Multiset P) := by exact_mod_cast hz
  rw [sortMerge_perm, Multiset.mem_add] at h1
  exact_mod_cast h1

theorem sortMerge_sorted [LinearOrder P] :
    ∀ xs ys : List P, xs.Sorted (· ≤ ·) → ys.Sorted (· ≤ ·) →
      (sortMerge xs ys).Sorted (· ≤ ·)
  | [], ys, _, hy => by rw [sortMerge]; exact hy
  | x :: xs, [], hx, _ => by rw [sortMerge]; exact hx
  | x :: xs, y :: ys, hx, hy => by
    rw [List.sorted_cons] at hx hy
    rw [sortMerge]
    split
    · rename_i hxy
      rw [List.sorted_cons]
      refine ⟨fun z hz => ?_, sortMerge_sorted xs (y :: ys) hx.2 (List.sorted_cons.2 hy)⟩
      rcases sortMerge_mem hz with hz | hz
      · exact hx.1 z hz
      · rcases List.mem_cons.1 hz with rfl | hz
        · exact hxy
        · exact le_trans hxy (hy.1 z hz)
    · rename_i hxy
      have hyx : y ≤ x := le_of_not_le hxy
      rw [List.sorted_cons]
      refine ⟨fun z hz => ?_, sortMerge_sorted (x :: xs) ys (List.sorted_cons.2 hx) hy.2⟩
      rcases sortMerge_mem hz with hz | hz
      · rcases List.mem_cons.1 hz with rfl | hz
        · exact hyx
        · exact le_trans hyx (hx.1 z hz)
      · exact hy.1 z hz
termination_by xs ys => xs.length + ys.length

end PairingHeap

/-- C2.  Sorted drain: for every heap built by public heap operations — in
particular by any sequence of inserts and merges — repeatedly calling
`delete_min` until the heap is empty (`drain` with fuel `len`, which equals
the number of stored nodes) returns the stored priorities in non-decreasing
order; concretely, inserting priorities `[5, 1, 4, 2, 3]` and draining
yields priorities `1, 2, 3, 4, 5`. -/
theorem claim_C2_sorted_drain :
    (∀ {K : Type} [DecidableEq K] (h : PairingHeap K Nat), Built h →
      ((PairingHeap.drain h.len h).map Prod.snd).Sorted (· ≤ ·)) ∧
    (PairingHeap.drain 5 (PairingHeap.insert_list PairingHeap.new
        [(5, 5), (1, 1), (4, 4), (2, 2), (3, 3)])).map Prod.snd =
      [1, 2, 3, 4, 5] := by
  constructor
  · intro K _ h hb
    have hwf := hb.wf
    exact (PairingHeap.drain_sorted_perm h.len h hwf (le_of_eq hwf.2.2.symm)).1
  · decide

/-- Witness for C2: the heap of scenario S1 (priorities `[5, 1, 4, 2, 3]`,
each key equal to its priority) is built by inserts, and the general part of
the theorem applies to it. -/
theorem claim_C2_sorted_drain_witness :
    ((PairingHeap.drain (PairingHeap.insert_list PairingHeap.new
        [(5, 5), (1, 1), (4, 4), (2, 2), (3, 3)] : PairingHeap Nat Nat).len
      (PairingHeap.insert_list PairingHeap.new
        [(5, 5), (1, 1), (4, 4), (2, 2), (3, 3)])).map Prod.snd).Sorted (· ≤ ·) :=
  claim_C2_sorted_drain.1 _
    (Built.insert 3 3 (Built.insert 2 2 (Built.insert 4 4
      (Built.insert 1 1 (Built.insert 5 5 Built.new)))))

/-- C4.  Merge additivity: for all heaps `a` and `b` reachable through the
public API, `(a.merge b).len = a.len + b.len` (the lengths taken before the
merge), and draining the merged heap yields exactly the sort-merge (the
sorted multiset union) of the priority sequences obtained by draining `a`
and `b`. -/
theorem claim_C4_merge_additivity {K : Type} [DecidableEq K]
    (a b : PairingHeap K Nat) (ha : Built a) (hb : Built b) :
    (a.merge b).len = a.len + b.len ∧
    (PairingHeap.drain (a.merge b).len (a.merge b)).map Prod.snd =
      PairingHeap.sortMerge ((PairingHeap.drain a.len a).map Prod.snd)
        ((PairingHeap.drain b.len b).map Prod.snd) := by
  have hwa := ha.wf
  have hwb := hb.wf
  have hwm := PairingHeap.merge_wf hwa hwb
  obtain ⟨hsa, hpa⟩ := PairingHeap.drain_sorted_perm a.len a hwa (le_of_eq hwa.2.2.symm)
  obtain ⟨hsb, hpb⟩ := PairingHeap.drain_sorted_perm b.len b hwb (le_of_eq hwb.2.2.symm)
  obtain ⟨hsm, hpm⟩ := PairingHeap.drain_sorted_perm (a.merge b).len (a.merge b)
    hwm (le_of_eq hwm.2.2.symm)
  refine ⟨rfl, ?_⟩
  have hmult : (((PairingHeap.drain (a.merge b).len (a.merge b)).map Prod.snd :
      List Nat) : Multiset Nat) =
      ((PairingHeap.sortMerge ((PairingHeap.drain a.len a).map Prod.snd)
        ((PairingHeap.drain b.len b).map Prod.snd) : List Nat) : Multiset Nat) := by
    rw [PairingHeap.sortMerge_perm, ← Multiset.map_coe, ← Multiset.map_coe,
      ← Multiset.map_coe, hpa, hpb, hpm, PairingHeap.elems_merge hwa hwb]
    rw [Multiset.map_add]
  exact List.eq_of_perm_of_sorted (Multiset.coe_eq_coe.1 hmult) hsm
    (PairingHeap.sortMerge_sorted _ _ hsa hsb)

/-- Witness for C4: merging the heaps of priorities `[1, 3]` and `[2]`. -/
theorem claim_C4_merge_additivity_witness :
    ((((PairingHeap.new.insert 1 1).insert 2 3).merge (PairingHeap.new.insert 3 2) :
        PairingHeap Nat Nat).len =
      ((PairingHeap.new.insert 1 1).insert 2 3 : PairingHeap Nat Nat).len +
        (PairingHeap.new.insert 3 2 : PairingHeap Nat Nat).len) ∧
    (PairingHeap.drain (((PairingHeap.new.insert 1 1).insert 2 3).merge
        (PairingHeap.new.insert 3 2)).len
      (((PairingHeap.new.insert 1 1).insert 2 3).merge
        (PairingHeap.new.insert 3 2))).map Prod.snd =
      PairingHeap.sortMerge
        ((PairingHeap.drain ((PairingHeap.new.insert 1 1).insert 2 3 :
          PairingHeap Nat Nat).len ((PairingHeap.new.insert 1 1).insert 2 3)).map
            Prod.snd)
        ((PairingHeap.drain (PairingHeap.new.insert 3 2 :
          PairingHeap Nat Nat).len (PairingHeap.new.insert 3 2)).map Prod.snd) :=
  claim_C4_merge_additivity _ _
    (Built.insert 2 3 (Built.insert 1 1 Built.new)) (Built.insert 3 2 Built.new)

/-! ## The graph component (`src/graph.rs`)

The generic weight type `W : Bounded + Num + Zero + PartialOrd + Copy` is
instantiated with `WithTop Nat`: `W::zero()` is `0`, `W::max_value()` is `⊤`,
`+` and `<`/`≤` are those of `WithTop Nat`.  `HashMap<usize, Vec<(usize, W)>>`
is modelled as an association list with pairwise-distinct keys in first-insertion
order; the algorithms only use `get`/`get_mut` (key lookup) and `len`, all of
which this models exactly.  `Vec` indexing (`nodes[node]`), which panics when
out of bounds in the source, is modelled by `List.getD`/`List.set` (default
element / no-op); the claims' hypotheses keep indices in bounds. -/

/-- The weight type: `WithTop Nat`. -/
abbrev Wt : Type := WithTop Nat

/-- `SimpleGraph<W>` from `src/graph.rs` lines 65-69: a half-edge counter and
the adjacency map. -/
structure SimpleGraph : Type where
  n_edges : Nat
  weights : List (Nat × List (Nat × Wt))
deriving DecidableEq

namespace SimpleGraph

/-- `SimpleGraph::new` / `with_capacity` (capacity is irrelevant to the
model): the empty graph. -/
def new : SimpleGraph := ⟨0, []⟩

/-- `SimpleGraph::n_nodes`: number of keys of the adjacency map. -/
def n_nodes (g : SimpleGraph) : Nat := g.weights.length

/-- `SimpleGraph::insert_weight` (`src/graph.rs` lines 188-198): append
`(node2, w)` to `node1`'s adjacency list, creating the entry if absent. -/
def insert_weight (ws : List (Nat × List (Nat × Wt))) (node1 node2 : Nat)
    (w : Wt) : List (Nat × List (Nat × Wt)) :=
  match ws with
  | [] => [(node1, [(node2, w)])]
  | (k, v) :: rest =>
    if k = node1 then (k, v ++ [(node2, w)]) :: rest
    else (k, v) :: insert_weight rest node1 node2 w

/-- `SimpleGraph::add_weighted_edges` (`src/graph.rs` lines 101-111): insert
the two half-edges when `node1 != node2`; the counter `n_edges += 2` runs
unconditionally, also for a rejected self-loop. -/
def add_weighted_edges (g : SimpleGraph) (node1 node2 : Nat) (w : Wt) :
    SimpleGraph :=
  ⟨g.n_edges + 2,
    if node1 ≠ node2 then
      insert_weight (insert_weight g.weights node1 node2 w) node2 node1 w
    else g.weights⟩

/-- `SimpleGraph::neighbours` (`src/graph.rs` lines 114-117): adjacency-list
lookup. -/
def neighbours (g : SimpleGraph) (node : Nat) : Option (List (Nat × Wt)) :=
  (g.weights.find? fun kv => kv.1 == node).map Prod.snd

/-- The adjacency list of a node, empty when the node has no entry
(`neighbours` returned `None`). -/
def adjL (g : SimpleGraph) (u : Nat) : List (Nat × Wt) :=
  (g.neighbours u).getD []

/-- Number of half-edges actually stored in the adjacency lists.  Each
successfully added undirected edge contributes exactly 2. -/
def stored_half_edges (g : SimpleGraph) : Nat :=
  (g.weights.map fun kv => kv.2.length).sum

end SimpleGraph

/-- `DijNode<W>` from `src/graph.rs` lines 356-368. -/
structure DijNode : Type where
  pred : Nat
  len : Nat
  visited : Bool
  feasible : Bool
  dist : Wt
deriving DecidableEq

/-- `DijNode::new` (`src/graph.rs` lines 370-383): `pred = 0`,
`dist = W::max_value()`, flags clear. -/
def DijNode.new : DijNode := ⟨0, 0, false, false, ⊤⟩

/-- Body of the `for (u, dist) in nb` relaxation loop of
`SimpleGraph::dijkstra` (`src/graph.rs` lines 167-177): if `u` is unvisited
and `prio + dist` improves on its tentative distance, update its record and
push `(u, alt)` onto the heap. -/
def dijkstra_relax (node : Nat) (prio : Wt) (count : Nat)
    (st : List DijNode × PairingHeap Nat Wt) (uw : Nat × Wt) :
    List DijNode × PairingHeap Nat Wt :=
  let dijnode := st.1.getD uw.1 DijNode.new
  let alt := prio + uw.2
  if !dijnode.visited && decide (alt < dijnode.dist) then
    (st.1.set uw.1 ⟨node, count, dijnode.visited, true, alt⟩,
      st.2.insert uw.1 alt)
  else st

/-- The `while len != 0` loop of `SimpleGraph::dijkstra` (`src/graph.rs`
lines 162-183): pop the minimum, relax its neighbours, mark it visited.  The
source loop terminates because every pop shrinks the heap by one and every
insertion strictly lowers a tentative distance; the model makes this explicit
with a fuel argument, and theorems assume the run drained the heap. -/
def dijkstra_loop (g : SimpleGraph) :
    Nat → PairingHeap Nat Wt → List DijNode → List DijNode × PairingHeap Nat Wt
  | 0, pq, nodes => (nodes, pq)
  | fuel + 1, pq, nodes =>
    match pq.delete_min with
    | none => (nodes, pq)
    | some ((node, prio), pq2) =>
      let count := (nodes.getD node DijNode.new).len + 1
      let st :=
        match g.neighbours node with
        | some nb => nb.foldl (dijkstra_relax node prio count) (nodes, pq2)
        | none => (nodes, pq2)
      let dn := st.1.getD node DijNode.new
      dijkstra_loop g fuel st.2
        (st.1.set node ⟨dn.pred, dn.len, true, dn.feasible, dn.dist⟩)

/-- `SimpleGraph::dijkstra` (`src/graph.rs` lines 150-186): push `(src, 0)`,
allocate one record per node with `dist = max_value` (`0` for the source),
and run the loop.  Returns the final records and the final heap (empty when
the fuel sufficed). -/
def SimpleGraph.dijkstra (g : SimpleGraph) (src : Nat) (fuel : Nat) :
    List DijNode × PairingHeap Nat Wt :=
  let pq := (PairingHeap.new : PairingHeap Nat Wt).insert src 0
  let nodes := (List.replicate g.n_nodes DijNode.new).set src ⟨0, 0, false, false, 0⟩
  dijkstra_loop g fuel pq nodes

/-- `ShortestPath<W>` from `src/graph.rs` lines 227-234. -/
structure ShortestPath : Type where
  src : Nat
  dest : Nat
  feasible : Bool
  dist : Wt
  path : List Nat
deriving DecidableEq

/-- The `while len < expected` loop of `traverse_path` (`src/graph.rs` lines
399-403): prepend the current predecessor and follow its `pred` link until
the path has the expected number of nodes.  Each iteration grows the path by
one, so starting from `[dest]` (length 1) with `expected = end_node.len + 1`
the loop body runs exactly `end_node.len` times; the model counts those
iterations down structurally. -/
def path_loop (paths : List DijNode) : Nat → Nat → List Nat → List Nat
  | 0, _, path => path
  | fuel + 1, next, path =>
    path_loop paths fuel ((paths.getD next DijNode.new).pred) (next :: path)

/-- `traverse_path` (`src/graph.rs` lines 385-421): walk predecessor links
back from `dest` (a feasible record has `len + 1` nodes on its path), or
return an infeasible record with distance `zero` and an empty path. -/
def traverse_path (src dest : Nat) (paths : List DijNode) : ShortestPath :=
  let end_node := paths.getD dest DijNode.new
  if end_node.feasible then
    ⟨src, dest, true, end_node.dist,
      path_loop paths end_node.len end_node.pred [dest]⟩
  else
    ⟨src, dest, false, 0, []⟩

/-- `SimpleGraph::sssp_dijkstra` (`src/graph.rs` lines 124-136). -/
def SimpleGraph.sssp_dijkstra (g : SimpleGraph) (src : Nat) (dest : List Nat)
    (fuel : Nat) : List ShortestPath :=
  let nodes := (g.dijkstra src fuel).1
  dest.map fun ii => traverse_path src ii nodes

/-- `LazyShortestPaths<W>` from `src/graph.rs` lines 270-273. -/
structure LazyShortestPaths : Type where
  src : Nat
  paths : List DijNode
deriving DecidableEq

/-- `SimpleGraph::sssp_dijkstra_lazy` (`src/graph.rs` lines 140-148). -/
def SimpleGraph.sssp_dijkstra_lazy (g : SimpleGraph) (src : Nat) (fuel : Nat) :
    LazyShortestPaths :=
  ⟨src, (g.dijkstra src fuel).1⟩

/-- `LazyShortestPaths::get` (`src/graph.rs` lines 277-282). -/
def LazyShortestPaths.get (lsp : LazyShortestPaths) (node_index : Nat) :
    ShortestPath :=
  traverse_path lsp.src node_index lsp.paths

/-- `PrimNode<W>` from `src/graph.rs` lines 507-513.  The `heap : HeapElmt`
handle is modelled by the `live` flag together with the node's index as key:
`heap.none()` clears the flag, `!heap.is_none()` reads it, and
`update_prio(&node.heap, d)` becomes `update_prio` by the key `idx` (each
index is inserted exactly once, so keys are pairwise distinct and the key
identifies the node the handle points to). -/
structure PrimNode : Type where
  idx : Nat
  parent : Option Nat
  live : Bool
  dist : Wt
deriving DecidableEq

/-- `PrimNode::new` combined with the initialization in `mst_prim`
(`src/graph.rs` lines 461-473): build the record list for indices
`0..n_nodes` and insert each into the heap with `0` for the source and
`max_value` otherwise. -/
def prim_setup (src n : Nat) : List PrimNode × PairingHeap Nat Wt :=
  (List.range n).foldl
    (fun st ii =>
      let d : Wt := if ii = src then 0 else ⊤
      (st.1 ++ [⟨ii, none, true, d⟩], st.2.insert ii d))
    ([], PairingHeap.new)

/-- Body of the `for (u, dist) in nb` loop of `mst_prim` (`src/graph.rs`
lines 482-489): if `u` is still in the heap and the edge weight beats its
tentative distance, record the cheaper edge and decrease its priority. -/
def prim_relax (node : Nat) (st : List PrimNode × PairingHeap Nat Wt)
    (uw : Nat × Wt) : List PrimNode × PairingHeap Nat Wt :=
  let primnode := st.1.getD uw.1 ⟨0, none, false, ⊤⟩
  if primnode.live && decide (uw.2 < primnode.dist) then
    (st.1.set uw.1 ⟨primnode.idx, some node, primnode.live, uw.2⟩,
      st.2.update_prio uw.1 uw.2)
  else st

/-- The `while len != 0` loop of `mst_prim` (`src/graph.rs` lines 477-493):
pop the minimum, invalidate its handle, relax its incident edges.  The loop
runs exactly `n_nodes` times (`update_prio` never changes the length), which
callers supply as fuel. -/
def prim_loop (g : SimpleGraph) :
    Nat → PairingHeap Nat Wt → List PrimNode → List PrimNode × PairingHeap Nat Wt
  | 0, pq, nodes => (nodes, pq)
  | fuel + 1, pq, nodes =>
    match pq.delete_min with
    | none => (nodes, pq)
    | some ((node, _), pq2) =>
      let pn := nodes.getD node ⟨0, none, false, ⊤⟩
      let nodes2 := nodes.set node ⟨pn.idx, pn.parent, false, pn.dist⟩
      let st :=
        match g.neighbours node with
        | some nb => nb.foldl (prim_relax node) (nodes2, pq2)
        | none => (nodes2, pq2)
      prim_loop g fuel st.2 st.1

/-- `mst_prim` (`src/graph.rs` lines 456-505): run the loop, then emit one
edge `(parent, idx, dist)` per node with a recorded parent and accumulate
the total weight. -/
def mst_prim (g : SimpleGraph) (src : Nat) (fuel : Nat) : SimpleGraph × Wt :=
  let setup := prim_setup src g.n_nodes
  let res := prim_loop g fuel setup.2 setup.1
  res.1.foldl
    (fun acc node =>
      match node.parent with
      | some p => (acc.1.add_weighted_edges p node.idx node.dist, acc.2 + node.dist)
      | none => acc)
    (SimpleGraph.new, 0)

/-- The graph of the Wikipedia Dijkstra example (`src/graph.rs` doc example
and scenario S4), nodes `0..5`. -/
def wikiGraph : SimpleGraph :=
  ((((((((SimpleGraph.new.add_weighted_edges 0 1 7).add_weighted_edges 0 2
    9).add_weighted_edges 0 5 14).add_weighted_edges 1 2
    10).add_weighted_edges 1 3 15).add_weighted_edges 2 5
    2).add_weighted_edges 2 3 11).add_weighted_edges 3 4
    6).add_weighted_edges 4 5 9

/-- The 9-node graph of scenario S6 (`mst_prim` doc example,
`src/graph.rs` lines 431-446). -/
def primGraph : SimpleGraph :=
  (((((((((((((SimpleGraph.new.add_weighted_edges 0 1 4).add_weighted_edges 0 7
    8).add_weighted_edges 1 2 8).add_weighted_edges 1 7
    11).add_weighted_edges 2 3 7).add_weighted_edges 2 5
    4).add_weighted_edges 2 8 2).add_weighted_edges 3 4
    9).add_weighted_edges 3 5 14).add_weighted_edges 4 5
    10).add_weighted_edges 5 6 2).add_weighted_edges 6 7
    1).add_weighted_edges 6 8 6).add_weighted_edges 7 8 7

/-! ## C8: the self-loop counter bug -/

/-- C8 is a code bug.  A self-loop is silently rejected — the adjacency lists
are unchanged — but `add_weighted_edges` increments `n_edges` by 2
unconditionally (`src/graph.rs` line 110 sits outside the `node1 != node2`
guard), so after adding a self-loop `n_edges()` exceeds the number of stored
half-edges: on the failing input `SimpleGraph::new()` followed by
`add_weighted_edges(0, 0, 1)` the counter reports 2 while 0 half-edges are
stored.  (Spec §9, open question 1, flags exactly this divergence.) -/
theorem claim_C8_self_loop_counter :
    (∀ (g : SimpleGraph) (u : Nat) (w : Wt),
      (g.add_weighted_edges u u w).weights = g.weights ∧
        (g.add_weighted_edges u u w).n_edges = g.n_edges + 2) ∧
    (SimpleGraph.new.add_weighted_edges 0 0 1).n_edges = 2 ∧
    (SimpleGraph.new.add_weighted_edges 0 0 1).stored_half_edges = 0 := by
  refine ⟨fun g u w => ⟨?_, rfl⟩, rfl, rfl⟩
  show (if u ≠ u then _ else g.weights) = g.weights
  simp

/-! ## C9: the source node's record stays infeasible -/

/-- One relaxation step never touches the source's record: a stored source
record has distance `0` and nothing is `< 0` in `WithTop Nat`; if the source
is out of range the `Vec` write is a no-op. -/
theorem dijkstra_relax_src (node : Nat) (prio : Wt) (count : Nat) (src : Nat)
    (st : List DijNode × PairingHeap Nat Wt) (uw : Nat × Wt)
    (hf : (st.1.getD src DijNode.new).feasible = false)
    (hd : (st.1.getD src DijNode.new).dist = 0 ∨ st.1.length ≤ src) :
    ((dijkstra_relax node prio count st uw).1.getD src DijNode.new).feasible
        = false ∧
      (((dijkstra_relax node prio count st uw).1.getD src DijNode.new).dist = 0 ∨
        (dijkstra_relax node prio count st uw).1.length ≤ src) := by
  rw [dijkstra_relax]
  split
  · rename_i hguard
    by_cases hu : uw.1 = src
    · subst hu
      rcases hd with hd | hd
      · exfalso
        rw [Bool.and_eq_true, decide_eq_true_iff] at hguard
        rw [hd] at hguard
        exact absurd hguard.2 (not_lt_of_le (zero_le _))
      · rw [List.set_eq_of_length_le hd]
        exact ⟨hf, Or.inr hd⟩
    · have hset : ∀ d : DijNode,
          ((st.1.set uw.1 d).getD src DijNode.new) = st.1.getD src DijNode.new := by
        intro d
        rw [List.getD_eq_getElem?_getD, List.getElem?_set_ne hu,
          ← List.getD_eq_getElem?_getD]
      refine ⟨by rw [hset]; exact hf, ?_⟩
      rw [hset, List.length_set]
      exact hd
  · exact ⟨hf, hd⟩

/-- The relaxation fold of one Dijkstra iteration preserves the source
invariant. -/
theorem dijkstra_relax_fold_src (node : Nat) (prio : Wt) (count : Nat)
    (src : Nat) :
    ∀ (nb : List (Nat × Wt)) (st : List DijNode × PairingHeap Nat Wt),
      (st.1.getD src DijNode.new).feasible = false →
      ((st.1.getD src DijNode.new).dist = 0 ∨ st.1.length ≤ src) →
      (((nb.foldl (dijkstra_relax node prio count) st).1.getD src
          DijNode.new).feasible = false) ∧
        (((nb.foldl (dijkstra_relax node prio count) st).1.getD src
            DijNode.new).dist = 0 ∨
          (nb.foldl (dijkstra_relax node prio count) st).1.length ≤ src)
  | [], st, hf, hd => ⟨hf, hd⟩
  | uw :: nb, st, hf, hd => by
    obtain ⟨hf2, hd2⟩ := dijkstra_relax_src node prio count src st uw hf hd
    exact dijkstra_relax_fold_src node prio count src nb _ hf2 hd2

/-- Through the whole Dijkstra loop the source's record keeps
`feasible = false` (and distance `0` while in range): the `feasible` flag is
only ever set during the relaxation of a strictly improving neighbor, and no
alternative distance can beat the source's `0`. -/
theorem dijkstra_loop_src (g : SimpleGraph) (src : Nat) :
    ∀ (fuel : Nat) (pq : PairingHeap Nat Wt) (nodes : List DijNode),
      (nodes.getD src DijNode.new).feasible = false →
      ((nodes.getD src DijNode.new).dist = 0 ∨ nodes.length ≤ src) →
      (((dijkstra_loop g fuel pq nodes).1.getD src DijNode.new).feasible = false)
  | 0, pq, nodes, hf, _ => hf
  | fuel + 1, pq, nodes, hf, hd => by
    rw [dijkstra_loop]
    cases hdm : pq.delete_min with
    | none => exact hf
    | some popped =>
      obtain ⟨⟨node, prio⟩, pq2⟩ := popped
      dsimp only
      have hfold := dijkstra_relax_fold_src node prio
        ((nodes.getD node DijNode.new).len + 1) src
      have hst : ∀ st : List DijNode × PairingHeap Nat Wt,
          (st.1.getD src DijNode.new).feasible = false →
          ((st.1.getD src DijNode.new).dist = 0 ∨ st.1.length ≤ src) →
          (((dijkstra_loop g fuel st.2 (st.1.set node
              ⟨(st.1.getD node DijNode.new).pred, (st.1.getD node DijNode.new).len,
                true, (st.1.getD node DijNode.new).feasible,
                (st.1.getD node DijNode.new).dist⟩)).1.getD src
                  DijNode.new).feasible = false) := by
        intro st hf2 hd2
        by_cases hn : node = src
        · subst hn
          by_cases hlt : node < st.1.length
          · have hget : ((st.1.set node ⟨(st.1.getD node DijNode.new).pred,
                (st.1.getD node DijNode.new).len, true,
                (st.1.getD node DijNode.new).feasible,
                (st.1.getD node DijNode.new).dist⟩).getD node DijNode.new) =
                ⟨(st.1.getD node DijNode.new).pred, (st.1.getD node DijNode.new).len,
                  true, (st.1.getD node DijNode.new).feasible,
                  (st.1.getD node DijNode.new).dist⟩ := by
              rw [List.getD_eq_getElem?_getD, List.getElem?_set_self hlt]
              rfl
            refine dijkstra_loop_src g node fuel _ _ ?_ ?_
            · rw [hget]
              exact hf2
            · rw [hget, List.length_set]
              rcases hd2 with hd2 | hd2
              · exact Or.inl hd2
              · exact Or.inr hd2
          · rw [List.set_eq_of_length_le (Nat.le_of_not_lt hlt)]
            exact dijkstra_loop_src g node fuel _ _ hf2 hd2
        · have hset : ((st.1.set node ⟨(st.1.getD node DijNode.new).pred,
              (st.1.getD node DijNode.new).len, true,
              (st.1.getD node DijNode.new).feasible,
              (st.1.getD node DijNode.new).dist⟩).getD src DijNode.new) =
              st.1.getD src DijNode.new := by
            rw [List.getD_eq_getElem?_getD, List.getElem?_set_ne hn,
              ← List.getD_eq_getElem?_getD]
          refine dijkstra_loop_src g src fuel _ _ ?_ ?_
          · rw [hset]
            exact hf2
          · rw [hset, List.length_set]
            exact hd2
      cases hnb : g.neighbours node with
      | some nb =>
        dsimp only
        obtain ⟨hf2, hd2⟩ := hfold nb (nodes, pq2) hf hd
        exact hst _ hf2 hd2
      | none =>
        dsimp only
        exact hst (nodes, pq2) hf hd

/-- C9.  For every graph, source node and fuel, the Dijkstra result record
for the source node itself carries `feasible = false`, distance `zero` and
an empty node sequence: `feasible` is only set when an edge relaxation
strictly improves a neighbor, and nothing improves the source's distance
`0`; both `sssp_dijkstra(src, [src])` and `sssp_dijkstra_lazy(src).get(src)`
therefore report the trivially-reachable source as infeasible. -/
theorem claim_C9_source_infeasible (g : SimpleGraph) (src fuel : Nat) :
    g.sssp_dijkstra src [src] fuel = [⟨src, src, false, 0, []⟩] ∧
      (g.sssp_dijkstra_lazy src fuel).get src = ⟨src, src, false, 0, []⟩ := by
  have hinit1 : (((List.replicate g.n_nodes DijNode.new).set src
      ⟨0, 0, false, false, 0⟩).getD src DijNode.new).feasible = false := by
    by_cases hlt : src < g.n_nodes
    · rw [List.getD_eq_getElem?_getD, List.getElem?_set_self
        (by simpa using hlt)]
      rfl
    · rw [List.set_eq_of_length_le (by simpa using Nat.le_of_not_lt hlt)]
      rw [List.getD_eq_getElem?_getD, List.getElem?_replicate, if_neg hlt]
      rfl
  have hinit2 : (((List.replicate g.n_nodes DijNode.new).set src
      ⟨0, 0, false, false, 0⟩).getD src DijNode.new).dist = 0 ∨
      ((List.replicate g.n_nodes DijNode.new).set src
        ⟨0, 0, false, false, 0⟩).length ≤ src := by
    by_cases hlt : src < g.n_nodes
    · left
      rw [List.getD_eq_getElem?_getD, List.getElem?_set_self
        (by simpa using hlt)]
      rfl
    · right
      rw [List.length_set, List.length_replicate]
      exact Nat.le_of_not_lt hlt
  have hfeas : (((g.dijkstra src fuel).1).getD src DijNode.new).feasible
      = false :=
    dijkstra_loop_src g src fuel _ _ hinit1 hinit2
  have htrav : traverse_path src src (g.dijkstra src fuel).1 =
      ⟨src, src, false, 0, []⟩ := by
    rw [traverse_path]
    simp only [hfeas]
    rfl
  constructor
  · show [traverse_path src src (g.dijkstra src fuel).1] = _
    rw [htrav]
  · show traverse_path src src (g.dijkstra src fuel).1 = _
    rw [htrav]

/-! ## Walks in a `SimpleGraph` (for the Dijkstra and Prim contracts)

A walk from `a` is a list of steps `(v, w)`, each an entry of the adjacency
list of the node reached so far; its weight is the sum of the `w`s.  "Paths
from the source" in the spec are formalized as such walks: with non-negative
weights the minimum over walks equals the minimum over simple paths. -/

/-- The steps list is a walk starting at `a`: each step follows a stored
half-edge. -/
def IsStepsFrom (g : SimpleGraph) : Nat → List (Nat × Wt) → Prop
  | _, [] => True
  | a, vw :: rest => vw ∈ g.adjL a ∧ IsStepsFrom g vw.1 rest

/-- Endpoint of a walk starting at `a`. -/
def stepsEnd : Nat → List (Nat × Wt) → Nat
  | a, [] => a
  | _, vw :: rest => stepsEnd vw.1 rest

/-- Total weight of a walk. -/
def stepsWt : List (Nat × Wt) → Wt
  | [] => 0
  | vw :: rest => vw.2 + stepsWt rest

/-- There is a walk from `src` to `u` of weight `c`. -/
def Reach (g : SimpleGraph) (src u : Nat) (c : Wt) : Prop :=
  ∃ steps, IsStepsFrom g src steps ∧ stepsEnd src steps = u ∧ stepsWt steps = c

theorem Reach.zero (g : SimpleGraph) (src : Nat) : Reach g src src 0 :=
  ⟨[], trivial, rfl, rfl⟩

theorem isStepsFrom_append (g : SimpleGraph) :
    ∀ (s1 s2 : List (Nat × Wt)) (a : Nat), IsStepsFrom g a s1 →
      IsStepsFrom g (stepsEnd a s1) s2 → IsStepsFrom g a (s1 ++ s2)
  | [], s2, a, _, h2 => h2
  | vw :: s1, s2, a, h1, h2 =>
    ⟨h1.1, isStepsFrom_append g s1 s2 vw.1 h1.2 h2⟩

theorem stepsEnd_append :
    ∀ (s1 s2 : List (Nat × Wt)) (a : Nat),
      stepsEnd a (s1 ++ s2) = stepsEnd (stepsEnd a s1) s2
  | [], s2, a => rfl
  | vw :: s1, s2, a => stepsEnd_append s1 s2 vw.1

theorem stepsWt_append :
    ∀ s1 s2 : List (Nat × Wt), stepsWt (s1 ++ s2) = stepsWt s1 + stepsWt s2
  | [], s2 => by rw [stepsWt]; simp
  | vw :: s1, s2 => by
    show vw.2 + stepsWt (s1 ++ s2) = vw.2 + stepsWt s1 + stepsWt s2
    rw [stepsWt_append s1 s2, add_assoc]

theorem Reach.step {g : SimpleGraph} {src u : Nat} {c : Wt}
    (h : Reach g src u c) {vw : Nat × Wt} (he : vw ∈ g.adjL u) :
    Reach g src vw.1 (c + vw.2) := by
  obtain ⟨steps, h1, h2, h3⟩ := h
  refine ⟨steps ++ [vw], ?_, ?_, ?_⟩
  · exact isStepsFrom_append g steps [vw] src h1 (by rw [h2]; exact ⟨he, trivial⟩)
  · rw [stepsEnd_append, h2]
    rfl
  · rw [stepsWt_append, h3]
    show c + (vw.2 + 0) = c + vw.2
    rw [add_zero]

/-! ## State accessors and invariants for the Dijkstra loop -/

/-- Tentative distance of node `u` in a record list. -/
def dOf (nodes : List DijNode) (u : Nat) : Wt := (nodes.getD u DijNode.new).dist

/-- Visited flag of node `u` in a record list. -/
def visOf (nodes : List DijNode) (u : Nat) : Bool :=
  (nodes.getD u DijNode.new).visited

/-- Feasible flag of node `u` in a record list. -/
def feasOf (nodes : List DijNode) (u : Nat) : Bool :=
  (nodes.getD u DijNode.new).feasible

/-- Density hypothesis on the adjacency lists: every stored half-edge
points below `n_nodes` (the source's `Vec` indexing assumes it). -/
def SimpleGraph.WFdense (g : SimpleGraph) : Prop :=
  ∀ kv ∈ g.weights, ∀ vw ∈ kv.2, vw.1 < g.n_nodes

instance (g : SimpleGraph) : Decidable g.WFdense := by
  unfold SimpleGraph.WFdense
  infer_instance

theorem SimpleGraph.WFdense.adjL_target_lt {g : SimpleGraph} (hg : g.WFdense) (u : Nat) :
    ∀ vw ∈ g.adjL u, vw.1 < g.n_nodes := by
  intro vw hvw
  rw [SimpleGraph.adjL] at hvw
  cases hnb : g.neighbours u with
  | none => rw [hnb] at hvw; simp at hvw
  | some nb =>
    rw [hnb] at hvw
    rw [SimpleGraph.neighbours] at hnb
    cases hfind : g.weights.find? fun kv => kv.1 == u with
    | none => rw [hfind] at hnb; simp at hnb
    | some kv =>
      rw [hfind] at hnb
      have hkv : kv ∈ g.weights := List.mem_of_find?_eq_some hfind
      have : kv.2 = nb := by simpa using hnb
      exact hg kv hkv vw (by rw [this]; simpa using hvw)

/-- Loop invariant for `dijkstra_loop`: `n` abbreviates `nodes.length`
(which never changes and equals `n_nodes`).  The fields say: the heap is
well formed and all its keys are in range; the source's distance is pinned
at `0`; every finite tentative distance is the weight of an actual walk;
every heap entry `(u, pr)` satisfies `dist u ≤ pr` and is an actual walk
weight; every unvisited node with a finite distance still has its current
distance in the heap; all edges out of visited nodes are relaxed; visited
distances are below all unvisited ones; and (except at the source) the
`feasible` flag tracks finiteness of the distance. -/
structure DInv (g : SimpleGraph) (src : Nat) (nodes : List DijNode)
    (pq : PairingHeap Nat Wt) : Prop where
  hwf : pq.WF
  hlen : nodes.length = g.n_nodes
  hkeys : ∀ kp ∈ PH.elems pq.root, kp.1 < nodes.length
  hsrc : dOf nodes src = 0
  hach : ∀ u < nodes.length, dOf nodes u ≠ ⊤ → Reach g src u (dOf nodes u)
  hheap : ∀ kp ∈ PH.elems pq.root,
    dOf nodes kp.1 ≤ kp.2 ∧ Reach g src kp.1 kp.2
  hpend : ∀ u < nodes.length, visOf nodes u = false → dOf nodes u ≠ ⊤ →
    (u, dOf nodes u) ∈ PH.elems pq.root
  hrelax : ∀ u < nodes.length, visOf nodes u = true →
    ∀ vw ∈ g.adjL u, dOf nodes vw.1 ≤ dOf nodes u + vw.2
  hmono : ∀ u < nodes.length, visOf nodes u = true →
    ∀ v < nodes.length, visOf nodes v = false → dOf nodes u ≤ dOf nodes v
  hfeas : ∀ u, u ≠ src → (feasOf nodes u = true ↔ dOf nodes u ≠ ⊤)

/-- The invariant is preserved by replacing the record list with a
pointwise-equal one. -/
theorem DInv_congr {g : SimpleGraph} {src : Nat} {nodes nodes2 : List DijNode}
    {pq : PairingHeap Nat Wt} (hlen2 : nodes2.length = nodes.length)
    (hpt : ∀ u, nodes2.getD u DijNode.new = nodes.getD u DijNode.new)
    (inv : DInv g src nodes pq) : DInv g src nodes2 pq := by
  have hd : ∀ u, dOf nodes2 u = dOf nodes u := fun u => by
    rw [dOf, dOf, hpt]
  have hv : ∀ u, visOf nodes2 u = visOf nodes u := fun u => by
    rw [visOf, visOf, hpt]
  have hf : ∀ u, feasOf nodes2 u = feasOf nodes u := fun u => by
    rw [feasOf, feasOf, hpt]
  refine ⟨inv.hwf, by rw [hlen2, inv.hlen], ?_, ?_, ?_, ?_, ?_, ?_, ?_, ?_⟩
  · intro kp hkp
    rw [hlen2]
    exact inv.hkeys kp hkp
  · rw [hd]
    exact inv.hsrc
  · intro u hu hne
    rw [hd] at hne ⊢
    exact inv.hach u (hlen2 ▸ hu) hne
  · intro kp hkp
    rw [hd]
    exact inv.hheap kp hkp
  · intro u hu hvis hne
    rw [hd] at hne ⊢
    rw [hv] at hvis
    exact inv.hpend u (hlen2 ▸ hu) hvis hne
  · intro u hu hvis vw hvw
    rw [hd, hd]
    rw [hv] at hvis
    exact inv.hrelax u (hlen2 ▸ hu) hvis vw hvw
  · intro u hu hvis v hv2 hvis2
    rw [hd, hd]
    rw [hv] at hvis hvis2
    exact inv.hmono u (hlen2 ▸ hu) hvis v (hlen2 ▸ hv2) hvis2
  · intro u hu
    rw [hf, hd]
    exact inv.hfeas u hu

/-- Invariant holding while the relaxation loop of one fresh pop
`(node, prio)` runs (`node` still unvisited, its distance pinned at `prio`;
`hpend` is weakened at `node`, whose heap entry was just consumed;
`hvisle`/`hunvis` sandwich `prio` between visited and unvisited
distances). -/
structure MFresh (g : SimpleGraph) (src node : Nat) (prio : Wt)
    (nodes : List DijNode) (pq : PairingHeap Nat Wt) : Prop where
  hwf : pq.WF
  hlen : nodes.length = g.n_nodes
  hkeys : ∀ kp ∈ PH.elems pq.root, kp.1 < nodes.length
  hsrc : dOf nodes src = 0
  hach : ∀ u < nodes.length, dOf nodes u ≠ ⊤ → Reach g src u (dOf nodes u)
  hheap : ∀ kp ∈ PH.elems pq.root,
    dOf nodes kp.1 ≤ kp.2 ∧ Reach g src kp.1 kp.2
  hpend : ∀ u < nodes.length, visOf nodes u = false → u ≠ node →
    dOf nodes u ≠ ⊤ → (u, dOf nodes u) ∈ PH.elems pq.root
  hrelax : ∀ u < nodes.length, visOf nodes u = true →
    ∀ vw ∈ g.adjL u, dOf nodes vw.1 ≤ dOf nodes u + vw.2
  hvisle : ∀ u < nodes.length, visOf nodes u = true → dOf nodes u ≤ prio
  hunvis : ∀ v < nodes.length, visOf nodes v = false → v ≠ node →
    prio ≤ dOf nodes v
  hnodevis : visOf nodes node = false
  hnoded : dOf nodes node = prio
  hfeas : ∀ u, u ≠ src → (feasOf nodes u = true ↔ dOf nodes u ≠ ⊤)

/-- One relaxation step of a fresh pop preserves `MFresh`, only lowers
distances, never touches the visited flags, and leaves the processed edge
relaxed against `prio`. -/
theorem mfresh_relax {g : SimpleGraph} {src node : Nat} {prio : Wt}
    (count : Nat) (hreach : Reach g src node prio) (hg : g.WFdense)
    {nodes : List DijNode} {pq : PairingHeap Nat Wt}
    (m : MFresh g src node prio nodes pq) {uw : Nat × Wt}
    (hvw : uw ∈ g.adjL node) :
    MFresh g src node prio (dijkstra_relax node prio count (nodes, pq) uw).1
        (dijkstra_relax node prio count (nodes, pq) uw).2 ∧
      (∀ u, dOf (dijkstra_relax node prio count (nodes, pq) uw).1 u ≤
        dOf nodes u) ∧
      (∀ u, visOf (dijkstra_relax node prio count (nodes, pq) uw).1 u =
        visOf nodes u) ∧
      dOf (dijkstra_relax node prio count (nodes, pq) uw).1 uw.1 ≤
        prio + uw.2 := by
  obtain ⟨v, w⟩ := uw
  have hvn : v < nodes.length := by
    rw [m.hlen]
    exact hg.adjL_target_lt node (v, w) hvw
  rw [dijkstra_relax]
  dsimp only
  split
  · rename_i hguard
    have hvis : (nodes.getD v DijNode.new).visited = false := by
      cases h : (nodes.getD v DijNode.new).visited
      · rfl
      · rw [h] at hguard
        simp at hguard
    rw [hvis] at hguard
    have halt : (prio + w : Wt) < (nodes.getD v DijNode.new).dist := by
      simpa using hguard
    rw [hvis]
    have hvsrc : v ≠ src := by
      intro he
      subst he
      have h0 : (nodes.getD v DijNode.new).dist = 0 := m.hsrc
      rw [h0] at halt
      exact absurd halt (not_lt_of_le (zero_le _))
    have hvnode : v ≠ node := by
      intro he
      subst he
      have hd : (nodes.getD v DijNode.new).dist = prio := m.hnoded
      rw [hd] at halt
      exact absurd halt (not_lt_of_le (self_le_add_right prio w))
    have haltne : (prio + w : Wt) ≠ ⊤ :=
      ne_top_of_lt (lt_of_lt_of_le halt le_top)
    have hgetv : ((nodes.set v ⟨node, count, false, true, prio + w⟩).getD v
        DijNode.new) = ⟨node, count, false, true, prio + w⟩ := by
      rw [List.getD_eq_getElem?_getD, List.getElem?_set_self hvn]
      rfl
    have hgetne : ∀ u, u ≠ v →
        ((nodes.set v ⟨node, count, false, true, prio + w⟩).getD u DijNode.new)
          = nodes.getD u DijNode.new := by
      intro u hu
      rw [List.getD_eq_getElem?_getD, List.getElem?_set_ne (fun h => hu h.symm),
        ← List.getD_eq_getElem?_getD]
    have hdv : dOf (nodes.set v ⟨node, count, false, true, prio + w⟩) v
        = prio + w := by
      rw [dOf, hgetv]
    have hdle : ∀ u, dOf (nodes.set v ⟨node, count, false, true, prio + w⟩) u ≤
        dOf nodes u := by
      intro u
      by_cases hu : u = v
      · subst hu
        rw [hdv]
        exact le_of_lt halt
      · rw [dOf, dOf, hgetne u hu]
    have hviseq : ∀ u, visOf (nodes.set v ⟨node, count, false, true, prio + w⟩) u
        = visOf nodes u := by
      intro u
      by_cases hu : u = v
      · subst hu
        rw [visOf, visOf, hgetv, hvis]
      · rw [visOf, visOf, hgetne u hu]
    have helems : PH.elems ((pq.insert v (prio + w)).root) =
        (v, prio + w) ::ₘ PH.elems pq.root := PairingHeap.elems_insert m.hwf v _
    have hlen2 : (nodes.set v ⟨node, count, false, true, prio + w⟩).length
        = nodes.length := List.length_set ..
    refine ⟨⟨PairingHeap.insert_wf m.hwf v _, by rw [hlen2, m.hlen], ?_, ?_, ?_,
      ?_, ?_, ?_, ?_, ?_, ?_, ?_, ?_⟩, hdle, hviseq, by rw [hdv]⟩
    · intro kp hkp
      rw [helems, Multiset.mem_cons] at hkp
      rw [hlen2]
      rcases hkp with rfl | hkp
      · exact hvn
      · exact m.hkeys kp hkp
    · rw [dOf, hgetne src (fun h => hvsrc h.symm)]
      exact m.hsrc
    · intro u hu hne
      rw [hlen2] at hu
      by_cases huv : u = v
      · subst huv
        rw [hdv] at hne ⊢
        exact hreach.step hvw
      · rw [dOf, hgetne u huv] at hne ⊢
        exact m.hach u hu hne
    · intro kp hkp
      rw [helems, Multiset.mem_cons] at hkp
      rcases hkp with rfl | hkp
      · exact ⟨le_of_eq hdv, hreach.step hvw⟩
      · exact ⟨le_trans (hdle kp.1) (m.hheap kp hkp).1, (m.hheap kp hkp).2⟩
    · intro u hu hvis2 hunode hne
      rw [hlen2] at hu
      rw [hviseq] at hvis2
      by_cases huv : u = v
      · subst huv
        rw [hdv]
        rw [helems]
        exact Multiset.mem_cons_self _ _
      · rw [dOf, hgetne u huv] at hne ⊢
        rw [helems]
        exact Multiset.mem_cons_of_mem (m.hpend u hu hvis2 hunode hne)
    · intro u hu hvis2 vw2 hvw2
      rw [hlen2] at hu
      rw [hviseq] at hvis2
      have huv : u ≠ v := by
        intro he
        rw [he, visOf, hvis] at hvis2
        exact Bool.false_ne_true hvis2
      refine le_trans (hdle vw2.1) ?_
      have heq : dOf (nodes.set v ⟨node, count, false, true, prio + w⟩) u
          = dOf nodes u := by
        rw [dOf, dOf, hgetne u huv]
      rw [heq]
      exact m.hrelax u hu hvis2 vw2 hvw2
    · intro u hu hvis2
      rw [hlen2] at hu
      rw [hviseq] at hvis2
      have huv : u ≠ v := by
        intro he
        rw [he, visOf, hvis] at hvis2
        exact Bool.false_ne_true hvis2
      rw [dOf, hgetne u huv]
      exact m.hvisle u hu hvis2
    · intro u hu hvis2 hunode
      rw [hlen2] at hu
      rw [hviseq] at hvis2
      by_cases huv : u = v
      · subst huv
        rw [hdv]
        exact self_le_add_right prio w
      · rw [dOf, hgetne u huv]
        exact m.hunvis u hu hvis2 hunode
    · rw [hviseq]
      exact m.hnodevis
    · rw [dOf, hgetne node (fun h => hvnode h.symm)]
      exact m.hnoded
    · intro u hu
      by_cases huv : u = v
      · subst huv
        rw [feasOf, hgetv, hdv]
        simp [haltne]
      · rw [feasOf, dOf, hgetne u huv]
        exact m.hfeas u hu
  · rename_i hguard
    rw [Bool.and_eq_true, not_and] at hguard
    refine ⟨m, fun u => le_refl _, fun u => rfl, ?_⟩
    by_cases hvis : (nodes.getD v DijNode.new).visited = true
    · refine le_trans (m.hvisle v hvn hvis) (self_le_add_right prio w)
    · have hvis2 : (!(nodes.getD v DijNode.new).visited) = true := by
        cases h : (nodes.getD v DijNode.new).visited
        · rfl
        · exact absurd h hvis
      have hnlt := hguard hvis2
      rw [decide_eq_true_iff] at hnlt
      exact le_of_not_lt (fun h => hnlt h)
  
/-- The whole relaxation fold of a fresh pop preserves `MFresh` and leaves
every edge of the processed list relaxed against `prio`. -/
theorem mfresh_fold {g : SimpleGraph} {src node : Nat} {prio : Wt}
    (count : Nat) (hreach : Reach g src node prio) (hg : g.WFdense) :
    ∀ (es : List (Nat × Wt)) (nodes : List DijNode) (pq : PairingHeap Nat Wt),
      MFresh g src node prio nodes pq → (∀ vw ∈ es, vw ∈ g.adjL node) →
      MFresh g src node prio
          (es.foldl (dijkstra_relax node prio count) (nodes, pq)).1
          (es.foldl (dijkstra_relax node prio count) (nodes, pq)).2 ∧
        (∀ u, dOf (es.foldl (dijkstra_relax node prio count) (nodes, pq)).1 u ≤
          dOf nodes u) ∧
        (∀ u, visOf (es.foldl (dijkstra_relax node prio count) (nodes, pq)).1 u
          = visOf nodes u) ∧
        (∀ vw ∈ es,
          dOf (es.foldl (dijkstra_relax node prio count) (nodes, pq)).1 vw.1 ≤
            prio + vw.2)
  | [], nodes, pq, m, _ =>
    ⟨m, fun u => le_refl _, fun u => rfl, fun vw hvw => by simp at hvw⟩
  | uw :: es, nodes, pq, m, hes => by
    obtain ⟨m2, hd2, hv2, hb2⟩ :=
      mfresh_relax count hreach hg m (hes uw (List.mem_cons_self _ _))
    have hstep : (uw :: es).foldl (dijkstra_relax node prio count) (nodes, pq)
        = es.foldl (dijkstra_relax node prio count)
          ((dijkstra_relax node prio count (nodes, pq) uw).1,
            (dijkstra_relax node prio count (nodes, pq) uw).2) := by
      rw [List.foldl_cons]
    obtain ⟨m3, hd3, hv3, hb3⟩ := mfresh_fold count hreach hg es
      (dijkstra_relax node prio count (nodes, pq) uw).1
      (dijkstra_relax node prio count (nodes, pq) uw).2 m2
      (fun vw hvw => hes vw (List.mem_cons_of_mem _ hvw))
    rw [hstep]
    refine ⟨m3, fun u => le_trans (hd3 u) (hd2 u),
      fun u => (hv3 u).trans (hv2 u), ?_⟩
    intro vw hvw
    rcases List.mem_cons.1 hvw with rfl | hvw
    · exact le_trans (hd3 vw.1) hb2
    · exact hb3 vw hvw

/-- When every edge of the list is already relaxed against `prio`
(the situation of a stale pop), the relaxation fold is the identity. -/
theorem relax_fold_id (node : Nat) (prio : Wt) (count : Nat) :
    ∀ (es : List (Nat × Wt)) (nodes : List DijNode) (pq : PairingHeap Nat Wt),
      (∀ vw ∈ es, dOf nodes vw.1 ≤ prio + vw.2) →
      es.foldl (dijkstra_relax node prio count) (nodes, pq) = (nodes, pq)
  | [], nodes, pq, _ => rfl
  | uw :: es, nodes, pq, hes => by
    have hstep : dijkstra_relax node prio count (nodes, pq) uw = (nodes, pq) := by
      rw [dijkstra_relax]
      dsimp only
      rw [if_neg]
      intro hguard
      rw [Bool.and_eq_true, decide_eq_true_iff] at hguard
      exact absurd hguard.2
        (not_lt_of_le (hes uw (List.mem_cons_self _ _)))
    rw [List.foldl_cons, hstep]
    exact relax_fold_id node prio count es nodes pq
      (fun vw hvw => hes vw (List.mem_cons_of_mem _ hvw))

/-- A stale pop (the popped node is already visited) leaves the invariant
intact on the shrunken heap, and all its incident edges are already relaxed
against the popped priority (which can only exceed the node's settled
distance), so the relaxation fold is a no-op. -/
theorem DInv_after_stale {g : SimpleGraph} {src : Nat} {nodes : List DijNode}
    {pq : PairingHeap Nat Wt} {node : Nat} {prio : Wt} {pq2 : PairingHeap Nat Wt}
    (inv : DInv g src nodes pq) (hdm : pq.delete_min = some ((node, prio), pq2))
    (hvis : visOf nodes node = true) (hnoden : node < nodes.length) :
    DInv g src nodes pq2 ∧ ∀ vw ∈ g.adjL node, dOf nodes vw.1 ≤ prio + vw.2 := by
  obtain ⟨hwf2, helems, hmin, _⟩ := PairingHeap.delete_min_spec inv.hwf hdm
  have hdnode : dOf nodes node ≤ prio :=
    (inv.hheap (node, prio) (by rw [helems]; exact Multiset.mem_cons_self _ _)).1
  refine ⟨⟨hwf2, inv.hlen, ?_, inv.hsrc, inv.hach, ?_, ?_, inv.hrelax,
      inv.hmono, inv.hfeas⟩, ?_⟩
  · intro kp hkp
    exact inv.hkeys kp (by rw [helems]; exact Multiset.mem_cons_of_mem hkp)
  · intro kp hkp
    exact inv.hheap kp (by rw [helems]; exact Multiset.mem_cons_of_mem hkp)
  · intro u hu hvisu hne
    have hmem := inv.hpend u hu hvisu hne
    rw [helems, Multiset.mem_cons] at hmem
    rcases hmem with he | hmem
    · exfalso
      have hun : u = node := congrArg Prod.fst he
      rw [hun, hvis] at hvisu
      exact Bool.noConfusion hvisu
    · exact hmem
  · intro vw hvw
    exact le_trans (inv.hrelax node hnoden hvis vw hvw)
      (add_le_add_right hdnode vw.2)

/-- A fresh pop (the popped node is unvisited) pops exactly the node's
tentative distance, yields a walk of that weight, and establishes the
relaxation-loop invariant `MFresh` on the shrunken heap. -/
theorem MFresh_after_fresh {g : SimpleGraph} {src : Nat} {nodes : List DijNode}
    {pq : PairingHeap Nat Wt} {node : Nat} {prio : Wt} {pq2 : PairingHeap Nat Wt}
    (inv : DInv g src nodes pq) (hdm : pq.delete_min = some ((node, prio), pq2))
    (hvis : visOf nodes node = false) (hnoden : node < nodes.length) :
    MFresh g src node prio nodes pq2 ∧ Reach g src node prio := by
  obtain ⟨hwf2, helems, hmin, _⟩ := PairingHeap.delete_min_spec inv.hwf hdm
  have hpop : (node, prio) ∈ PH.elems pq.root := by
    rw [helems]
    exact Multiset.mem_cons_self _ _
  have hdle : dOf nodes node ≤ prio := (inv.hheap (node, prio) hpop).1
  have hreach : Reach g src node prio := (inv.hheap (node, prio) hpop).2
  have hdeq : dOf nodes node = prio := by
    by_cases hne : dOf nodes node = ⊤
    · rw [hne] at hdle
      rw [hne, top_le_iff.1 hdle]
    · have hmem := inv.hpend node hnoden hvis hne
      rw [helems, Multiset.mem_cons] at hmem
      rcases hmem with he | hmem
      · exact congrArg Prod.snd he
      · refine le_antisymm hdle (hmin (dOf nodes node) ?_)
        rw [PH.prios]
        exact Multiset.mem_map_of_mem _ hmem
  refine ⟨⟨hwf2, inv.hlen, ?_, inv.hsrc, inv.hach, ?_, ?_, inv.hrelax, ?_, ?_,
      hvis, hdeq, inv.hfeas⟩, hreach⟩
  · intro kp hkp
    exact inv.hkeys kp (by rw [helems]; exact Multiset.mem_cons_of_mem hkp)
  · intro kp hkp
    exact inv.hheap kp (by rw [helems]; exact Multiset.mem_cons_of_mem hkp)
  · intro u hu hvisu hune hne
    have hmem := inv.hpend u hu hvisu hne
    rw [helems, Multiset.mem_cons] at hmem
    rcases hmem with he | hmem
    · exact absurd (congrArg Prod.fst he) hune
    · exact hmem
  · intro u hu hvisu
    rw [← hdeq]
    exact inv.hmono u hu hvisu node hnoden hvis
  · intro v hv hvisv hvne
    by_cases hne : dOf nodes v = ⊤
    · rw [hne]
      exact le_top
    · have hmem := inv.hpend v hv hvisv hne
      rw [helems, Multiset.mem_cons] at hmem
      rcases hmem with he | hmem
      · exact absurd (congrArg Prod.fst he) hvne
      · refine hmin (dOf nodes v) ?_
        rw [PH.prios]
        exact Multiset.mem_map_of_mem _ hmem

/-- Marking the freshly popped node visited after its relaxation fold
re-establishes the full loop invariant. -/
theorem DInv_mark_fresh {g : SimpleGraph} {src node : Nat} {prio : Wt}
    {nodes2 : List DijNode} {pq3 : PairingHeap Nat Wt}
    (m : MFresh g src node prio nodes2 pq3) (hnoden : node < nodes2.length)
    (hedges : ∀ vw ∈ g.adjL node, dOf nodes2 vw.1 ≤ prio + vw.2) :
    DInv g src (nodes2.set node ⟨(nodes2.getD node DijNode.new).pred,
      (nodes2.getD node DijNode.new).len, true,
      (nodes2.getD node DijNode.new).feasible,
      (nodes2.getD node DijNode.new).dist⟩) pq3 := by
  set rec2 : DijNode := ⟨(nodes2.getD node DijNode.new).pred,
    (nodes2.getD node DijNode.new).len, true,
    (nodes2.getD node DijNode.new).feasible,
    (nodes2.getD node DijNode.new).dist⟩ with hrec2
  have hlen3 : (nodes2.set node rec2).length = nodes2.length := List.length_set ..
  have hgetv : (nodes2.set node rec2).getD node DijNode.new = rec2 := by
    rw [List.getD_eq_getElem?_getD, List.getElem?_set_self hnoden]
    rfl
  have hgetne : ∀ u, u ≠ node →
      (nodes2.set node rec2).getD u DijNode.new = nodes2.getD u DijNode.new := by
    intro u hu
    rw [List.getD_eq_getElem?_getD, List.getElem?_set_ne (fun h => hu h.symm),
      ← List.getD_eq_getElem?_getD]
  have hd3 : ∀ u, dOf (nodes2.set node rec2) u = dOf nodes2 u := by
    intro u
    by_cases hu : u = node
    · subst hu
      rw [dOf, dOf, hgetv, hrec2]
    · rw [dOf, dOf, hgetne u hu]
  have hf3 : ∀ u, feasOf (nodes2.set node rec2) u = feasOf nodes2 u := by
    intro u
    by_cases hu : u = node
    · subst hu
      rw [feasOf, feasOf, hgetv, hrec2]
    · rw [feasOf, feasOf, hgetne u hu]
  have hv3 : ∀ u, u ≠ node →
      visOf (nodes2.set node rec2) u = visOf nodes2 u := by
    intro u hu
    rw [visOf, visOf, hgetne u hu]
  have hvnode : visOf (nodes2.set node rec2) node = true := by
    rw [visOf, hgetv, hrec2]
  refine ⟨m.hwf, by rw [hlen3, m.hlen], ?_, ?_, ?_, ?_, ?_, ?_, ?_, ?_⟩
  · intro kp hkp
    rw [hlen3]
    exact m.hkeys kp hkp
  · rw [hd3]
    exact m.hsrc
  · intro u hu hne
    rw [hlen3] at hu
    rw [hd3] at hne ⊢
    exact m.hach u hu hne
  · intro kp hkp
    rw [hd3]
    exact m.hheap kp hkp
  · intro u hu hvisu hne
    rw [hlen3] at hu
    rw [hd3] at hne ⊢
    have hun : u ≠ node := by
      intro he
      rw [he, hvnode] at hvisu
      exact Bool.noConfusion hvisu
    rw [hv3 u hun] at hvisu
    exact m.hpend u hu hvisu hun hne
  · intro u hu hvisu vw hvw
    rw [hlen3] at hu
    rw [hd3, hd3]
    by_cases hun : u = node
    · subst hun
      rw [m.hnoded]
      exact hedges vw hvw
    · rw [hv3 u hun] at hvisu
      exact m.hrelax u hu hvisu vw hvw
  · intro u hu hvisu v hv hvisv
    rw [hlen3] at hu hv
    rw [hd3, hd3]
    have hvn2 : v ≠ node := by
      intro he
      rw [he, hvnode] at hvisv
      exact Bool.noConfusion hvisv
    rw [hv3 v hvn2] at hvisv
    by_cases hun : u = node
    · subst hun
      rw [m.hnoded]
      exact m.hunvis v hv hvisv hvn2
    · rw [hv3 u hun] at hvisu
      exact le_trans (m.hvisle u hu hvisu) (m.hunvis v hv hvisv hvn2)
  · intro u hu
    rw [hf3, hd3]
    exact m.hfeas u hu

/-- Marking an already-visited node again is a pointwise no-op on the
records. -/
theorem DInv_mark_stale {g : SimpleGraph} {src node : Nat}
    {nodes : List DijNode} {pq2 : PairingHeap Nat Wt}
    (inv : DInv g src nodes pq2) (hvis : visOf nodes node = true) :
    DInv g src (nodes.set node ⟨(nodes.getD node DijNode.new).pred,
      (nodes.getD node DijNode.new).len, true,
      (nodes.getD node DijNode.new).feasible,
      (nodes.getD node DijNode.new).dist⟩) pq2 := by
  refine DInv_congr (List.length_set ..) ?_ inv
  intro u
  by_cases hu : u = node
  · subst hu
    by_cases hlt : u < nodes.length
    · rw [List.getD_eq_getElem?_getD, List.getElem?_set_self hlt,
        Option.getD_some]
      rw [← hvis]
      rfl
    · rw [List.set_eq_of_length_le (Nat.le_of_not_lt hlt)]
  · rw [List.getD_eq_getElem?_getD, List.getElem?_set_ne (fun h => hu h.symm),
      ← List.getD_eq_getElem?_getD]

/-- The Dijkstra loop preserves the invariant. -/
theorem DInv_loop {g : SimpleGraph} {src : Nat} (hg : g.WFdense) :
    ∀ (fuel : Nat) (pq : PairingHeap Nat Wt) (nodes : List DijNode),
      DInv g src nodes pq →
      DInv g src (dijkstra_loop g fuel pq nodes).1
        (dijkstra_loop g fuel pq nodes).2
  | 0, pq, nodes, inv => inv
  | fuel + 1, pq, nodes, inv => by
    rw [dijkstra_loop]
    cases hdm : pq.delete_min with
    | none => exact inv
    | some popped =>
      obtain ⟨⟨node, prio⟩, pq2⟩ := popped
      dsimp only
      have hnoden : node < nodes.length := by
        obtain ⟨_, helems, _, _⟩ := PairingHeap.delete_min_spec inv.hwf hdm
        exact inv.hkeys (node, prio)
          (by rw [helems]; exact Multiset.mem_cons_self _ _)
      by_cases hvis : visOf nodes node = true
      · obtain ⟨inv2, hedges⟩ := DInv_after_stale inv hdm hvis hnoden
        cases hnb : g.neighbours node with
        | some nb =>
          dsimp only
          have hadj : g.adjL node = nb := by
            rw [SimpleGraph.adjL, hnb]
            rfl
          rw [relax_fold_id node prio ((nodes.getD node DijNode.new).len + 1)
            nb nodes pq2 (fun vw hvw => hedges vw (by rw [hadj]; exact hvw))]
          exact DInv_loop hg fuel _ _ (DInv_mark_stale inv2 hvis)
        | none =>
          dsimp only
          exact DInv_loop hg fuel _ _ (DInv_mark_stale inv2 hvis)
      · have hvisf : visOf nodes node = false := by
          cases h : visOf nodes node
          · rfl
          · exact absurd h hvis
        obtain ⟨m, hreach⟩ := MFresh_after_fresh inv hdm hvisf hnoden
        cases hnb : g.neighbours node with
        | some nb =>
          dsimp only
          have hadj : g.adjL node = nb := by
            rw [SimpleGraph.adjL, hnb]
            rfl
          obtain ⟨m2, hd2, hv2, hb2⟩ :=
            mfresh_fold ((nodes.getD node DijNode.new).len + 1) hreach hg nb
              nodes pq2 m (fun vw hvw => by rw [hadj]; exact hvw)
          have hnoden2 : node <
              (nb.foldl (dijkstra_relax node prio
                ((nodes.getD node DijNode.new).len + 1)) (nodes, pq2)).1.length := by
            rw [m2.hlen, ← inv.hlen]
            exact hnoden
          exact DInv_loop hg fuel _ _ (DInv_mark_fresh m2 hnoden2
            (fun vw hvw => hb2 vw (by rw [← hadj]; exact hvw)))
        | none =>
          dsimp only
          have hadj : g.adjL node = [] := by
            rw [SimpleGraph.adjL, hnb]
            rfl
          exact DInv_loop hg fuel _ _ (DInv_mark_fresh m hnoden
            (fun vw hvw => absurd hvw (by rw [hadj]; exact List.not_mem_nil vw)))

/-- The invariant holds on the initial state of `SimpleGraph::dijkstra`. -/
theorem DInv_init (g : SimpleGraph) (src : Nat) (hsrc : src < g.n_nodes) :
    DInv g src
      ((List.replicate g.n_nodes DijNode.new).set src ⟨0, 0, false, false, 0⟩)
      ((PairingHeap.new : PairingHeap Nat Wt).insert src 0) := by
  have hlen0 : ((List.replicate g.n_nodes DijNode.new).set src
      ⟨0, 0, false, false, 0⟩).length = g.n_nodes := by
    rw [List.length_set, List.length_replicate]
  have hgetsrc : ((List.replicate g.n_nodes DijNode.new).set src
      ⟨0, 0, false, false, 0⟩).getD src DijNode.new = ⟨0, 0, false, false, 0⟩ := by
    rw [List.getD_eq_getElem?_getD, List.getElem?_set_self
      (by rw [List.length_replicate]; exact hsrc)]
    rfl
  have hgetne : ∀ u, u ≠ src →
      ((List.replicate g.n_nodes DijNode.new).set src
        ⟨0, 0, false, false, 0⟩).getD u DijNode.new = DijNode.new := by
    intro u hu
    rw [List.getD_eq_getElem?_getD, List.getElem?_set_ne (fun h => hu h.symm),
      List.getElem?_replicate]
    split <;> rfl
  have helems0 : PH.elems ((PairingHeap.new : PairingHeap Nat Wt).insert
      src 0).root = (src, (0 : Wt)) ::ₘ 0 :=
    PairingHeap.elems_insert PairingHeap.new_wf src 0
  have hmem0 : ∀ kp, kp ∈ PH.elems ((PairingHeap.new : PairingHeap Nat Wt).insert
      src 0).root → kp = (src, (0 : Wt)) := by
    intro kp hkp
    rw [helems0, Multiset.mem_cons] at hkp
    rcases hkp with rfl | hkp
    · rfl
    · exact absurd hkp (Multiset.not_mem_zero kp)
  refine ⟨PairingHeap.insert_wf PairingHeap.new_wf src 0, hlen0, ?_, ?_, ?_, ?_,
    ?_, ?_, ?_, ?_⟩
  · intro kp hkp
    rw [hmem0 kp hkp, hlen0]
    exact hsrc
  · rw [dOf, hgetsrc]
  · intro u hu hne
    by_cases husrc : u = src
    · subst husrc
      have hd0 : dOf ((List.replicate g.n_nodes DijNode.new).set u
          ⟨0, 0, false, false, 0⟩) u = 0 := by rw [dOf, hgetsrc]
      rw [hd0]
      exact Reach.zero g u
    · exfalso
      rw [dOf, hgetne u husrc] at hne
      exact hne rfl
  · intro kp hkp
    rw [hmem0 kp hkp]
    constructor
    · rw [dOf, hgetsrc]
    · exact Reach.zero g src
  · intro u hu hvisu hne
    by_cases husrc : u = src
    · subst husrc
      have hd0 : dOf ((List.replicate g.n_nodes DijNode.new).set u
          ⟨0, 0, false, false, 0⟩) u = 0 := by rw [dOf, hgetsrc]
      rw [hd0, helems0]
      exact Multiset.mem_cons_self _ _
    · exfalso
      rw [dOf, hgetne u husrc] at hne
      exact hne rfl
  · intro u hu hvisu vw hvw
    exfalso
    by_cases husrc : u = src
    · subst husrc
      rw [visOf, hgetsrc] at hvisu
      exact Bool.noConfusion hvisu
    · rw [visOf, hgetne u husrc] at hvisu
      exact Bool.noConfusion hvisu
  · intro u hu hvisu v hv hvisv
    exfalso
    by_cases husrc : u = src
    · subst husrc
      rw [visOf, hgetsrc] at hvisu
      exact Bool.noConfusion hvisu
    · rw [visOf, hgetne u husrc] at hvisu
      exact Bool.noConfusion hvisu
  · intro u hu
    rw [feasOf, dOf, hgetne u hu]
    constructor
    · intro h
      exact Bool.noConfusion h
    · intro h
      exact absurd rfl h

/-- After a run that drained the heap, every node with a finite distance is
visited, and walking any sequence of relaxed edges bounds the distance of
the endpoint. -/
theorem dijkstra_end_lower {g : SimpleGraph} {src : Nat} (hg : g.WFdense)
    {nodesF : List DijNode} {pqF : PairingHeap Nat Wt}
    (inv : DInv g src nodesF pqF) (hempty : pqF.root = PH.nil) :
    (∀ u, u < nodesF.length → dOf nodesF u ≠ ⊤ → visOf nodesF u = true) ∧
    ∀ (steps : List (Nat × Wt)) (a : Nat), a < nodesF.length →
      visOf nodesF a = true → IsStepsFrom g a steps →
      dOf nodesF (stepsEnd a steps) ≤ dOf nodesF a + stepsWt steps := by
  have hvisited : ∀ u, u < nodesF.length → dOf nodesF u ≠ ⊤ →
      visOf nodesF u = true := by
    intro u hu hne
    cases h : visOf nodesF u
    · exfalso
      have hmem := inv.hpend u hu h hne
      rw [hempty] at hmem
      have : PH.elems (PH.nil : PH Nat Wt) = 0 := rfl
      rw [this] at hmem
      exact Multiset.not_mem_zero _ hmem
    · rfl
  refine ⟨hvisited, ?_⟩
  intro steps
  induction steps with
  | nil =>
    intro a ha hvisa _
    show dOf nodesF a ≤ dOf nodesF a + 0
    rw [add_zero]
  | cons vw rest ih =>
    intro a ha hvisa hsteps
    obtain ⟨hvw, hrest⟩ := hsteps
    have hrel := inv.hrelax a ha hvisa vw hvw
    show dOf nodesF (stepsEnd vw.1 rest) ≤
      dOf nodesF a + (vw.2 + stepsWt rest)
    by_cases hne : dOf nodesF vw.1 = ⊤
    · have htop : dOf nodesF a + vw.2 = ⊤ := by
        rw [hne] at hrel
        exact top_le_iff.1 hrel
      rw [← add_assoc, htop, top_add]
      exact le_top
    · have hv : vw.1 < nodesF.length := by
        rw [inv.hlen]
        exact hg.adjL_target_lt a vw hvw
      have hvisv := hvisited vw.1 hv hne
      refine le_trans (ih vw.1 hv hvisv hrest) ?_
      rw [← add_assoc]
      exact add_le_add_right hrel (stepsWt rest)

/-- `.dist` of a `traverse_path` record: the settled distance when feasible,
`zero` otherwise. -/
theorem traverse_path_dist (src v : Nat) (paths : List DijNode) :
    (traverse_path src v paths).dist =
      if (paths.getD v DijNode.new).feasible = true
      then (paths.getD v DijNode.new).dist else 0 := by
  rw [traverse_path]
  split <;> rfl

/-- Walk membership is decidable (each step is a list membership). -/
instance instDecidableIsStepsFrom (g : SimpleGraph) :
    (a : Nat) → (steps : List (Nat × Wt)) → Decidable (IsStepsFrom g a steps)
  | _, [] => .isTrue trivial
  | a, vw :: rest =>
    @instDecidableAnd _ _ _ (instDecidableIsStepsFrom g vw.1 rest)

/-- C6.  General part: on every graph whose stored half-edges point below
`n_nodes`, for every in-range source, after any Dijkstra run that drained
the heap, the distance reported (through `traverse_path`, hence by both
`sssp_dijkstra` and `sssp_dijkstra_lazy`) for every in-range node `v` is a
lower bound on the weight of every walk from the source to `v`, and is
attained by an actual walk whenever `v` is reachable by a finite-weight
walk — i.e. the returned distance is the minimum over all paths.  Concrete
part: on the Wikipedia graph, the shortest path from `0` to `4` has
distance `20` and node sequence `[0, 2, 5, 4]`, through both APIs. -/
theorem claim_C6_dijkstra_min :
    (∀ (g : SimpleGraph) (src fuel : Nat), g.WFdense → src < g.n_nodes →
      (g.dijkstra src fuel).2.root = PH.nil →
      ∀ v < g.n_nodes,
        (∀ steps, IsStepsFrom g src steps → stepsEnd src steps = v →
          (traverse_path src v (g.dijkstra src fuel).1).dist ≤
            stepsWt steps) ∧
        ((∃ steps, IsStepsFrom g src steps ∧ stepsEnd src steps = v ∧
            stepsWt steps ≠ ⊤) →
          ∃ steps, IsStepsFrom g src steps ∧ stepsEnd src steps = v ∧
            stepsWt steps =
              (traverse_path src v (g.dijkstra src fuel).1).dist)) ∧
    wikiGraph.sssp_dijkstra 0 [4] 100 = [⟨0, 4, true, 20, [0, 2, 5, 4]⟩] ∧
    (wikiGraph.sssp_dijkstra_lazy 0 100).get 4 = ⟨0, 4, true, 20, [0, 2, 5, 4]⟩
    := by
  refine ⟨?_, by decide, by decide⟩
  intro g src fuel hg hsrcn hdrain v hv
  have hinv : DInv g src (g.dijkstra src fuel).1 (g.dijkstra src fuel).2 :=
    DInv_loop hg fuel _ _ (DInv_init g src hsrcn)
  have hsrcF : src < (g.dijkstra src fuel).1.length := by
    rw [hinv.hlen]
    exact hsrcn
  have hvF : v < (g.dijkstra src fuel).1.length := by
    rw [hinv.hlen]
    exact hv
  obtain ⟨hvisited, hlower⟩ := dijkstra_end_lower hg hinv hdrain
  have hsrcvis : visOf (g.dijkstra src fuel).1 src = true := by
    refine hvisited src hsrcF ?_
    rw [hinv.hsrc]
    decide
  constructor
  · intro steps hsteps hend
    have hle := hlower steps src hsrcF hsrcvis hsteps
    rw [hend, hinv.hsrc, zero_add] at hle
    rw [traverse_path_dist]
    split
    · exact hle
    · exact zero_le _
  · rintro ⟨steps, hsteps, hend, hfin⟩
    have hle := hlower steps src hsrcF hsrcvis hsteps
    rw [hend, hinv.hsrc, zero_add] at hle
    have hdv : dOf (g.dijkstra src fuel).1 v ≠ ⊤ := by
      intro h
      exact hfin (top_le_iff.1 (h ▸ hle))
    by_cases hvsrc : v = src
    · subst hvsrc
      refine ⟨[], trivial, rfl, ?_⟩
      rw [traverse_path_dist]
      split
      · exact hinv.hsrc.symm
      · rfl
    · obtain ⟨steps2, h1, h2, h3⟩ := hinv.hach v hvF hdv
      have hfeast : ((g.dijkstra src fuel).1.getD v DijNode.new).feasible
          = true := (hinv.hfeas v hvsrc).2 hdv
      refine ⟨steps2, h1, h2, ?_⟩
      rw [traverse_path_dist, hfeast, if_pos rfl]
      exact h3

/-- Witness for C6 at a concrete input: on the Wikipedia graph with source
`0` and target `4`, the walk `0 → 2 → 5 → 4` of weight `20` both bounds and
attains the reported distance. -/
theorem claim_C6_dijkstra_min_witness :
    (traverse_path 0 4 (wikiGraph.dijkstra 0 100).1).dist ≤
      stepsWt [(2, 9), (5, 2), (4, 9)] ∧
    ∃ steps, IsStepsFrom wikiGraph 0 steps ∧ stepsEnd 0 steps = 4 ∧
      stepsWt steps = (traverse_path 0 4 (wikiGraph.dijkstra 0 100).1).dist :=
  ⟨(claim_C6_dijkstra_min.1 wikiGraph 0 100 (by decide) (by decide)
      (by decide) 4 (by decide)).1 [(2, 9), (5, 2), (4, 9)] (by decide)
      (by decide),
    (claim_C6_dijkstra_min.1 wikiGraph 0 100 (by decide) (by decide)
      (by decide) 4 (by decide)).2
      ⟨[(2, 9), (5, 2), (4, 9)], by decide, by decide, by decide⟩⟩

/-! ## C7: edge lists, undirected walks and exchange machinery

For the Prim contract, candidate spanning edge sets are lists of directed
half-edge values `(u, v, w)`; connectivity is through walks that may use
each stored half-edge in either direction. -/

/-- A stored half-edge value: source, target, weight. -/
abbrev GEdge := Nat × Nat × Wt

/-- The endpoint of `e` other than `a` (for `a` an endpoint of `e`). -/
def eother (e : GEdge) (a : Nat) : Nat := if e.1 = a then e.2.1 else e.1

/-- `a` is an endpoint of `e`. -/
def etouches (e : GEdge) (a : Nat) : Prop := e.1 = a ∨ e.2.1 = a

/-- `es` is a walk from `a` to `b` whose edges are drawn from `T`, each
usable in either direction. -/
def TWalk (T : List GEdge) : Nat → Nat → List GEdge → Prop
  | a, b, [] => a = b
  | a, b, e :: es => e ∈ T ∧ etouches e a ∧ TWalk T (eother e a) b es

/-- Vertices visited by a walk starting at `a`. -/
def wverts : Nat → List GEdge → List Nat
  | a, [] => [a]
  | a, e :: es => a :: wverts (eother e a) es

/-- `a` and `b` are connected by the edges of `T`. -/
def EConn (T : List GEdge) (a b : Nat) : Prop := ∃ es, TWalk T a b es

theorem EConn.refl (T : List GEdge) (a : Nat) : EConn T a a := ⟨[], rfl⟩

theorem twalk_append {T : List GEdge} :
    ∀ (es fs : List GEdge) (a b c : Nat),
      TWalk T a b es → TWalk T b c fs → TWalk T a c (es ++ fs)
  | [], fs, a, b, c, hab, hbc => by
    have h : a = b := hab
    rw [List.nil_append, h]
    exact hbc
  | e :: es, fs, a, b, c, hab, hbc =>
    ⟨hab.1, hab.2.1, twalk_append es fs _ b c hab.2.2 hbc⟩

theorem EConn.trans {T : List GEdge} {a b c : Nat}
    (h1 : EConn T a b) (h2 : EConn T b c) : EConn T a c := by
  obtain ⟨es, hes⟩ := h1
  obtain ⟨fs, hfs⟩ := h2
  exact ⟨es ++ fs, twalk_append es fs a b c hes hfs⟩

theorem eother_eother {e : GEdge} {a : Nat} (h : etouches e a) :
    eother e (eother e a) = a := by
  by_cases h1 : e.1 = a
  · have hi : eother e a = e.2.1 := if_pos h1
    rw [hi, eother]
    split
    · rename_i h2
      rw [← h2]
      exact h1
    · exact h1
  · have h2 : e.2.1 = a := by
      rcases h with h3 | h3
      · exact absurd h3 h1
      · exact h3
    have hi : eother e a = e.1 := if_neg h1
    rw [hi, eother, if_pos rfl]
    exact h2

theorem etouches_eother {e : GEdge} {a : Nat} :
    etouches e (eother e a) := by
  by_cases h1 : e.1 = a
  · have hi : eother e a = e.2.1 := if_pos h1
    rw [hi]
    exact Or.inr rfl
  · have hi : eother e a = e.1 := if_neg h1
    rw [hi]
    exact Or.inl rfl

theorem twalk_reverse {T : List GEdge} :
    ∀ (es : List GEdge) (a b : Nat),
      TWalk T a b es → TWalk T b a es.reverse
  | [], a, b, h => by
    have h2 : a = b := h
    rw [h2]
    rfl
  | e :: es, a, b, h => by
    rw [List.reverse_cons]
    refine twalk_append es.reverse [e] b (eother e a) a
      (twalk_reverse es (eother e a) b h.2.2) ?_
    exact ⟨h.1, etouches_eother, eother_eother h.2.1⟩

theorem EConn.symm {T : List GEdge} {a b : Nat} (h : EConn T a b) :
    EConn T b a := by
  obtain ⟨es, hes⟩ := h
  exact ⟨es.reverse, twalk_reverse es a b hes⟩

theorem econn_step {T : List GEdge} {e : GEdge} (he : e ∈ T) :
    EConn T e.1 e.2.1 :=
  ⟨[e], he, Or.inl rfl, (if_pos rfl : _ = e.2.1)⟩

theorem twalk_of_subset {T T2 : List GEdge} (hsub : ∀ x ∈ T, x ∈ T2) :
    ∀ (es : List GEdge) (a b : Nat), TWalk T a b es → TWalk T2 a b es
  | [], a, b, h => h
  | e :: es, a, b, h =>
    ⟨hsub e h.1, h.2.1, twalk_of_subset hsub es _ b h.2.2⟩

theorem twalk_edges_mem {T : List GEdge} :
    ∀ (es : List GEdge) (a b : Nat), TWalk T a b es → ∀ f ∈ es, f ∈ T
  | [], a, b, _, f, hf => absurd hf (List.not_mem_nil f)
  | e :: es, a, b, h, f, hf => by
    rcases List.mem_cons.1 hf with rfl | hf
    · exact h.1
    · exact twalk_edges_mem es _ b h.2.2 f hf

theorem mem_wverts_head (a : Nat) (es : List GEdge) : a ∈ wverts a es := by
  cases es <;> exact List.mem_cons_self _ _

theorem twalk_ends_mem {T : List GEdge} :
    ∀ (es : List GEdge) (a b : Nat), TWalk T a b es →
      ∀ f ∈ es, f.1 ∈ wverts a es ∧ f.2.1 ∈ wverts a es
  | [], a, b, _, f, hf => absurd hf (List.not_mem_nil f)
  | e :: es, a, b, h, f, hf => by
    rcases List.mem_cons.1 hf with rfl | hf
    · constructor
      · rcases h.2.1 with h2 | h2
        · rw [h2]
          exact List.mem_cons_self _ _
        · have : f.1 = eother f a := by rw [eother]; split <;> simp_all
          rw [this]
          exact List.mem_cons_of_mem _ (mem_wverts_head _ _)
      · rcases h.2.1 with h2 | h2
        · have : f.2.1 = eother f a := by rw [eother, if_pos h2]
          rw [this]
          exact List.mem_cons_of_mem _ (mem_wverts_head _ _)
        · rw [h2]
          exact List.mem_cons_self _ _
    · obtain ⟨h1, h2⟩ := twalk_ends_mem es _ b h.2.2 f hf
      exact ⟨List.mem_cons_of_mem _ h1, List.mem_cons_of_mem _ h2⟩

theorem twalk_from_mem {T : List GEdge} :
    ∀ (es : List GEdge) (a b x : Nat), TWalk T a b es → x ∈ wverts a es →
      ∃ es2, TWalk T x b es2 ∧ es2.length ≤ es.length
  | [], a, b, x, h, hx => by
    have hxa : x = a := List.mem_singleton.1 hx
    exact ⟨[], by rw [hxa]; exact h, Nat.le_refl 0⟩
  | e :: es, a, b, x, h, hx => by
    rcases List.mem_cons.1 hx with rfl | hx
    · exact ⟨e :: es, h, Nat.le_refl _⟩
    · obtain ⟨es2, h2, hlen⟩ := twalk_from_mem es _ b x h.2.2 hx
      exact ⟨es2, h2, Nat.le_succ_of_le hlen⟩

theorem twalk_shorten {T : List GEdge} :
    ∀ (es : List GEdge) (a b : Nat), TWalk T a b es →
      ¬(wverts a es).Nodup →
      ∃ es2, TWalk T a b es2 ∧ es2.length < es.length
  | [], a, b, h, hnd => absurd (List.nodup_singleton a) hnd
  | e :: es, a, b, h, hnd => by
    by_cases hmem : a ∈ wverts (eother e a) es
    · obtain ⟨es2, h2, hlen⟩ := twalk_from_mem es _ b a h.2.2 hmem
      exact ⟨es2, h2, Nat.lt_succ_of_le hlen⟩
    · have hnd2 : ¬(wverts (eother e a) es).Nodup := by
        intro hnd2
        exact hnd (List.nodup_cons.2 ⟨hmem, hnd2⟩)
      obtain ⟨es2, h2, hlen⟩ := twalk_shorten es _ b h.2.2 hnd2
      exact ⟨e :: es2, ⟨h.1, h.2.1, h2⟩, Nat.succ_lt_succ hlen⟩

theorem exists_simple_twalk_aux {T : List GEdge} :
    ∀ (n : Nat) (es : List GEdge) (a b : Nat), es.length ≤ n →
      TWalk T a b es → ∃ es2, TWalk T a b es2 ∧ (wverts a es2).Nodup
  | 0, es, a, b, hlen, h => by
    have hnil : es = [] := List.length_eq_zero.1 (Nat.le_zero.1 hlen)
    subst hnil
    exact ⟨[], h, List.nodup_singleton a⟩
  | n + 1, es, a, b, hlen, h => by
    by_cases hnd : (wverts a es).Nodup
    · exact ⟨es, h, hnd⟩
    · obtain ⟨es2, h2, hlt⟩ := twalk_shorten es a b h hnd
      exact exists_simple_twalk_aux n es2 a b (by omega) h2

/-- Every connection is realized by a walk without repeated vertices. -/
theorem exists_simple_twalk {T : List GEdge} {a b : Nat} (h : EConn T a b) :
    ∃ es, TWalk T a b es ∧ (wverts a es).Nodup := by
  obtain ⟨es, hes⟩ := h
  exact exists_simple_twalk_aux es.length es a b (Nat.le_refl _) hes

/-- A walk without repeated vertices repeats no edge. -/
theorem twalk_nodup_edges {T : List GEdge} :
    ∀ (es : List GEdge) (a b : Nat), TWalk T a b es →
      (wverts a es).Nodup → es.Nodup
  | [], a, b, _, _ => List.nodup_nil
  | e :: es, a, b, h, hnd => by
    have hnd2 := List.nodup_cons.1 hnd
    refine List.nodup_cons.2 ⟨?_, twalk_nodup_edges es _ b h.2.2 hnd2.2⟩
    intro hmem
    obtain ⟨h1, h2⟩ := twalk_ends_mem es _ b h.2.2 e hmem
    rcases h.2.1 with h3 | h3
    · exact hnd2.1 (h3 ▸ h1)
    · exact hnd2.1 (h3 ▸ h2)

/-- A walk from a `dead` vertex to a live one contains a crossing edge, and
splits there. -/
theorem twalk_cross {T : List GEdge} (dead : Nat → Bool) :
    ∀ (es : List GEdge) (a b : Nat), TWalk T a b es →
      dead a = true → dead b = false →
      ∃ W1 f W2 x, es = W1 ++ f :: W2 ∧ TWalk T a x W1 ∧ dead x = true ∧
        etouches f x ∧ dead (eother f x) = false ∧
        TWalk T (eother f x) b W2
  | [], a, b, h, ha, hb => by
    have h2 : a = b := h
    rw [h2, hb] at ha
    exact Bool.noConfusion ha
  | e :: es, a, b, h, ha, hb => by
    cases hdc : dead (eother e a) with
    | false =>
      exact ⟨[], e, es, a, rfl, rfl, ha, h.2.1, hdc, h.2.2⟩
    | true =>
      obtain ⟨W1, f, W2, x, hsplit, hw1, hx, htch, hy, hw2⟩ :=
        twalk_cross dead es _ b h.2.2 hdc hb
      exact ⟨e :: W1, f, W2, x, by rw [hsplit, List.cons_append],
        ⟨h.1, h.2.1, hw1⟩, hx, htch, hy, hw2⟩

/-- Rerouting: if the endpoints of `f` are connected in `T2` and every other
edge of `T` is in `T2`, walks in `T` induce connections in `T2`. -/
theorem econn_reroute {T T2 : List GEdge} {f : GEdge}
    (hf : EConn T2 f.1 f.2.1) (hsub : ∀ e ∈ T, e ≠ f → e ∈ T2) :
    ∀ (es : List GEdge) (a b : Nat), TWalk T a b es → EConn T2 a b
  | [], a, b, h => by
    have h2 : a = b := h
    rw [h2]
    exact EConn.refl T2 b
  | e :: es, a, b, h => by
    have htail : EConn T2 (eother e a) b :=
      econn_reroute hf hsub es _ b h.2.2
    refine EConn.trans ?_ htail
    by_cases hef : e = f
    · subst hef
      by_cases hea : e.1 = a
      · rw [eother, if_pos hea, ← hea]
        exact hf
      · rw [eother, if_neg hea]
        have h2 : e.2.1 = a := by
          rcases h.2.1 with h2 | h2
          · exact absurd h2 hea
          · exact h2
        rw [← h2]
        exact hf.symm
    · have he2 : e ∈ T2 := hsub e h.1 hef
      by_cases hea : e.1 = a
      · rw [eother, if_pos hea, ← hea]
        exact econn_step he2
      · rw [eother, if_neg hea]
        have h2 : e.2.1 = a := by
          rcases h.2.1 with h2 | h2
          · exact absurd h2 hea
          · exact h2
        rw [← h2]
        exact (econn_step he2).symm

/-- Remove one occurrence of an edge value from a list. -/
def gremove : List GEdge → GEdge → List GEdge
  | [], _ => []
  | e :: es, f => if e = f then es else e :: gremove es f

theorem gremove_perm :
    ∀ (T : List GEdge) (f : GEdge), f ∈ T →
      List.Perm T (f :: gremove T f)
  | [], f, hf => absurd hf (List.not_mem_nil f)
  | e :: es, f, hf => by
    rw [gremove]
    by_cases hef : e = f
    · rw [if_pos hef, hef]
    · rw [if_neg hef]
      have hfes : f ∈ es := by
        rcases List.mem_cons.1 hf with h | h
        · exact absurd h.symm hef
        · exact h
      exact List.Perm.trans (List.Perm.cons e (gremove_perm es f hfes))
        (List.Perm.swap f e (gremove es f))

theorem mem_gremove_of_ne :
    ∀ (T : List GEdge) {a f : GEdge}, a ≠ f → (a ∈ gremove T f ↔ a ∈ T)
  | [], a, f, _ => Iff.rfl
  | e :: es, a, f, hne => by
    rw [gremove]
    by_cases hef : e = f
    · rw [if_pos hef]
      constructor
      · exact fun h => List.mem_cons_of_mem _ h
      · intro h
        rcases List.mem_cons.1 h with h | h
        · exact absurd (h.trans hef) hne
        · exact h
    · rw [if_neg hef]
      constructor
      · intro h
        rcases List.mem_cons.1 h with h | h
        · exact h ▸ List.mem_cons_self _ _
        · exact List.mem_cons_of_mem _ ((mem_gremove_of_ne es hne).1 h)
      · intro h
        rcases List.mem_cons.1 h with h | h
        · exact h ▸ List.mem_cons_self _ _
        · exact List.mem_cons_of_mem _ ((mem_gremove_of_ne es hne).2 h)

theorem mem_of_mem_gremove :
    ∀ (T : List GEdge) {a f : GEdge}, a ∈ gremove T f → a ∈ T
  | [], a, f, h => absurd h (List.not_mem_nil a)
  | e :: es, a, f, h => by
    rw [gremove] at h
    by_cases hef : e = f
    · rw [if_pos hef] at h
      exact List.mem_cons_of_mem _ h
    · rw [if_neg hef] at h
      rcases List.mem_cons.1 h with h | h
      · exact h ▸ List.mem_cons_self _ _
      · exact List.mem_cons_of_mem _ (mem_of_mem_gremove es h)

/-- Total weight of an edge list. -/
def esum (E : List GEdge) : Wt := (E.map fun e => e.2.2).sum

theorem esum_gremove {T : List GEdge} {f : GEdge} (hf : f ∈ T) :
    esum T = f.2.2 + esum (gremove T f) := by
  have hperm := gremove_perm T f hf
  have h2 := (hperm.map fun e => e.2.2).sum_eq
  rw [esum, h2, List.map_cons, List.sum_cons]
  rfl

theorem esum_le_of_nodup_subset :
    ∀ (C T : List GEdge), C.Nodup → (∀ e ∈ C, e ∈ T) → esum C ≤ esum T
  | [], T, _, _ => by
    rw [esum]
    exact zero_le _
  | c :: C, T, hnd, hsub => by
    have hndc := List.nodup_cons.1 hnd
    have hc : c ∈ T := hsub c (List.mem_cons_self _ _)
    have hC : ∀ e ∈ C, e ∈ gremove T c := by
      intro e he
      refine (mem_gremove_of_ne T ?_).2 (hsub e (List.mem_cons_of_mem _ he))
      intro hec
      exact hndc.1 (hec ▸ he)
    have ih := esum_le_of_nodup_subset C (gremove T c) hndc.2 hC
    rw [esum_gremove hc]
    show c.2.2 + esum C ≤ c.2.2 + esum (gremove T c)
    exact add_le_add_left ih _

theorem esum_cons (e : GEdge) (E : List GEdge) :
    esum (e :: E) = e.2.2 + esum E := by
  simp [esum]

theorem twalk_change {T T2 : List GEdge} :
    ∀ (es : List GEdge) (a b : Nat), TWalk T a b es →
      (∀ e ∈ es, e ∈ T2) → TWalk T2 a b es
  | [], a, b, h, _ => h
  | e :: es, a, b, h, hmem =>
    ⟨hmem e (List.mem_cons_self _ _), h.2.1,
      twalk_change es _ b h.2.2 fun x hx => hmem x (List.mem_cons_of_mem _ hx)⟩

/-- The exchange step of the Prim lower-bound argument: a connected
spanning witness `T` can be repaired to contain a minimum-weight crossing
edge of a cut without raising its total weight, keeping every `T`-edge
that does not cross the cut. -/
theorem exchange_step {T : List GEdge} {n src : Nat} (dead : Nat → Bool)
    (estar : GEdge) (hsrcn : src < n)
    (hspan : ∀ a, a < n → EConn T src a)
    (hp : estar.1 < n) (hv : estar.2.1 < n)
    (hdp : dead estar.1 = true) (hdv : dead estar.2.1 = false)
    (hmin : ∀ f ∈ T, ¬dead f.1 = dead f.2.1 → estar.2.2 ≤ f.2.2) :
    ∃ T2 : List GEdge, (∀ e ∈ T2, e ∈ T ∨ e = estar) ∧
      (∀ a, a < n → EConn T2 src a) ∧ esum T2 ≤ esum T ∧ estar ∈ T2 ∧
      ∀ c ∈ T, dead c.1 = true → dead c.2.1 = true → c ∈ T2 := by
  by_cases hin : estar ∈ T
  · exact ⟨T, fun e he => Or.inl he, hspan, le_refl _, hin,
      fun c hc _ _ => hc⟩
  · have hconn_pv : EConn T estar.1 estar.2.1 :=
      EConn.trans (hspan estar.1 hp).symm (hspan estar.2.1 hv)
    obtain ⟨es, hwalk, hvnd⟩ := exists_simple_twalk hconn_pv
    have hend : es.Nodup := twalk_nodup_edges es _ _ hwalk hvnd
    obtain ⟨W1, f, W2, x, hsplit, hw1, hx, htch, hy, hw2⟩ :=
      twalk_cross dead es estar.1 estar.2.1 hwalk hdp hdv
    have hfT : f ∈ T :=
      twalk_edges_mem es _ _ hwalk f
        (by rw [hsplit]; exact List.mem_append.2 (Or.inr (List.mem_cons_self _ _)))
    have hfW : f ∉ W1 ∧ f ∉ W2 := by
      rw [hsplit] at hend
      have h1 := (List.nodup_append.1 hend).2.2
      have h2 := List.nodup_cons.1 (List.nodup_append.1 hend).2.1
      exact ⟨fun hmem => h1 hmem (List.mem_cons_self _ _), h2.1⟩
    have hcross : ¬dead f.1 = dead f.2.1 ∧
        ((f.1 = x ∧ f.2.1 = eother f x) ∨ (f.2.1 = x ∧ f.1 = eother f x)) := by
      by_cases hfx : f.1 = x
      · have hyeq : eother f x = f.2.1 := if_pos hfx
        refine ⟨?_, Or.inl ⟨hfx, hyeq.symm⟩⟩
        rw [hfx, hx, ← hyeq, hy]
        simp
      · have hf2x : f.2.1 = x := by
          rcases htch with h | h
          · exact absurd h hfx
          · exact h
        have hyeq : eother f x = f.1 := if_neg hfx
        refine ⟨?_, Or.inr ⟨hf2x, hyeq.symm⟩⟩
        rw [hf2x, hx, ← hyeq, hy]
        simp
    have hwle : estar.2.2 ≤ f.2.2 := hmin f hfT hcross.1
    refine ⟨estar :: gremove T f, ?_, ?_, ?_, List.mem_cons_self _ _, ?_⟩
    · intro e he
      rcases List.mem_cons.1 he with rfl | he
      · exact Or.inr rfl
      · exact Or.inl (mem_of_mem_gremove T he)
    · have hsub2 : ∀ e ∈ T, e ≠ f → e ∈ estar :: gremove T f := fun e he hne =>
        List.mem_cons_of_mem _ ((mem_gremove_of_ne T hne).2 he)
      have hW1sub : ∀ e ∈ W1, e ∈ estar :: gremove T f := by
        intro e he
        refine hsub2 e (twalk_edges_mem es _ _ hwalk e
          (by rw [hsplit]; exact List.mem_append.2 (Or.inl he))) ?_
        intro hef
        exact hfW.1 (hef ▸ he)
      have hW2sub : ∀ e ∈ W2, e ∈ estar :: gremove T f := by
        intro e he
        refine hsub2 e (twalk_edges_mem es _ _ hwalk e
          (by rw [hsplit]
              exact List.mem_append.2 (Or.inr (List.mem_cons_of_mem _ he)))) ?_
        intro hef
        exact hfW.2 (hef ▸ he)
      have hW1 : TWalk (estar :: gremove T f) estar.1 x W1 :=
        twalk_change W1 _ x hw1 hW1sub
      have hW2 : TWalk (estar :: gremove T f) (eother f x) estar.2.1 W2 :=
        twalk_change W2 _ _ hw2 hW2sub
      have hestep : EConn (estar :: gremove T f) estar.1 estar.2.1 :=
        econn_step (List.mem_cons_self _ _)
      have hxy : EConn (estar :: gremove T f) x (eother f x) :=
        EConn.trans (EConn.symm ⟨W1, hW1⟩)
          (EConn.trans hestep (EConn.symm ⟨W2, hW2⟩))
      have hf12 : EConn (estar :: gremove T f) f.1 f.2.1 := by
        rcases hcross.2 with ⟨h1, h2⟩ | ⟨h1, h2⟩
        · rw [h1, h2]
          exact hxy
        · rw [h1, h2]
          exact hxy.symm
      intro a ha
      obtain ⟨es3, h3⟩ := hspan a ha
      exact econn_reroute hf12 hsub2 es3 src a h3
    · rw [esum_cons, esum_gremove hfT]
      exact add_le_add_right hwle _
    · intro c hc hc1 hc2
      refine List.mem_cons_of_mem _ ((mem_gremove_of_ne T ?_).2 hc)
      intro hcf
      rw [hcf] at hc1 hc2
      exact hcross.1 (hc1.trans hc2.symm)

/-! ### Prim state accessors and graph-side hypotheses -/

/-- Default record used by the source's `Vec` indexing model for `mst_prim`
(matching the fallbacks written into `prim_relax` and `prim_loop`). -/
def pdef : PrimNode := ⟨0, none, false, ⊤⟩

/-- Parent link of node `u` in a Prim record list. -/
def pparOf (nodes : List PrimNode) (u : Nat) : Option Nat :=
  (nodes.getD u pdef).parent

/-- Liveness (still-in-heap) flag of node `u`. -/
def pliveOf (nodes : List PrimNode) (u : Nat) : Bool :=
  (nodes.getD u pdef).live

/-- Tentative connection cost of node `u`. -/
def pdistOf (nodes : List PrimNode) (u : Nat) : Wt :=
  (nodes.getD u pdef).dist

/-- The edges `(parent, idx, dist)` recorded at the settled (popped)
nodes: exactly what `mst_prim` emits once every node is settled. -/
def pchosen (nodes : List PrimNode) (n : Nat) : List GEdge :=
  (List.range n).filterMap fun u =>
    let r := nodes.getD u pdef
    if r.live then none else r.parent.map fun p => (p, r.idx, r.dist)

/-- One undirected adjacency step of the graph itself. -/
def GStep (g : SimpleGraph) (a b : Nat) : Prop :=
  (∃ w, (b, w) ∈ g.adjL a) ∨ (∃ w, (a, w) ∈ g.adjL b)

/-- Connectivity of the graph: `b` reachable from `a` through stored
half-edges, in either direction. -/
def GConn (g : SimpleGraph) : Nat → Nat → Prop :=
  Relation.ReflTransGen (GStep g)

/-- A graph chain from a dead vertex to a live one contains an adjacent
dead/live pair. -/
theorem gconn_cross {g : SimpleGraph} (dead : Nat → Bool) {a b : Nat}
    (h : GConn g a b) (hb : dead b = false) (ha : dead a = true) :
    ∃ x y, dead x = true ∧ dead y = false ∧
      ((∃ w, (y, w) ∈ g.adjL x) ∨ (∃ w, (x, w) ∈ g.adjL y)) := by
  induction h using Relation.ReflTransGen.head_induction_on with
  | refl => rw [ha] at hb; exact Bool.noConfusion hb
  | head hstep hrest ih =>
    rename_i x y
    cases hy : dead y with
    | true => exact ih hy
    | false => exact ⟨x, y, ha, hy, hstep⟩

theorem mem_adjL_spec {g : SimpleGraph} {u : Nat} {vw : Nat × Wt}
    (h : vw ∈ g.adjL u) : ∃ kv ∈ g.weights, kv.1 = u ∧ vw ∈ kv.2 := by
  rw [SimpleGraph.adjL, SimpleGraph.neighbours] at h
  cases hf : g.weights.find? fun kv => kv.1 == u with
  | none => rw [hf] at h; simp at h
  | some kv =>
    rw [hf] at h
    refine ⟨kv, List.mem_of_find?_eq_some hf, ?_, by simpa using h⟩
    have := List.find?_some hf
    simpa using this

/-- All keys of the adjacency map are below `n_nodes` (true of every graph
whose nodes are numbered consecutively from `0`, as in the crate's
examples). -/
def SimpleGraph.KeysLt (g : SimpleGraph) : Prop :=
  ∀ kv ∈ g.weights, kv.1 < g.n_nodes

instance (g : SimpleGraph) : Decidable g.KeysLt := by
  unfold SimpleGraph.KeysLt
  infer_instance

/-- The adjacency map is symmetric: every stored half-edge has its
reverse stored, as `add_weighted_edges` guarantees. -/
def SimpleGraph.SymmW (g : SimpleGraph) : Prop :=
  ∀ kv ∈ g.weights, ∀ vw ∈ kv.2, (kv.1, vw.2) ∈ g.adjL vw.1

instance (g : SimpleGraph) : Decidable g.SymmW := by
  unfold SimpleGraph.SymmW
  infer_instance

/-- Every stored weight is finite (`max_value` is reserved as the
infinity sentinel). -/
def SimpleGraph.FiniteW (g : SimpleGraph) : Prop :=
  ∀ kv ∈ g.weights, ∀ vw ∈ kv.2, vw.2 ≠ ⊤

instance (g : SimpleGraph) : Decidable g.FiniteW := by
  unfold SimpleGraph.FiniteW
  infer_instance

theorem SimpleGraph.KeysLt.adjL_key_lt {g : SimpleGraph} (hk : g.KeysLt) {u : Nat}
    {vw : Nat × Wt} (h : vw ∈ g.adjL u) : u < g.n_nodes := by
  obtain ⟨kv, hkv, hk1, _⟩ := mem_adjL_spec h
  exact hk1 ▸ hk kv hkv

theorem SimpleGraph.SymmW.adjL_symm {g : SimpleGraph} (hs : g.SymmW) {u : Nat}
    {vw : Nat × Wt} (h : vw ∈ g.adjL u) : (u, vw.2) ∈ g.adjL vw.1 := by
  obtain ⟨kv, hkv, hk1, hvw⟩ := mem_adjL_spec h
  exact hk1 ▸ hs kv hkv vw hvw

theorem SimpleGraph.FiniteW.adjL_fin {g : SimpleGraph} (hf : g.FiniteW) {u : Nat}
    {vw : Nat × Wt} (h : vw ∈ g.adjL u) : vw.2 ≠ ⊤ := by
  obtain ⟨kv, hkv, _, hvw⟩ := mem_adjL_spec h
  exact hf kv hkv vw hvw

/-- Loop invariant for `prim_loop` over graph `g` with source `src`
(`n` is `g.n_nodes`).  The heap holds exactly one entry per live node
(soundly priced at or above its recorded distance, with the recorded
distance itself pending), settled nodes carry a valid recorded edge from an
earlier-settled parent, every edge out of the settled set is relaxed, and
the recorded edges connect every settled node to the source. -/
structure PInv (g : SimpleGraph) (src : Nat) (nodes : List PrimNode)
    (pq : PairingHeap Nat Wt) : Prop where
  hwf : pq.WF
  hlen : nodes.length = g.n_nodes
  hidx : ∀ u, u < g.n_nodes → (nodes.getD u pdef).idx = u
  hnodup : ((PH.elems pq.root).map Prod.fst).Nodup
  hsound : ∀ kp ∈ PH.elems pq.root, kp.1 < g.n_nodes ∧
    pliveOf nodes kp.1 = true ∧ pdistOf nodes kp.1 ≤ kp.2
  hpend : ∀ u, u < g.n_nodes → pliveOf nodes u = true →
    (u, pdistOf nodes u) ∈ PH.elems pq.root
  hsrc : pparOf nodes src = none ∧ pdistOf nodes src = 0
  hsrclive : pliveOf nodes src = true → ∀ u, u < g.n_nodes →
    pliveOf nodes u = true ∧ (u ≠ src → pdistOf nodes u = ⊤)
  hpar : ∀ u, u < g.n_nodes → ∀ p, pparOf nodes u = some p →
    p < g.n_nodes ∧ pliveOf nodes p = false ∧ p ≠ u ∧
    (u, pdistOf nodes u) ∈ g.adjL p ∧ pdistOf nodes u ≠ ⊤
  hparl : ∀ u, u < g.n_nodes → u ≠ src → pparOf nodes u = none →
    pdistOf nodes u = ⊤
  hdeadpar : ∀ u, u < g.n_nodes → u ≠ src → pliveOf nodes u = false →
    pparOf nodes u ≠ none
  hrelaxed : ∀ a, a < g.n_nodes → pliveOf nodes a = false →
    ∀ vw ∈ g.adjL a, pliveOf nodes vw.1 = true →
    pdistOf nodes vw.1 ≤ vw.2
  hconn : ∀ u, u < g.n_nodes → pliveOf nodes u = false →
    EConn (pchosen nodes g.n_nodes) src u

/-- `List.getD` after `set` at the same (in-range) index. -/
theorem getD_set_self {α : Type} {l : List α} {i : Nat} (h : i < l.length)
    (r d : α) : (l.set i r).getD i d = r := by
  rw [List.getD_eq_getElem?_getD, List.getElem?_set_self h]
  rfl

/-- `List.getD` after `set` at a different index. -/
theorem getD_set_ne {α : Type} {l : List α} {i j : Nat} (h : i ≠ j)
    (r d : α) : (l.set i r).getD j d = l.getD j d := by
  rw [List.getD_eq_getElem?_getD, List.getElem?_set_ne h,
    ← List.getD_eq_getElem?_getD]

theorem filtermap_congr {α β : Type} :
    ∀ (l : List α) (f f2 : α → Option β), (∀ u ∈ l, f u = f2 u) →
      l.filterMap f = l.filterMap f2
  | [], _, _, _ => rfl
  | a :: l, f, f2, h => by
    rw [List.filterMap_cons, List.filterMap_cons,
      h a (List.mem_cons_self _ _),
      filtermap_congr l f f2 fun u hu => h u (List.mem_cons_of_mem _ hu)]

/-- `Multiset.map` across an `erase` of a present element. -/
theorem map_erase_of_mem {α β : Type} [DecidableEq α] [DecidableEq β]
    (f : α → β) {s : Multiset α} {a : α} (h : a ∈ s) :
    (s.erase a).map f = (s.map f).erase (f a) := by
  have h1 : s = a ::ₘ s.erase a := (Multiset.cons_erase h).symm
  have h2 : s.map f = f a ::ₘ (s.erase a).map f := by
    conv_lhs => rw [h1]
    rw [Multiset.map_cons]
  rw [h2, Multiset.erase_cons_head]

/-- Invariant holding while the relaxation loop of one Prim pop runs:
`node` has just been settled (its heap entry removed, its record marked
dead), and the invariant holds except that `node`'s own edges are only
relaxed as the loop reaches them. -/
structure PM (g : SimpleGraph) (src node : Nat) (nodes : List PrimNode)
    (pq : PairingHeap Nat Wt) : Prop where
  hwf : pq.WF
  hlen : nodes.length = g.n_nodes
  hidx : ∀ u, u < g.n_nodes → (nodes.getD u pdef).idx = u
  hnodup : ((PH.elems pq.root).map Prod.fst).Nodup
  hsound : ∀ kp ∈ PH.elems pq.root, kp.1 < g.n_nodes ∧
    pliveOf nodes kp.1 = true ∧ pdistOf nodes kp.1 ≤ kp.2
  hpend : ∀ u, u < g.n_nodes → pliveOf nodes u = true →
    (u, pdistOf nodes u) ∈ PH.elems pq.root
  hsrc : pparOf nodes src = none ∧ pdistOf nodes src = 0
  hsrcdead : pliveOf nodes src = false
  hnodelt : node < g.n_nodes
  hnodedead : pliveOf nodes node = false
  hpar : ∀ u, u < g.n_nodes → ∀ p, pparOf nodes u = some p →
    p < g.n_nodes ∧ pliveOf nodes p = false ∧ p ≠ u ∧
    (u, pdistOf nodes u) ∈ g.adjL p ∧ pdistOf nodes u ≠ ⊤
  hparl : ∀ u, u < g.n_nodes → u ≠ src → pparOf nodes u = none →
    pdistOf nodes u = ⊤
  hdeadpar : ∀ u, u < g.n_nodes → u ≠ src → pliveOf nodes u = false →
    pparOf nodes u ≠ none
  hrelaxedX : ∀ a, a < g.n_nodes → pliveOf nodes a = false → a ≠ node →
    ∀ vw ∈ g.adjL a, pliveOf nodes vw.1 = true →
    pdistOf nodes vw.1 ≤ vw.2
  hconn : ∀ u, u < g.n_nodes → pliveOf nodes u = false →
    EConn (pchosen nodes g.n_nodes) src u

/-- One `prim_relax` step preserves `PM`; distances only drop, liveness
flags and dead records are untouched, and the processed edge ends up
relaxed. -/
theorem prim_relax_step {g : SimpleGraph} {src node : Nat}
    (hdense : g.WFdense) (hfin : g.FiniteW)
    {st : List PrimNode × PairingHeap Nat Wt} (hm : PM g src node st.1 st.2)
    {uw : Nat × Wt} (huw : uw ∈ g.adjL node) :
    PM g src node (prim_relax node st uw).1 (prim_relax node st uw).2 ∧
    (∀ u, pdistOf (prim_relax node st uw).1 u ≤ pdistOf st.1 u) ∧
    (∀ u, pliveOf (prim_relax node st uw).1 u = pliveOf st.1 u) ∧
    (∀ u, pliveOf st.1 u = false →
      (prim_relax node st uw).1.getD u pdef = st.1.getD u pdef) ∧
    (pliveOf (prim_relax node st uw).1 uw.1 = true →
      pdistOf (prim_relax node st uw).1 uw.1 ≤ uw.2) := by
  have hred : prim_relax node st uw =
      if (st.1.getD uw.1 pdef).live &&
          decide (uw.2 < (st.1.getD uw.1 pdef).dist) then
        (st.1.set uw.1 ⟨(st.1.getD uw.1 pdef).idx, some node,
          (st.1.getD uw.1 pdef).live, uw.2⟩,
          st.2.update_prio uw.1 uw.2)
      else st := rfl
  rw [hred]
  cases hguard : (st.1.getD uw.1 pdef).live &&
      decide (uw.2 < (st.1.getD uw.1 pdef).dist) with
  | false =>
    rw [if_neg Bool.false_ne_true]
    refine ⟨hm, fun u => le_refl _, fun u => rfl, fun u _ => rfl, ?_⟩
    intro hlive
    rw [pliveOf] at hlive
    rw [hlive] at hguard
    have hdec : decide (uw.2 < (st.1.getD uw.1 pdef).dist) = false := by
      simpa using hguard
    rw [pdistOf]
    exact le_of_not_lt (of_decide_eq_false hdec)
  | true =>
    rw [if_pos rfl]
    have hband := Bool.and_eq_true_iff.1 hguard
    have hlive : (st.1.getD uw.1 pdef).live = true := hband.1
    have hlt : uw.2 < (st.1.getD uw.1 pdef).dist := of_decide_eq_true hband.2
    have htlt : uw.1 < g.n_nodes := hdense.adjL_target_lt node uw huw
    have htlen : uw.1 < st.1.length := by rw [hm.hlen]; exact htlt
    have hne_node : uw.1 ≠ node := by
      intro h
      have hd : (st.1.getD node pdef).live = false := hm.hnodedead
      rw [h, hd] at hlive
      exact Bool.noConfusion hlive
    have hne_src : uw.1 ≠ src := by
      intro h
      have hd : (st.1.getD src pdef).live = false := hm.hsrcdead
      rw [h, hd] at hlive
      exact Bool.noConfusion hlive
    have hgself : ∀ u, u = uw.1 →
        ((st.1.set uw.1 ⟨(st.1.getD uw.1 pdef).idx, some node,
          (st.1.getD uw.1 pdef).live, uw.2⟩).getD u pdef) =
        ⟨(st.1.getD uw.1 pdef).idx, some node,
          (st.1.getD uw.1 pdef).live, uw.2⟩ := by
      intro u hu
      rw [hu]
      exact getD_set_self htlen _ _
    have hgne : ∀ u, u ≠ uw.1 →
        ((st.1.set uw.1 ⟨(st.1.getD uw.1 pdef).idx, some node,
          (st.1.getD uw.1 pdef).live, uw.2⟩).getD u pdef) =
        st.1.getD u pdef := by
      intro u hu
      exact getD_set_ne (fun h => hu h.symm) _ _
    have hlives : ∀ u, pliveOf (st.1.set uw.1 ⟨(st.1.getD uw.1 pdef).idx,
        some node, (st.1.getD uw.1 pdef).live, uw.2⟩) u = pliveOf st.1 u := by
      intro u
      by_cases hu : u = uw.1
      · rw [pliveOf, hgself u hu, hu, pliveOf]
      · rw [pliveOf, hgne u hu, pliveOf]
    have hdists : ∀ u, u ≠ uw.1 → pdistOf (st.1.set uw.1
        ⟨(st.1.getD uw.1 pdef).idx, some node,
          (st.1.getD uw.1 pdef).live, uw.2⟩) u = pdistOf st.1 u := by
      intro u hu
      rw [pdistOf, hgne u hu, pdistOf]
    have hdistt : pdistOf (st.1.set uw.1 ⟨(st.1.getD uw.1 pdef).idx,
        some node, (st.1.getD uw.1 pdef).live, uw.2⟩) uw.1 = uw.2 := by
      rw [pdistOf, hgself uw.1 rfl]
    have hpars : ∀ u, u ≠ uw.1 → pparOf (st.1.set uw.1
        ⟨(st.1.getD uw.1 pdef).idx, some node,
          (st.1.getD uw.1 pdef).live, uw.2⟩) u = pparOf st.1 u := by
      intro u hu
      rw [pparOf, hgne u hu, pparOf]
    have hdmono : ∀ u, pdistOf (st.1.set uw.1 ⟨(st.1.getD uw.1 pdef).idx,
        some node, (st.1.getD uw.1 pdef).live, uw.2⟩) u ≤ pdistOf st.1 u := by
      intro u
      by_cases hu : u = uw.1
      · rw [hu, hdistt]
        exact le_of_lt hlt
      · rw [hdists u hu]
    have hdeadrec : ∀ u, pliveOf st.1 u = false →
        (st.1.set uw.1 ⟨(st.1.getD uw.1 pdef).idx, some node,
          (st.1.getD uw.1 pdef).live, uw.2⟩).getD u pdef =
        st.1.getD u pdef := by
      intro u hu
      by_cases huw2 : u = uw.1
      · rw [huw2, pliveOf] at hu
        rw [hu] at hlive
        exact Bool.noConfusion hlive
      · exact hgne u huw2
    have hpresent : ∃ p : Wt, (uw.1, p) ∈ PH.elems st.2.root :=
      ⟨pdistOf st.1 uw.1, hm.hpend uw.1 htlt hlive⟩
    have hgewf : ∀ kp ∈ PH.elems st.2.root, kp.1 = uw.1 → uw.2 ≤ kp.2 := by
      intro kp hkp hk1
      have hs := (hm.hsound kp hkp).2.2
      rw [hk1] at hs
      exact le_trans (le_of_lt hlt) hs
    have hwf2 : (st.2.update_prio uw.1 uw.2).WF :=
      PairingHeap.update_prio_wf hm.hwf uw.1 uw.2 hgewf
    obtain ⟨old, hold, helems⟩ :=
      PairingHeap.update_prio_elems hm.hwf uw.1 uw.2 hpresent
    have hmapfst : (PH.elems (st.2.update_prio uw.1 uw.2).root).map Prod.fst =
        (PH.elems st.2.root).map Prod.fst := by
      rw [helems, Multiset.map_cons,
        map_erase_of_mem Prod.fst hold]
      show uw.1 ::ₘ ((PH.elems st.2.root).map Prod.fst).erase uw.1 = _
      have hmm : uw.1 ∈ (PH.elems st.2.root).map Prod.fst :=
        Multiset.mem_map.2 ⟨(uw.1, old), hold, rfl⟩
      rw [Multiset.cons_erase hmm]
    have hchosen : pchosen (st.1.set uw.1 ⟨(st.1.getD uw.1 pdef).idx,
        some node, (st.1.getD uw.1 pdef).live, uw.2⟩) g.n_nodes =
        pchosen st.1 g.n_nodes := by
      refine filtermap_congr _ _ _ ?_
      intro u hu
      by_cases huw2 : u = uw.1
      · rw [huw2]
        dsimp only
        rw [hgself uw.1 rfl]
        dsimp only
        rw [hlive, if_pos rfl, if_pos rfl]
      · dsimp only
        rw [hgne u huw2]
    refine ⟨⟨hwf2, by rw [List.length_set]; exact hm.hlen, ?_, ?_, ?_, ?_,
      ?_, ?_, hm.hnodelt, ?_, ?_, ?_, ?_, ?_, ?_⟩, hdmono, hlives, hdeadrec,
      ?_⟩
    · intro u hu
      by_cases huw2 : u = uw.1
      · rw [hgself u huw2, huw2]
        exact hm.hidx uw.1 htlt
      · rw [hgne u huw2]
        exact hm.hidx u hu
    · rw [hmapfst]
      exact hm.hnodup
    · intro kp hkp
      rw [helems, Multiset.mem_cons] at hkp
      rcases hkp with rfl | hkp
      · exact ⟨htlt, by rw [hlives, pliveOf]; exact hlive, by rw [hdistt]⟩
      · have hkp2 := Multiset.mem_of_mem_erase hkp
        obtain ⟨h1, h2, h3⟩ := hm.hsound kp hkp2
        exact ⟨h1, by rw [hlives]; exact h2, le_trans (hdmono kp.1) h3⟩
    · intro u hu hul
      rw [hlives] at hul
      rw [helems]
      by_cases huw2 : u = uw.1
      · rw [huw2, hdistt]
        exact Multiset.mem_cons_self _ _
      · rw [hdists u huw2]
        refine Multiset.mem_cons_of_mem ?_
        refine (Multiset.mem_erase_of_ne ?_).2 (hm.hpend u hu hul)
        intro heq
        exact huw2 (congrArg Prod.fst heq)
    · rw [pparOf, hgne src (fun h => hne_src h.symm), pdistOf,
        hgne src (fun h => hne_src h.symm)]
      exact hm.hsrc
    · rw [hlives]
      exact hm.hsrcdead
    · rw [hlives]
      exact hm.hnodedead
    · intro u hu p hp
      by_cases huw2 : u = uw.1
      · subst huw2
        rw [pparOf, hgself uw.1 rfl] at hp
        have hpnode : p = node := by
          injection hp with hp
          exact hp.symm
        subst hpnode
        rw [hdistt]
        refine ⟨hm.hnodelt, by rw [hlives]; exact hm.hnodedead,
          fun h => hne_node h.symm, ?_, hfin.adjL_fin huw⟩
        exact huw
      · rw [pparOf, hgne u huw2] at hp
        obtain ⟨h1, h2, h3, h4, h5⟩ := hm.hpar u hu p hp
        refine ⟨h1, by rw [hlives]; exact h2, h3, ?_, ?_⟩
        · rw [hdists u huw2]
          exact h4
        · rw [hdists u huw2]
          exact h5
    · intro u hu hus hp
      by_cases huw2 : u = uw.1
      · rw [huw2, pparOf, hgself uw.1 rfl] at hp
        exact absurd hp (by simp)
      · rw [pparOf, hgne u huw2] at hp
        rw [hdists u huw2]
        exact hm.hparl u hu hus hp
    · intro u hu hus hud
      by_cases huw2 : u = uw.1
      · rw [huw2, pliveOf, hgself uw.1 rfl] at hud
        dsimp only at hud
        rw [hud] at hlive
        exact Bool.noConfusion hlive
      · rw [pparOf, hgne u huw2]
        rw [pliveOf, hgne u huw2] at hud
        exact hm.hdeadpar u hu hus hud
    · intro a ha hadead hanode vw hvw hlive2
      rw [hlives] at hadead hlive2
      refine le_trans (hdmono vw.1) ?_
      exact hm.hrelaxedX a ha hadead hanode vw hvw hlive2
    · intro u hu hud
      rw [hlives] at hud
      rw [hchosen]
      exact hm.hconn u hu hud
    · intro hlive2
      rw [hdistt]

/-- Folding `prim_relax` over a sublist of the settled node's adjacency
list preserves `PM`, only lowers distances, keeps liveness and dead
records, and leaves every processed edge relaxed. -/
theorem prim_fold {g : SimpleGraph} {src node : Nat}
    (hdense : g.WFdense) (hfin : g.FiniteW) :
    ∀ (nb : List (Nat × Wt)) (st : List PrimNode × PairingHeap Nat Wt),
      PM g src node st.1 st.2 → (∀ vw ∈ nb, vw ∈ g.adjL node) →
      PM g src node (nb.foldl (prim_relax node) st).1
        (nb.foldl (prim_relax node) st).2 ∧
      (∀ u, pdistOf (nb.foldl (prim_relax node) st).1 u ≤ pdistOf st.1 u) ∧
      (∀ u, pliveOf (nb.foldl (prim_relax node) st).1 u = pliveOf st.1 u) ∧
      (∀ u, pliveOf st.1 u = false →
        (nb.foldl (prim_relax node) st).1.getD u pdef = st.1.getD u pdef) ∧
      (∀ vw ∈ nb, pliveOf (nb.foldl (prim_relax node) st).1 vw.1 = true →
        pdistOf (nb.foldl (prim_relax node) st).1 vw.1 ≤ vw.2)
  | [], st, hm, _ => ⟨hm, fun u => le_refl _, fun u => rfl, fun u _ => rfl,
      fun vw hvw => absurd hvw (List.not_mem_nil vw)⟩
  | uw :: nb, st, hm, hnb => by
    obtain ⟨hm2, hd2, hl2, hdr2, hrel2⟩ :=
      prim_relax_step hdense hfin hm (hnb uw (List.mem_cons_self _ _))
    obtain ⟨hm3, hd3, hl3, hdr3, hrel3⟩ :=
      prim_fold hdense hfin nb (prim_relax node st uw) hm2
        fun vw hvw => hnb vw (List.mem_cons_of_mem _ hvw)
    refine ⟨hm3, ?_, ?_, ?_, ?_⟩
    · intro u
      exact le_trans (hd3 u) (hd2 u)
    · intro u
      exact (hl3 u).trans (hl2 u)
    · intro u hu
      have hu2 : pliveOf (prim_relax node st uw).1 u = false := by
        rw [hl2 u]
        exact hu
      exact (hdr3 u hu2).trans (hdr2 u hu)
    · intro vw hvw hlv
      rcases List.mem_cons.1 hvw with rfl | hvw2
      · have hlv2 : pliveOf (prim_relax node st vw).1 vw.1 = true := by
          rw [← hl3 vw.1]
          exact hlv
        exact le_trans (hd3 vw.1) (hrel2 hlv2)
      · exact hrel3 vw hvw2 hlv

/-- Membership in the recorded-edge list. -/
theorem mem_pchosen {nodes : List PrimNode} {n : Nat} {e : GEdge} :
    e ∈ pchosen nodes n ↔ ∃ u, u < n ∧ pliveOf nodes u = false ∧
      ∃ p, pparOf nodes u = some p ∧
        e = (p, (nodes.getD u pdef).idx, pdistOf nodes u) := by
  rw [pchosen, List.mem_filterMap]
  constructor
  · rintro ⟨u, hu, hemit⟩
    dsimp only at hemit
    refine ⟨u, List.mem_range.1 hu, ?_, ?_⟩
    · cases hl : (nodes.getD u pdef).live
      · rw [pliveOf]
        exact hl
      · rw [hl, if_pos rfl] at hemit
        exact absurd hemit (by simp)
    · cases hl : (nodes.getD u pdef).live
      · rw [hl] at hemit
        rw [if_neg Bool.false_ne_true] at hemit
        cases hp : (nodes.getD u pdef).parent with
        | none =>
          rw [hp] at hemit
          exact absurd hemit (by simp)
        | some p =>
          rw [hp] at hemit
          refine ⟨p, hp, ?_⟩
          have := Option.some.inj hemit
          rw [← this, pdistOf]
      · rw [hl, if_pos rfl] at hemit
        exact absurd hemit (by simp)
  · rintro ⟨u, hu, hlive, p, hp, rfl⟩
    refine ⟨u, List.mem_range.2 hu, ?_⟩
    dsimp only
    rw [pliveOf] at hlive
    rw [hlive, if_neg Bool.false_ne_true]
    rw [pparOf] at hp
    rw [hp]
    rfl

/-- Both endpoints of every recorded edge are settled. -/
theorem pchosen_dead {g : SimpleGraph} {src : Nat} {nodes : List PrimNode}
    {pq : PairingHeap Nat Wt} (inv : PInv g src nodes pq) :
    ∀ c ∈ pchosen nodes g.n_nodes,
      pliveOf nodes c.1 = false ∧ pliveOf nodes c.2.1 = false := by
  intro c hc
  obtain ⟨u, hu, hlive, p, hp, rfl⟩ := mem_pchosen.1 hc
  obtain ⟨_, hpdead, _, _, _⟩ := inv.hpar u hu p hp
  refine ⟨hpdead, ?_⟩
  show pliveOf nodes (nodes.getD u pdef).idx = false
  rw [inv.hidx u hu]
  exact hlive

/-- Recorded edges `(parent, idx, dist)` form a half-edge of the graph. -/
theorem pchosen_half {g : SimpleGraph} {src : Nat} {nodes : List PrimNode}
    {pq : PairingHeap Nat Wt} (inv : PInv g src nodes pq) :
    ∀ c ∈ pchosen nodes g.n_nodes, (c.2.1, c.2.2) ∈ g.adjL c.1 := by
  intro c hc
  obtain ⟨u, hu, hlive, p, hp, rfl⟩ := mem_pchosen.1 hc
  obtain ⟨_, _, _, hmem, _⟩ := inv.hpar u hu p hp
  show ((nodes.getD u pdef).idx, pdistOf nodes u) ∈ g.adjL p
  rw [inv.hidx u hu]
  exact hmem

theorem filtermap_nodup {α : Type} {f : Nat → Option α} :
    ∀ (l : List Nat), l.Nodup →
      (∀ u ∈ l, ∀ e, f u = some e → ∀ u2 ∈ l, f u2 = some e → u2 = u) →
      (l.filterMap f).Nodup
  | [], _, _ => List.nodup_nil
  | a :: l, hnd, hinj => by
    have hndc := List.nodup_cons.1 hnd
    rw [List.filterMap_cons]
    have htail : (l.filterMap f).Nodup :=
      filtermap_nodup l hndc.2 fun u hu e he u2 hu2 he2 =>
        hinj u (List.mem_cons_of_mem _ hu) e he u2
          (List.mem_cons_of_mem _ hu2) he2
    cases hfa : f a with
    | none => exact htail
    | some e =>
      refine List.nodup_cons.2 ⟨?_, htail⟩
      intro hmem
      obtain ⟨u, hu, hue⟩ := List.mem_filterMap.1 hmem
      have := hinj a (List.mem_cons_self _ _) e hfa u
        (List.mem_cons_of_mem _ hu) hue
      exact hndc.1 (this ▸ hu)

/-- The recorded-edge list has no duplicates (each settled node records at
most one edge, tagged by its own index). -/
theorem pchosen_nodup {g : SimpleGraph} {src : Nat} {nodes : List PrimNode}
    {pq : PairingHeap Nat Wt} (inv : PInv g src nodes pq) :
    (pchosen nodes g.n_nodes).Nodup := by
  refine filtermap_nodup _ (List.nodup_range _) ?_
  intro u hu e he u2 hu2 he2
  have hmid : ∀ u3, u3 ∈ List.range g.n_nodes →
      ∀ e3 : GEdge, (fun u4 =>
        let r := nodes.getD u4 pdef
        if r.live then none
        else r.parent.map fun p => (p, r.idx, r.dist)) u3 = some e3 →
      e3.2.1 = u3 := by
    intro u3 hu3 e3 he3
    dsimp only at he3
    cases hl : (nodes.getD u3 pdef).live
    · rw [hl, if_neg Bool.false_ne_true] at he3
      cases hp : (nodes.getD u3 pdef).parent with
      | none => rw [hp] at he3; exact absurd he3 (by simp)
      | some p =>
        rw [hp] at he3
        have := Option.some.inj he3
        rw [← this]
        exact inv.hidx u3 (List.mem_range.1 hu3)
    · rw [hl, if_pos rfl] at he3
      exact absurd he3 (by simp)
  have h1 := hmid u hu e he
  have h2 := hmid u2 hu2 e he2
  rw [h1] at h2
  exact h2.symm

/-- Analysis of one successful `delete_min` of the Prim loop: the popped
node is an in-range live node popped at exactly its recorded distance
(minimal among live nodes), it has a recorded parent unless it is the
source, and the marked state satisfies the relaxation-time invariant.  The
final conjuncts track how the recorded-edge list grows by (at most) the
popped node's edge. -/
theorem prim_pop {g : SimpleGraph} {src : Nat} (hdense : g.WFdense)
    (hkeys : g.KeysLt) (hsym : g.SymmW) (hfin : g.FiniteW)
    (hgconn : ∀ a, a < g.n_nodes → GConn g src a) (hsrcn : src < g.n_nodes)
    {nodes : List PrimNode} {pq : PairingHeap Nat Wt} {node : Nat}
    {prio : Wt} {pq2 : PairingHeap Nat Wt} (inv : PInv g src nodes pq)
    (hdm : pq.delete_min = some ((node, prio), pq2)) :
    node < g.n_nodes ∧ pliveOf nodes node = true ∧
    prio = pdistOf nodes node ∧
    (∀ y, y < g.n_nodes → pliveOf nodes y = true → y ≠ node →
      prio ≤ pdistOf nodes y) ∧
    (node = src ∨ ∃ p, pparOf nodes node = some p) ∧
    PM g src node
      (nodes.set node ⟨(nodes.getD node pdef).idx,
        (nodes.getD node pdef).parent, false, (nodes.getD node pdef).dist⟩)
      pq2 ∧
    (∀ e ∈ pchosen nodes g.n_nodes,
      e ∈ pchosen (nodes.set node ⟨(nodes.getD node pdef).idx,
        (nodes.getD node pdef).parent, false,
        (nodes.getD node pdef).dist⟩) g.n_nodes) ∧
    (∀ e ∈ pchosen (nodes.set node ⟨(nodes.getD node pdef).idx,
        (nodes.getD node pdef).parent, false,
        (nodes.getD node pdef).dist⟩) g.n_nodes,
      e ∈ pchosen nodes g.n_nodes ∨
        ∃ p, pparOf nodes node = some p ∧
          e = (p, node, pdistOf nodes node)) ∧
    (∀ p, pparOf nodes node = some p →
      (p, node, pdistOf nodes node) ∈ pchosen (nodes.set node
        ⟨(nodes.getD node pdef).idx, (nodes.getD node pdef).parent, false,
          (nodes.getD node pdef).dist⟩) g.n_nodes) := by
  obtain ⟨hwf2, helems, hmin, hlen2⟩ := PairingHeap.delete_min_spec inv.hwf hdm
  have hmem_root : (node, prio) ∈ PH.elems pq.root := by
    rw [helems]
    exact Multiset.mem_cons_self _ _
  obtain ⟨hnlt0, hnlive0, hnd0⟩ := inv.hsound (node, prio) hmem_root
  have hnlt : node < g.n_nodes := hnlt0
  have hnlive : pliveOf nodes node = true := hnlive0
  have hnd : pdistOf nodes node ≤ prio := hnd0
  have hnlen : node < nodes.length := by
    rw [inv.hlen]
    exact hnlt
  have hfst_nodup := inv.hnodup
  rw [helems, Multiset.map_cons] at hfst_nodup
  have hfst0 := Multiset.nodup_cons.1 hfst_nodup
  have hfst2 : node ∉ Multiset.map Prod.fst (PH.elems pq2.root) ∧
      (Multiset.map Prod.fst (PH.elems pq2.root)).Nodup := hfst0
  have hpd : prio = pdistOf nodes node := by
    have hp2 := inv.hpend node hnlt hnlive
    rw [helems, Multiset.mem_cons] at hp2
    rcases hp2 with heq | hp2
    · exact (congrArg Prod.snd heq).symm
    · exact absurd (Multiset.mem_map.2 ⟨(node, pdistOf nodes node), hp2, rfl⟩)
        hfst2.1
  have hminy : ∀ y, y < g.n_nodes → pliveOf nodes y = true → y ≠ node →
      prio ≤ pdistOf nodes y := by
    intro y hy hly hyn
    have h2 := inv.hpend y hy hly
    rw [helems, Multiset.mem_cons] at h2
    rcases h2 with heq | h2
    · exact absurd (congrArg Prod.fst heq) hyn
    · refine hmin (pdistOf nodes y) ?_
      rw [PH.prios]
      exact Multiset.mem_map.2 ⟨(y, pdistOf nodes y), h2, rfl⟩
  have hsrcd : node ≠ src → pliveOf nodes src = false := by
    intro hns
    cases hsl : pliveOf nodes src with
    | false => rfl
    | true =>
      exfalso
      have hall := inv.hsrclive hsl
      have hsmem := inv.hpend src hsrcn hsl
      rw [inv.hsrc.2, helems, Multiset.mem_cons] at hsmem
      rcases hsmem with heq | hsmem
      · exact hns (congrArg Prod.fst heq).symm
      · have hle0 : prio ≤ 0 := by
          refine hmin 0 ?_
          rw [PH.prios]
          exact Multiset.mem_map.2 ⟨(src, 0), hsmem, rfl⟩
        have htop := (hall node hnlt).2 hns
        rw [hpd, htop] at hle0
        have := top_le_iff.1 hle0
        exact absurd this.symm (by decide)
  have hg_self : (nodes.set node ⟨(nodes.getD node pdef).idx,
      (nodes.getD node pdef).parent, false,
      (nodes.getD node pdef).dist⟩).getD node pdef =
      ⟨(nodes.getD node pdef).idx, (nodes.getD node pdef).parent, false,
        (nodes.getD node pdef).dist⟩ := getD_set_self hnlen _ _
  have hg_ne : ∀ u, u ≠ node → (nodes.set node ⟨(nodes.getD node pdef).idx,
      (nodes.getD node pdef).parent, false,
      (nodes.getD node pdef).dist⟩).getD u pdef = nodes.getD u pdef :=
    fun u hu => getD_set_ne (fun h => hu h.symm) _ _
  have hpar_eq : ∀ u, pparOf (nodes.set node ⟨(nodes.getD node pdef).idx,
      (nodes.getD node pdef).parent, false,
      (nodes.getD node pdef).dist⟩) u = pparOf nodes u := by
    intro u
    by_cases hu : u = node
    · rw [hu, pparOf, hg_self, pparOf]
    · rw [pparOf, hg_ne u hu, pparOf]
  have hdist_eq : ∀ u, pdistOf (nodes.set node ⟨(nodes.getD node pdef).idx,
      (nodes.getD node pdef).parent, false,
      (nodes.getD node pdef).dist⟩) u = pdistOf nodes u := by
    intro u
    by_cases hu : u = node
    · rw [hu, pdistOf, hg_self, pdistOf]
    · rw [pdistOf, hg_ne u hu, pdistOf]
  have hidx_eq : ∀ u, ((nodes.set node ⟨(nodes.getD node pdef).idx,
      (nodes.getD node pdef).parent, false,
      (nodes.getD node pdef).dist⟩).getD u pdef).idx =
      (nodes.getD u pdef).idx := by
    intro u
    by_cases hu : u = node
    · rw [hu, hg_self]
    · rw [hg_ne u hu]
  have hlive_ne : ∀ u, u ≠ node → pliveOf (nodes.set node
      ⟨(nodes.getD node pdef).idx, (nodes.getD node pdef).parent, false,
        (nodes.getD node pdef).dist⟩) u = pliveOf nodes u := by
    intro u hu
    rw [pliveOf, hg_ne u hu, pliveOf]
  have hlive_node : pliveOf (nodes.set node ⟨(nodes.getD node pdef).idx,
      (nodes.getD node pdef).parent, false,
      (nodes.getD node pdef).dist⟩) node = false := by
    rw [pliveOf, hg_self]
  have hparnode : node = src ∨ ∃ p, pparOf nodes node = some p := by
    by_cases hns : node = src
    · exact Or.inl hns
    · cases hp : pparOf nodes node with
      | some p => exact Or.inr ⟨p, rfl⟩
      | none =>
        exfalso
        have htop : pdistOf nodes node = ⊤ :=
          inv.hparl node hnlt hns hp
        have hsd : pliveOf nodes src = false := hsrcd hns
        obtain ⟨x, y, hdx, hdy, hadj⟩ :=
          gconn_cross (fun u => !pliveOf nodes u) (hgconn node hnlt)
            (by show (!pliveOf nodes node) = false
                rw [hnlive]
                rfl)
            (by show (!pliveOf nodes src) = true
                rw [hsd]
                rfl)
        have hdx2 : (!pliveOf nodes x) = true := hdx
        have hdy2 : (!pliveOf nodes y) = false := hdy
        have hxdead : pliveOf nodes x = false := by
          cases h : pliveOf nodes x with
          | false => rfl
          | true => rw [h] at hdx2; exact Bool.noConfusion hdx2
        have hylive : pliveOf nodes y = true := by
          cases h : pliveOf nodes y with
          | true => rfl
          | false => rw [h] at hdy2; exact Bool.noConfusion hdy2
        obtain ⟨w, hmemadj⟩ : ∃ w, (y, w) ∈ g.adjL x := by
          rcases hadj with ⟨w, h⟩ | ⟨w, h⟩
          · exact ⟨w, h⟩
          · exact ⟨w, hsym.adjL_symm h⟩
        have hxlt : x < g.n_nodes := hkeys.adjL_key_lt hmemadj
        have hylt : y < g.n_nodes := hdense.adjL_target_lt x (y, w) hmemadj
        have hrel := inv.hrelaxed x hxlt hxdead (y, w) hmemadj hylive
        have hwfin : w ≠ ⊤ := hfin.adjL_fin hmemadj
        by_cases hyn : y = node
        · rw [hyn, htop] at hrel
          exact hwfin (top_le_iff.1 hrel)
        · have h1 := hminy y hylt hylive hyn
          rw [hpd, htop] at h1
          exact hwfin (top_le_iff.1 (le_trans h1 hrel))
  have hc1 : ∀ e ∈ pchosen nodes g.n_nodes,
      e ∈ pchosen (nodes.set node ⟨(nodes.getD node pdef).idx,
        (nodes.getD node pdef).parent, false,
        (nodes.getD node pdef).dist⟩) g.n_nodes := by
    intro e he
    obtain ⟨u, hu, hdead, p2, hp2, rfl⟩ := mem_pchosen.1 he
    have hune : u ≠ node := by
      intro h
      rw [h, hnlive] at hdead
      exact Bool.noConfusion hdead
    refine mem_pchosen.2 ⟨u, hu, ?_, p2, ?_, ?_⟩
    · rw [hlive_ne u hune]
      exact hdead
    · rw [hpar_eq]
      exact hp2
    · rw [hidx_eq, hdist_eq]
  have hc3 : ∀ p, pparOf nodes node = some p →
      (p, node, pdistOf nodes node) ∈ pchosen (nodes.set node
        ⟨(nodes.getD node pdef).idx, (nodes.getD node pdef).parent, false,
          (nodes.getD node pdef).dist⟩) g.n_nodes := by
    intro p hp
    refine mem_pchosen.2 ⟨node, hnlt, hlive_node, p, ?_, ?_⟩
    · rw [hpar_eq]
      exact hp
    · rw [hidx_eq, hdist_eq, inv.hidx node hnlt]
  have hc2 : ∀ e ∈ pchosen (nodes.set node ⟨(nodes.getD node pdef).idx,
      (nodes.getD node pdef).parent, false,
      (nodes.getD node pdef).dist⟩) g.n_nodes,
      e ∈ pchosen nodes g.n_nodes ∨
        ∃ p, pparOf nodes node = some p ∧
          e = (p, node, pdistOf nodes node) := by
    intro e he
    obtain ⟨u, hu, hdead, p2, hp2, rfl⟩ := mem_pchosen.1 he
    by_cases hun : u = node
    · subst hun
      rw [hpar_eq] at hp2
      refine Or.inr ⟨p2, hp2, ?_⟩
      rw [hidx_eq, hdist_eq, inv.hidx u hu]
    · refine Or.inl (mem_pchosen.2 ⟨u, hu, ?_, p2, ?_, ?_⟩)
      · rw [hlive_ne u hun] at hdead
        exact hdead
      · rw [hpar_eq] at hp2
        exact hp2
      · rw [hidx_eq, hdist_eq]
  refine ⟨hnlt, hnlive, hpd, hminy, hparnode, ?_, hc1, hc2, hc3⟩
  refine ⟨hwf2, by rw [List.length_set]; exact inv.hlen, ?_, ?_, ?_, ?_, ?_,
    ?_, hnlt, hlive_node, ?_, ?_, ?_, ?_, ?_⟩
  · intro u hu
    rw [hidx_eq]
    exact inv.hidx u hu
  · exact hfst2.2
  · intro kp hkp
    have hkp_root : kp ∈ PH.elems pq.root := by
      rw [helems]
      exact Multiset.mem_cons_of_mem hkp
    obtain ⟨h1, h2, h3⟩ := inv.hsound kp hkp_root
    have hkne : kp.1 ≠ node := by
      intro h
      refine hfst2.1 ?_
      rw [← h]
      exact Multiset.mem_map.2 ⟨kp, hkp, rfl⟩
    refine ⟨h1, ?_, ?_⟩
    · rw [hlive_ne kp.1 hkne]
      exact h2
    · rw [hdist_eq]
      exact h3
  · intro u hu hul
    have hune : u ≠ node := by
      intro h
      rw [h, hlive_node] at hul
      exact Bool.noConfusion hul
    rw [hlive_ne u hune] at hul
    have h2 := inv.hpend u hu hul
    rw [helems, Multiset.mem_cons] at h2
    rcases h2 with heq | h2
    · exact absurd (congrArg Prod.fst heq) hune
    · rw [hdist_eq]
      exact h2
  · rw [hpar_eq, hdist_eq]
    exact inv.hsrc
  · by_cases hns : node = src
    · rw [← hns]
      exact hlive_node
    · rw [hlive_ne src fun h => hns h.symm]
      exact hsrcd hns
  · intro u hu p hp
    rw [hpar_eq] at hp
    obtain ⟨h1, h2, h3, h4, h5⟩ := inv.hpar u hu p hp
    have hpne : p ≠ node := by
      intro h
      rw [h, hnlive] at h2
      exact Bool.noConfusion h2
    refine ⟨h1, ?_, h3, ?_, ?_⟩
    · rw [hlive_ne p hpne]
      exact h2
    · rw [hdist_eq]
      exact h4
    · rw [hdist_eq]
      exact h5
  · intro u hu hus hp
    rw [hpar_eq] at hp
    rw [hdist_eq]
    exact inv.hparl u hu hus hp
  · intro u hu hus hud
    rw [hpar_eq]
    by_cases hun : u = node
    · subst hun
      rcases hparnode with hns | ⟨p, hp⟩
      · exact absurd hns hus
      · rw [hp]
        simp
    · rw [hlive_ne u hun] at hud
      exact inv.hdeadpar u hu hus hud
  · intro a ha hadead hanode vw hvw hlive2
    rw [hlive_ne a hanode] at hadead
    have hvwne : vw.1 ≠ node := by
      intro h
      rw [h, hlive_node] at hlive2
      exact Bool.noConfusion hlive2
    rw [hlive_ne vw.1 hvwne] at hlive2
    rw [hdist_eq]
    exact inv.hrelaxed a ha hadead vw hvw hlive2
  · intro u hu hud
    by_cases hun : u = node
    · subst hun
      rcases hparnode with hns | ⟨p, hp⟩
      · rw [hns]
        exact EConn.refl _ src
      · obtain ⟨hplt, hpdead, _, _, _⟩ := inv.hpar u hu p hp
        have hp_conn := inv.hconn p hplt hpdead
        obtain ⟨es, hes⟩ := hp_conn
        have hsub : TWalk (pchosen (nodes.set u ⟨(nodes.getD u pdef).idx,
            (nodes.getD u pdef).parent, false,
            (nodes.getD u pdef).dist⟩) g.n_nodes) src p es :=
          twalk_change es src p hes fun e hee =>
            hc1 e (twalk_edges_mem es src p hes e hee)
        refine EConn.trans ⟨es, hsub⟩ ?_
        have hmem := hc3 p hp
        exact econn_step hmem
    · rw [hlive_ne u hun] at hud
      obtain ⟨es, hes⟩ := inv.hconn u hu hud
      exact ⟨es, twalk_change es src u hes fun e hee =>
        hc1 e (twalk_edges_mem es src u hes e hee)⟩

/-- The weight-exchange invariant: there is a connected spanning witness
`T` of weight at most `W` containing every recorded edge. -/
def TExt (g : SimpleGraph) (src : Nat) (W : Wt)
    (nodes : List PrimNode) : Prop :=
  ∃ T : List GEdge, (∀ e ∈ T, (e.2.1, e.2.2) ∈ g.adjL e.1) ∧
    (∀ a, a < g.n_nodes → EConn T src a) ∧ esum T ≤ W ∧
    ∀ c ∈ pchosen nodes g.n_nodes, c ∈ T

/-- The recorded-edge list depends only on liveness and the settled
records. -/
theorem pchosen_congr2 {nodes nodes2 : List PrimNode} {n : Nat}
    (hl : ∀ u, pliveOf nodes2 u = pliveOf nodes u)
    (hd : ∀ u, pliveOf nodes u = false →
      nodes2.getD u pdef = nodes.getD u pdef) :
    pchosen nodes2 n = pchosen nodes n := by
  refine filtermap_congr _ _ _ ?_
  intro u hu
  dsimp only
  by_cases h : pliveOf nodes u = true
  · have h2 : pliveOf nodes2 u = true := by
      rw [hl]
      exact h
    rw [show (nodes2.getD u pdef).live = true from h2,
      show (nodes.getD u pdef).live = true from h]
    rw [if_pos rfl, if_pos rfl]
  · have hfalse : pliveOf nodes u = false := by
      cases hh : pliveOf nodes u with
      | false => rfl
      | true => exact absurd hh h
    rw [hd u hfalse]

/-- Once the settled node's whole adjacency list is relaxed, `PM` gives
back the loop invariant. -/
theorem PM_to_PInv {g : SimpleGraph} {src node : Nat}
    {nodes : List PrimNode} {pq : PairingHeap Nat Wt}
    (hm : PM g src node nodes pq)
    (hrel : ∀ vw ∈ g.adjL node, pliveOf nodes vw.1 = true →
      pdistOf nodes vw.1 ≤ vw.2) :
    PInv g src nodes pq := by
  refine ⟨hm.hwf, hm.hlen, hm.hidx, hm.hnodup, hm.hsound, hm.hpend,
    hm.hsrc, ?_, hm.hpar, hm.hparl, hm.hdeadpar, ?_, hm.hconn⟩
  · intro h
    rw [hm.hsrcdead] at h
    exact Bool.noConfusion h
  · intro a ha hadead vw hvw hlive
    by_cases han : a = node
    · subst han
      exact hrel vw hvw hlive
    · exact hm.hrelaxedX a ha hadead han vw hvw hlive

/-- The Prim loop preserves the state invariant, and preserves the
weight-exchange invariant whenever it holds. -/
theorem prim_loop_inv {g : SimpleGraph} {src : Nat} (W : Wt)
    (hdense : g.WFdense) (hkeys : g.KeysLt) (hsym : g.SymmW)
    (hfin : g.FiniteW) (hgconn : ∀ a, a < g.n_nodes → GConn g src a)
    (hsrcn : src < g.n_nodes) :
    ∀ (fuel : Nat) (pq : PairingHeap Nat Wt) (nodes : List PrimNode),
      PInv g src nodes pq →
      PInv g src (prim_loop g fuel pq nodes).1
        (prim_loop g fuel pq nodes).2 ∧
      (TExt g src W nodes → TExt g src W (prim_loop g fuel pq nodes).1)
  | 0, pq, nodes, hinv => ⟨hinv, fun hext => hext⟩
  | fuel + 1, pq, nodes, hinv => by
    rw [prim_loop]
    cases hdm : pq.delete_min with
    | none => exact ⟨hinv, fun hext => hext⟩
    | some popped =>
      obtain ⟨⟨node, prio⟩, pq2⟩ := popped
      dsimp only
      obtain ⟨hnlt, hnlive, hpd, hminy, hparnode, hpm, hc1, hc2, hc3⟩ :=
        prim_pop hdense hkeys hsym hfin hgconn hsrcn hinv hdm
      have hbothdead := pchosen_dead hinv
      have hext2 : TExt g src W nodes →
          TExt g src W (nodes.set node ⟨(nodes.getD node pdef).idx,
          (nodes.getD node pdef).parent, false,
          (nodes.getD node pdef).dist⟩) := by
        intro hext
        obtain ⟨T, hThalf, hTspan, hTW, hTchosen⟩ := hext
        rcases hparnode with hns | ⟨p, hp⟩
        · refine ⟨T, hThalf, hTspan, hTW, ?_⟩
          intro c hc
          rcases hc2 c hc with hc | ⟨p2, hp2, _⟩
          · exact hTchosen c hc
          · rw [hns] at hp2
            rw [hinv.hsrc.1] at hp2
            exact absurd hp2 (by simp)
        · obtain ⟨hplt, hpdead, hpne, hpedge, hpfin⟩ := hinv.hpar node hnlt p hp
          have hexch := exchange_step (T := T) (fun u => !pliveOf nodes u)
            (p, node, pdistOf nodes node) hsrcn hTspan hplt hnlt
            (by show (!pliveOf nodes p) = true
                rw [hpdead]
                rfl)
            (by show (!pliveOf nodes node) = false
                rw [hnlive]
                rfl)
            ?_
          · obtain ⟨T2, hT2mem, hT2span, hT2sum, hT2estar, hT2keep⟩ := hexch
            refine ⟨T2, ?_, hT2span, le_trans hT2sum hTW, ?_⟩
            · intro e he
              rcases hT2mem e he with he2 | rfl
              · exact hThalf e he2
              · exact hpedge
            · intro c hc
              rcases hc2 c hc with hcold | ⟨p2, hp2, rfl⟩
              · obtain ⟨hd1, hd2⟩ := hbothdead c hcold
                refine hT2keep c (hTchosen c hcold) ?_ ?_
                · show (!pliveOf nodes c.1) = true
                  rw [hd1]
                  rfl
                · show (!pliveOf nodes c.2.1) = true
                  rw [hd2]
                  rfl
              · have hpp : p2 = p := by
                  rw [hp] at hp2
                  exact (Option.some.inj hp2).symm
                rw [hpp]
                exact hT2estar
          · intro f hf hfx
            have hhalf := hThalf f hf
            have hestar2 : pdistOf nodes node ≤ f.2.2 → True := fun _ => trivial
            show pdistOf nodes node ≤ f.2.2
            have hflive : pliveOf nodes f.1 = false ∧
                pliveOf nodes f.2.1 = true ∨
                pliveOf nodes f.1 = true ∧ pliveOf nodes f.2.1 = false := by
              cases h1 : pliveOf nodes f.1 with
              | false =>
                cases h2 : pliveOf nodes f.2.1 with
                | true => exact Or.inl ⟨rfl, rfl⟩
                | false =>
                  exfalso
                  refine hfx ?_
                  show (!pliveOf nodes f.1) = !pliveOf nodes f.2.1
                  rw [h1, h2]
              | true =>
                cases h2 : pliveOf nodes f.2.1 with
                | false => exact Or.inr ⟨rfl, rfl⟩
                | true =>
                  exfalso
                  refine hfx ?_
                  show (!pliveOf nodes f.1) = !pliveOf nodes f.2.1
                  rw [h1, h2]
            rcases hflive with ⟨hdead1, hlive2⟩ | ⟨hlive1, hdead2⟩
            · have hxlt : f.1 < g.n_nodes := hkeys.adjL_key_lt hhalf
              have hylt : f.2.1 < g.n_nodes :=
                hdense.adjL_target_lt f.1 (f.2.1, f.2.2) hhalf
              have hrel := hinv.hrelaxed f.1 hxlt hdead1 (f.2.1, f.2.2)
                hhalf hlive2
              by_cases hyn : f.2.1 = node
              · rw [hyn] at hrel
                exact hrel
              · have h1 := hminy f.2.1 hylt hlive2 hyn
                rw [hpd] at h1
                exact le_trans h1 hrel
            · have hylt : f.1 < g.n_nodes := hkeys.adjL_key_lt hhalf
              have hxlt : f.2.1 < g.n_nodes :=
                hdense.adjL_target_lt f.1 (f.2.1, f.2.2) hhalf
              have hsymedge := hsym.adjL_symm hhalf
              have hrel := hinv.hrelaxed f.2.1 hxlt hdead2 (f.1, f.2.2)
                hsymedge hlive1
              by_cases hyn : f.1 = node
              · rw [hyn] at hrel
                exact hrel
              · have h1 := hminy f.1 hylt hlive1 hyn
                rw [hpd] at h1
                exact le_trans h1 hrel
      cases hnb : g.neighbours node with
      | some nb =>
        dsimp only
        have hadj : g.adjL node = nb := by
          rw [SimpleGraph.adjL, hnb]
          rfl
        obtain ⟨hm_end, hd_end, hl_end, hdr_end, hrel_end⟩ :=
          prim_fold hdense hfin nb
            (nodes.set node ⟨(nodes.getD node pdef).idx,
              (nodes.getD node pdef).parent, false,
              (nodes.getD node pdef).dist⟩, pq2) hpm
            (fun vw hvw => by rw [hadj]; exact hvw)
        have hinv2 : PInv g src
            (nb.foldl (prim_relax node)
              (nodes.set node ⟨(nodes.getD node pdef).idx,
                (nodes.getD node pdef).parent, false,
                (nodes.getD node pdef).dist⟩, pq2)).1
            (nb.foldl (prim_relax node)
              (nodes.set node ⟨(nodes.getD node pdef).idx,
                (nodes.getD node pdef).parent, false,
                (nodes.getD node pdef).dist⟩, pq2)).2 := by
          refine PM_to_PInv hm_end ?_
          intro vw hvw hlv
          exact hrel_end vw (by rw [← hadj]; exact hvw) hlv
        have hchosen_eq : pchosen (nb.foldl (prim_relax node)
            (nodes.set node ⟨(nodes.getD node pdef).idx,
              (nodes.getD node pdef).parent, false,
              (nodes.getD node pdef).dist⟩, pq2)).1 g.n_nodes =
            pchosen (nodes.set node ⟨(nodes.getD node pdef).idx,
              (nodes.getD node pdef).parent, false,
              (nodes.getD node pdef).dist⟩) g.n_nodes :=
          pchosen_congr2 hl_end hdr_end
        have hext3 : TExt g src W nodes →
            TExt g src W (nb.foldl (prim_relax node)
            (nodes.set node ⟨(nodes.getD node pdef).idx,
              (nodes.getD node pdef).parent, false,
              (nodes.getD node pdef).dist⟩, pq2)).1 := by
          intro hext
          obtain ⟨T, h1, h2, h3, h4⟩ := hext2 hext
          refine ⟨T, h1, h2, h3, ?_⟩
          rw [hchosen_eq]
          exact h4
        obtain ⟨hr1, hr2⟩ := prim_loop_inv W hdense hkeys hsym hfin hgconn
          hsrcn fuel _ _ hinv2
        exact ⟨hr1, fun hext => hr2 (hext3 hext)⟩
      | none =>
        dsimp only
        have hadj : g.adjL node = [] := by
          rw [SimpleGraph.adjL, hnb]
          rfl
        have hinv2 : PInv g src (nodes.set node ⟨(nodes.getD node pdef).idx,
            (nodes.getD node pdef).parent, false,
            (nodes.getD node pdef).dist⟩) pq2 := by
          refine PM_to_PInv hpm ?_
          intro vw hvw
          rw [hadj] at hvw
          exact absurd hvw (List.not_mem_nil vw)
        obtain ⟨hr1, hr2⟩ := prim_loop_inv W hdense hkeys hsym hfin hgconn
          hsrcn fuel _ _ hinv2
        exact ⟨hr1, fun hext => hr2 (hext2 hext)⟩

/-! ### Initial state of `mst_prim` -/

theorem prim_setup_nodes (src : Nat) :
    ∀ (l : List Nat) (acc : List PrimNode × PairingHeap Nat Wt),
      (l.foldl (fun st ii =>
        let d : Wt := if ii = src then 0 else ⊤
        (st.1 ++ [⟨ii, none, true, d⟩], st.2.insert ii d)) acc).1 =
      acc.1 ++ l.map fun ii =>
        (⟨ii, none, true, if ii = src then 0 else ⊤⟩ : PrimNode)
  | [], acc => by simp
  | a :: l, acc => by
    rw [List.foldl_cons, prim_setup_nodes src l, List.map_cons]
    simp

theorem prim_setup_wf (src : Nat) :
    ∀ (l : List Nat) (acc : List PrimNode × PairingHeap Nat Wt), acc.2.WF →
      (l.foldl (fun st ii =>
        let d : Wt := if ii = src then 0 else ⊤
        (st.1 ++ [⟨ii, none, true, d⟩], st.2.insert ii d)) acc).2.WF
  | [], acc, h => h
  | a :: l, acc, h => by
    rw [List.foldl_cons]
    exact prim_setup_wf src l _ (PairingHeap.insert_wf h _ _)

theorem prim_setup_elems (src : Nat) :
    ∀ (l : List Nat) (acc : List PrimNode × PairingHeap Nat Wt), acc.2.WF →
      PH.elems (l.foldl (fun st ii =>
        let d : Wt := if ii = src then 0 else ⊤
        (st.1 ++ [⟨ii, none, true, d⟩], st.2.insert ii d)) acc).2.root =
      PH.elems acc.2.root +
        ↑(l.map fun ii => (ii, if ii = src then (0 : Wt) else ⊤))
  | [], acc, h => by simp
  | a :: l, acc, h => by
    have hwfa : (acc.2.insert a (if a = src then (0 : Wt) else ⊤)).WF :=
      PairingHeap.insert_wf h a _
    have ih := prim_setup_elems src l (acc.1 ++ [⟨a, none, true,
        if a = src then 0 else ⊤⟩],
        acc.2.insert a (if a = src then 0 else ⊤)) hwfa
    rw [List.foldl_cons]
    refine Eq.trans ih ?_
    show PH.elems (acc.2.insert a (if a = src then (0 : Wt) else ⊤)).root +
        ↑(l.map fun ii => (ii, if ii = src then (0 : Wt) else ⊤)) =
      PH.elems acc.2.root +
        ↑((a :: l).map fun ii => (ii, if ii = src then (0 : Wt) else ⊤))
    rw [PairingHeap.elems_insert h a _, List.map_cons, ← Multiset.cons_coe,
      ← Multiset.singleton_add, ← Multiset.singleton_add]
    abel

/-- `getD` on a mapped range. -/
theorem getD_map_range {α : Type} (f : Nat → α) (d : α) {n u : Nat}
    (hu : u < n) : ((List.range n).map f).getD u d = f u := by
  rw [List.getD_eq_getElem?_getD, List.getElem?_map, List.getElem?_range hu]
  rfl

/-- The initial Prim state satisfies the loop invariant. -/
theorem prim_init {g : SimpleGraph} {src : Nat} (hsrcn : src < g.n_nodes) :
    PInv g src (prim_setup src g.n_nodes).1 (prim_setup src g.n_nodes).2 := by
  have hnodes : (prim_setup src g.n_nodes).1 =
      (List.range g.n_nodes).map fun ii =>
        (⟨ii, none, true, if ii = src then 0 else ⊤⟩ : PrimNode) := by
    rw [prim_setup, prim_setup_nodes src]
    rfl
  have hwf : (prim_setup src g.n_nodes).2.WF := by
    rw [prim_setup]
    exact prim_setup_wf src _ _ PairingHeap.new_wf
  have helems : PH.elems (prim_setup src g.n_nodes).2.root =
      ↑((List.range g.n_nodes).map fun ii =>
        (ii, if ii = src then (0 : Wt) else ⊤)) := by
    rw [prim_setup]
    have h := prim_setup_elems src (List.range g.n_nodes)
      ([], PairingHeap.new) PairingHeap.new_wf
    rw [h]
    have h0 : PH.elems (PairingHeap.new : PairingHeap Nat Wt).root = 0 := rfl
    rw [h0, zero_add]
  have hget : ∀ u, u < g.n_nodes → (prim_setup src g.n_nodes).1.getD u pdef =
      ⟨u, none, true, if u = src then 0 else ⊤⟩ := by
    intro u hu
    rw [hnodes]
    exact getD_map_range _ _ hu
  have hlive : ∀ u, u < g.n_nodes →
      pliveOf (prim_setup src g.n_nodes).1 u = true := by
    intro u hu
    rw [pliveOf, hget u hu]
  have hdist : ∀ u, u < g.n_nodes → pdistOf (prim_setup src g.n_nodes).1 u =
      if u = src then 0 else ⊤ := by
    intro u hu
    rw [pdistOf, hget u hu]
  have hparn : ∀ u, u < g.n_nodes →
      pparOf (prim_setup src g.n_nodes).1 u = none := by
    intro u hu
    rw [pparOf, hget u hu]
  refine ⟨hwf, ?_, ?_, ?_, ?_, ?_, ?_, ?_, ?_, ?_, ?_, ?_, ?_⟩
  · rw [hnodes, List.length_map, List.length_range]
  · intro u hu
    rw [hget u hu]
  · rw [helems]
    rw [Multiset.map_coe, List.map_map]
    have : (Prod.fst ∘ fun ii => (ii, if ii = src then (0 : Wt) else ⊤)) =
        id := rfl
    rw [this, List.map_id]
    exact Multiset.coe_nodup.2 (List.nodup_range _)
  · intro kp hkp
    rw [helems, Multiset.mem_coe, List.mem_map] at hkp
    obtain ⟨ii, hii, rfl⟩ := hkp
    have hiin := List.mem_range.1 hii
    exact ⟨hiin, hlive ii hiin, le_of_eq (hdist ii hiin)⟩
  · intro u hu _
    rw [helems, Multiset.mem_coe, List.mem_map]
    exact ⟨u, List.mem_range.2 hu, by rw [hdist u hu]⟩
  · constructor
    · exact hparn src hsrcn
    · rw [hdist src hsrcn, if_pos rfl]
  · intro _ u hu
    refine ⟨hlive u hu, ?_⟩
    intro hus
    rw [hdist u hu, if_neg hus]
  · intro u hu p hp
    rw [hparn u hu] at hp
    exact absurd hp (by simp)
  · intro u hu hus _
    rw [hdist u hu, if_neg hus]
  · intro u hu hus hud
    rw [hlive u hu] at hud
    exact absurd hud (by simp)
  · intro a ha hadead
    rw [hlive a ha] at hadead
    exact absurd hadead (by simp)
  · intro u hu hud
    rw [hlive u hu] at hud
    exact absurd hud (by simp)

/-- Initially no edge is recorded. -/
theorem pchosen_init {g : SimpleGraph} {src : Nat} :
    ∀ c, c ∉ pchosen (prim_setup src g.n_nodes).1 g.n_nodes := by
  intro c hc
  obtain ⟨u, hu, hdead, _, _, _⟩ := mem_pchosen.1 hc
  have hnodes : (prim_setup src g.n_nodes).1 =
      (List.range g.n_nodes).map fun ii =>
        (⟨ii, none, true, if ii = src then 0 else ⊤⟩ : PrimNode) := by
    rw [prim_setup, prim_setup_nodes src]
    rfl
  rw [pliveOf, hnodes, getD_map_range _ _ hu] at hdead
  exact Bool.noConfusion hdead

/-! ### From the drained loop state to the output of `mst_prim` -/

theorem list_eq_map_range {α : Type} (d : α) :
    ∀ l : List α, l = (List.range l.length).map fun i => l.getD i d
  | [] => rfl
  | a :: l => by
    have ih := list_eq_map_range d l
    rw [List.length_cons, List.range_succ_eq_map, List.map_cons,
      List.map_map]
    have h2 : ((fun i => (a :: l).getD i d) ∘ Nat.succ) =
        fun i => l.getD i d := funext fun i => rfl
    rw [h2, ← ih]
    rfl

/-- The final fold of `mst_prim`: the total is the weight of the emitted
edges, and the half-edge counter counts two per emitted edge. -/
theorem mst_fold :
    ∀ (l : List PrimNode) (acc : SimpleGraph × Wt),
      (l.foldl (fun acc2 node =>
        match node.parent with
        | some p => (acc2.1.add_weighted_edges p node.idx node.dist,
            acc2.2 + node.dist)
        | none => acc2) acc).2 = acc.2 +
          esum (l.filterMap fun r => r.parent.map fun p =>
            (p, r.idx, r.dist)) ∧
      (l.foldl (fun acc2 node =>
        match node.parent with
        | some p => (acc2.1.add_weighted_edges p node.idx node.dist,
            acc2.2 + node.dist)
        | none => acc2) acc).1.n_edges = acc.1.n_edges +
          2 * (l.filterMap fun r => r.parent.map fun p =>
            (p, r.idx, r.dist)).length
  | [], acc => by
    constructor
    · show acc.2 = acc.2 + esum []
      rw [esum]
      simp
    · simp
  | ⟨idx, parent, live, dist⟩ :: l, acc => by
    cases parent with
    | none =>
      rw [List.foldl_cons, List.filterMap_cons]
      dsimp only
      exact mst_fold l acc
    | some p =>
      have hfm : List.filterMap (fun r => Option.map
          (fun p2 => (p2, r.idx, r.dist)) r.parent)
          ((⟨idx, some p, live, dist⟩ : PrimNode) :: l) =
          (p, idx, dist) :: List.filterMap (fun r => Option.map
            (fun p2 => (p2, r.idx, r.dist)) r.parent) l := rfl
      rw [List.foldl_cons, hfm]
      obtain ⟨h1, h2⟩ :=
        mst_fold l (acc.1.add_weighted_edges p idx dist, acc.2 + dist)
      constructor
      · refine Eq.trans h1 ?_
        show acc.2 + dist + esum _ = acc.2 + esum ((p, idx, dist) :: _)
        rw [esum_cons, ← add_assoc]
      · refine Eq.trans h2 ?_
        have h3 : (acc.1.add_weighted_edges p idx dist).n_edges =
            acc.1.n_edges + 2 := rfl
        show (acc.1.add_weighted_edges p idx dist).n_edges + 2 * _ = _
        rw [h3, List.length_cons]
        omega

/-- When every record is settled, the raw emitted-edge list of `mst_prim`
is exactly `pchosen`. -/
theorem chosenL_eq_pchosen {nodes : List PrimNode} {n : Nat}
    (hlen : nodes.length = n)
    (hdead : ∀ u, u < n → pliveOf nodes u = false) :
    nodes.filterMap (fun r => r.parent.map fun p => (p, r.idx, r.dist)) =
      pchosen nodes n := by
  conv_lhs => rw [list_eq_map_range pdef nodes]
  rw [List.filterMap_map, hlen, pchosen]
  refine filtermap_congr _ _ _ ?_
  intro u hu
  have hd := hdead u (List.mem_range.1 hu)
  rw [pliveOf] at hd
  show ((nodes.getD u pdef).parent.map fun p =>
    (p, (nodes.getD u pdef).idx, (nodes.getD u pdef).dist)) = _
  dsimp only
  rw [hd, if_neg Bool.false_ne_true]

theorem filterMap_length_all_some {α β : Type} {f : α → Option β} :
    ∀ l : List α, (∀ u ∈ l, (f u).isSome = true) →
      (l.filterMap f).length = l.length
  | [], _ => rfl
  | a :: l, h => by
    rw [List.filterMap_cons]
    cases hfa : f a with
    | none =>
      have := h a (List.mem_cons_self _ _)
      rw [hfa] at this
      exact absurd this (by simp)
    | some b =>
      rw [List.length_cons,
        filterMap_length_all_some l fun u hu => h u (List.mem_cons_of_mem _ hu)]
      rfl

theorem filtermap_length_skip_one {α : Type} {f : Nat → Option α} {src : Nat} :
    ∀ l : List Nat, l.Nodup → src ∈ l → f src = none →
      (∀ u ∈ l, u ≠ src → (f u).isSome = true) →
      (l.filterMap f).length = l.length - 1
  | [], _, hmem, _, _ => absurd hmem (List.not_mem_nil src)
  | a :: l, hnd, hmem, hnone, hsome => by
    have hndc := List.nodup_cons.1 hnd
    rw [List.filterMap_cons]
    by_cases has : a = src
    · subst has
      rw [hnone]
      have hall : ∀ u ∈ l, (f u).isSome = true := fun u hu =>
        hsome u (List.mem_cons_of_mem _ hu) fun h => hndc.1 (h ▸ hu)
      rw [filterMap_length_all_some l hall, List.length_cons]
      omega
    · have hmem2 : src ∈ l := by
        rcases List.mem_cons.1 hmem with h | h
        · exact absurd h.symm has
        · exact h
      have hsa : (f a).isSome = true :=
        hsome a (List.mem_cons_self _ _) has
      cases hfa : f a with
      | none =>
        rw [hfa] at hsa
        exact absurd hsa (by simp)
      | some b =>
        have ih := filtermap_length_skip_one l hndc.2 hmem2 hnone
          fun u hu hus => hsome u (List.mem_cons_of_mem _ hu) hus
        have hlp : 0 < l.length := List.length_pos_of_mem hmem2
        rw [List.length_cons, List.length_cons, ih]
        omega

instance instDecidableEtouches (e : GEdge) (a : Nat) :
    Decidable (etouches e a) := by
  unfold etouches
  exact inferInstance

instance instDecidableTWalk (T : List GEdge) :
    (a b : Nat) → (es : List GEdge) → Decidable (TWalk T a b es)
  | a, b, [] => decidable_of_iff (a = b) Iff.rfl
  | a, b, e :: es => by
    haveI := instDecidableTWalk T (eother e a) b es
    exact decidable_of_iff (e ∈ T ∧ etouches e a ∧ TWalk T (eother e a) b es)
      Iff.rfl

/-- C7.  General part: on every symmetric, finite-weight, connected graph
with in-range keys and targets, after a Prim run that drained the heap,
`mst_prim` emits `n_nodes - 1` edges (so `2 * (n_nodes - 1)` half-edges in
the result graph), its total weight is a lower bound for the weight of
every connected spanning edge set of the graph, and that total is attained
by the emitted edge set itself, which is connected and spanning — i.e. the
total equals the weight of a minimum spanning tree.  Concrete part
(scenario S6): on the 9-node example graph, `mst_prim` from sources `0`
and `4` returns the same total weight and result graphs with equal node
counts and equal edge counts. -/
theorem claim_C7_prim_mst :
    (∀ (g : SimpleGraph) (src fuel : Nat),
      g.WFdense → g.KeysLt → g.SymmW → g.FiniteW →
      (∀ a, a < g.n_nodes → GConn g src a) → src < g.n_nodes →
      (prim_loop g fuel (prim_setup src g.n_nodes).2
        (prim_setup src g.n_nodes).1).2.root = PH.nil →
      (mst_prim g src fuel).1.n_edges = 2 * (g.n_nodes - 1) ∧
      (∀ E0 : List GEdge, (∀ e ∈ E0, (e.2.1, e.2.2) ∈ g.adjL e.1) →
        (∀ a, a < g.n_nodes → EConn E0 src a) →
        (mst_prim g src fuel).2 ≤ esum E0) ∧
      ∃ T : List GEdge, (∀ e ∈ T, (e.2.1, e.2.2) ∈ g.adjL e.1) ∧
        (∀ a, a < g.n_nodes → EConn T src a) ∧
        T.length = g.n_nodes - 1 ∧ esum T = (mst_prim g src fuel).2) ∧
    (mst_prim primGraph 0 20).2 = (mst_prim primGraph 4 20).2 ∧
    (mst_prim primGraph 0 20).1.n_nodes =
      (mst_prim primGraph 4 20).1.n_nodes ∧
    (mst_prim primGraph 0 20).1.n_edges =
      (mst_prim primGraph 4 20).1.n_edges := by
  constructor
  · intro g src fuel hdense hkeys hsym hfin hgc hsrcn hdrained
    obtain ⟨hinvF, _⟩ := prim_loop_inv 0 hdense hkeys hsym hfin hgc hsrcn
      fuel (prim_setup src g.n_nodes).2 (prim_setup src g.n_nodes).1
      (prim_init hsrcn)
    have halldead : ∀ u, u < g.n_nodes →
        pliveOf (prim_loop g fuel (prim_setup src g.n_nodes).2
          (prim_setup src g.n_nodes).1).1 u = false := by
      intro u hu
      cases h : pliveOf (prim_loop g fuel (prim_setup src g.n_nodes).2
          (prim_setup src g.n_nodes).1).1 u with
      | false => rfl
      | true =>
        exfalso
        have hmem := hinvF.hpend u hu h
        rw [hdrained] at hmem
        have h0 : PH.elems (PH.nil : PH Nat Wt) = 0 := rfl
        rw [h0] at hmem
        exact Multiset.not_mem_zero _ hmem
    obtain ⟨htot, hedg⟩ := mst_fold (prim_loop g fuel
      (prim_setup src g.n_nodes).2 (prim_setup src g.n_nodes).1).1
      (SimpleGraph.new, 0)
    have hbridge := chosenL_eq_pchosen hinvF.hlen halldead
    have hmstdef : mst_prim g src fuel = ((prim_loop g fuel
        (prim_setup src g.n_nodes).2 (prim_setup src g.n_nodes).1).1.foldl
        (fun acc node =>
          match node.parent with
          | some p => (acc.1.add_weighted_edges p node.idx node.dist,
              acc.2 + node.dist)
          | none => acc) ((SimpleGraph.new, 0) : SimpleGraph × Wt)) := rfl
    have hmst2 : (mst_prim g src fuel).2 =
        esum (pchosen (prim_loop g fuel (prim_setup src g.n_nodes).2
          (prim_setup src g.n_nodes).1).1 g.n_nodes) := by
      rw [hmstdef, htot, hbridge]
      have h0 : ((SimpleGraph.new, 0) : SimpleGraph × Wt).2 = 0 := rfl
      rw [h0, zero_add]
    have hmst1 : (mst_prim g src fuel).1.n_edges =
        2 * (pchosen (prim_loop g fuel (prim_setup src g.n_nodes).2
          (prim_setup src g.n_nodes).1).1 g.n_nodes).length := by
      rw [hmstdef, hedg, hbridge]
      have h0 : ((SimpleGraph.new, 0) : SimpleGraph × Wt).1.n_edges = 0 := rfl
      rw [h0, Nat.zero_add]
    have hlen_chosen : (pchosen (prim_loop g fuel
        (prim_setup src g.n_nodes).2
        (prim_setup src g.n_nodes).1).1 g.n_nodes).length = g.n_nodes - 1 := by
      rw [pchosen]
      refine Eq.trans (filtermap_length_skip_one (List.range g.n_nodes)
        (List.nodup_range _) (List.mem_range.2 hsrcn) ?_ ?_)
        (by rw [List.length_range])
      · dsimp only
        have hd : pliveOf (prim_loop g fuel (prim_setup src g.n_nodes).2
            (prim_setup src g.n_nodes).1).1 src = false := halldead src hsrcn
        rw [pliveOf] at hd
        rw [hd, if_neg Bool.false_ne_true]
        have hpn := hinvF.hsrc.1
        rw [pparOf] at hpn
        rw [hpn]
        rfl
      · intro u hu hus
        dsimp only
        have hu2 := List.mem_range.1 hu
        have hd : pliveOf (prim_loop g fuel (prim_setup src g.n_nodes).2
            (prim_setup src g.n_nodes).1).1 u = false := halldead u hu2
        have hp := hinvF.hdeadpar u hu2 hus hd
        rw [pliveOf] at hd
        rw [hd, if_neg Bool.false_ne_true]
        rw [pparOf] at hp
        cases hpc : ((prim_loop g fuel (prim_setup src g.n_nodes).2
            (prim_setup src g.n_nodes).1).1.getD u pdef).parent with
        | none => exact absurd hpc hp
        | some p => rfl
    refine ⟨?_, ?_, ?_⟩
    · rw [hmst1, hlen_chosen]
    · intro E0 hE0half hE0span
      obtain ⟨_, hTfun⟩ := prim_loop_inv (esum E0) hdense hkeys hsym hfin
        hgc hsrcn fuel (prim_setup src g.n_nodes).2
        (prim_setup src g.n_nodes).1 (prim_init hsrcn)
      obtain ⟨T, hThalf, hTspan, hTW, hTchosen⟩ := hTfun
        ⟨E0, hE0half, hE0span, le_refl _, fun c hc =>
          absurd hc (pchosen_init c)⟩
      rw [hmst2]
      exact le_trans (esum_le_of_nodup_subset _ T (pchosen_nodup hinvF)
        hTchosen) hTW
    · refine ⟨pchosen (prim_loop g fuel (prim_setup src g.n_nodes).2
        (prim_setup src g.n_nodes).1).1 g.n_nodes, pchosen_half hinvF, ?_,
        hlen_chosen, hmst2.symm⟩
      intro a ha
      exact hinvF.hconn a ha (halldead a ha)
  · exact ⟨by decide, by decide, by decide⟩

/-- Witness for C7 at the scenario-S6 graph with source `0` and fuel `20`:
the emitted edge count is `2 (9 - 1)` half-edges and the returned total is
bounded by the weight of the explicit spanning tree
`0-1, 0-7, 7-6, 6-5, 5-2, 2-8, 2-3, 3-4` (of weight `37`). -/
theorem claim_C7_prim_mst_witness :
    (mst_prim primGraph 0 20).1.n_edges = 2 * (primGraph.n_nodes - 1) ∧
    (mst_prim primGraph 0 20).2 ≤
      esum [(0, 1, 4), (0, 7, 8), (7, 6, 1), (6, 5, 2), (5, 2, 4),
        (2, 8, 2), (2, 3, 7), (3, 4, 9)] := by
  have hgc : ∀ a, a < primGraph.n_nodes → GConn primGraph 0 a := by
    have c1 : GConn primGraph 0 1 :=
      Relation.ReflTransGen.single (Or.inl ⟨4, by decide⟩)
    have c2 : GConn primGraph 0 2 := c1.tail (Or.inl ⟨8, by decide⟩)
    have c3 : GConn primGraph 0 3 := c2.tail (Or.inl ⟨7, by decide⟩)
    have c4 : GConn primGraph 0 4 := c3.tail (Or.inl ⟨9, by decide⟩)
    have c5 : GConn primGraph 0 5 := c2.tail (Or.inl ⟨4, by decide⟩)
    have c6 : GConn primGraph 0 6 := c5.tail (Or.inl ⟨2, by decide⟩)
    have c7 : GConn primGraph 0 7 :=
      Relation.ReflTransGen.single (Or.inl ⟨8, by decide⟩)
    have c8 : GConn primGraph 0 8 := c2.tail (Or.inl ⟨2, by decide⟩)
    intro a ha
    rw [show primGraph.n_nodes = 9 from rfl] at ha
    interval_cases a
    · exact Relation.ReflTransGen.refl
    · exact c1
    · exact c2
    · exact c3
    · exact c4
    · exact c5
    · exact c6
    · exact c7
    · exact c8
  have hspan : ∀ a, a < primGraph.n_nodes →
      EConn [(0, 1, 4), (0, 7, 8), (7, 6, 1), (6, 5, 2), (5, 2, 4),
        (2, 8, 2), (2, 3, 7), (3, 4, 9)] 0 a := by
    intro a ha
    rw [show primGraph.n_nodes = 9 from rfl] at ha
    interval_cases a
    · exact ⟨[], by decide⟩
    · exact ⟨[(0, 1, 4)], by decide⟩
    · exact ⟨[(0, 7, 8), (7, 6, 1), (6, 5, 2), (5, 2, 4)], by decide⟩
    · exact ⟨[(0, 7, 8), (7, 6, 1), (6, 5, 2), (5, 2, 4), (2, 3, 7)],
        by decide⟩
    · exact ⟨[(0, 7, 8), (7, 6, 1), (6, 5, 2), (5, 2, 4), (2, 3, 7),
        (3, 4, 9)], by decide⟩
    · exact ⟨[(0, 7, 8), (7, 6, 1), (6, 5, 2)], by decide⟩
    · exact ⟨[(0, 7, 8), (7, 6, 1)], by decide⟩
    · exact ⟨[(0, 7, 8)], by decide⟩
    · exact ⟨[(0, 7, 8), (7, 6, 1), (6, 5, 2), (5, 2, 4), (2, 8, 2)],
        by decide⟩
  have h := claim_C7_prim_mst.1 primGraph 0 20 (by decide) (by decide)
    (by decide) (by decide) hgc (by decide) (by decide)
  exact ⟨h.1, h.2.1 [(0, 1, 4), (0, 7, 8), (7, 6, 1), (6, 5, 2), (5, 2, 4),
    (2, 8, 2), (2, 3, 7), (3, 4, 9)] (by decide) hspan⟩

end Pheap
